import Mathlib

set_option maxRecDepth 20000
set_option maxHeartbeats 1000000

namespace BasedLink

/-! Shallow embedding of the basedlink-backend response normalizer
(`cleanAndParseJSON`, src/src/scripts/test-payment.ts lines 893-958) and of the
HTTP handlers in src/src/server.ts and src/src/routes/grant.ts.  Strings are
modelled as `List Char`; JavaScript string lengths are modelled as character
counts (the sources only ever exercise BMP text).  Functions that scan a string
are written with an explicit fuel argument equal to the string length so that
they are structurally recursive and kernel-evaluable. -/

/-- The backtick character, `Char.ofNat 96`. -/
def btick : Char := Char.ofNat 96

/-- Opening curly brace character. -/
def lbraceC : Char := Char.ofNat 123

/-- Closing curly brace character. -/
def rbraceC : Char := Char.ofNat 125

/-- ASCII lowercasing, the canonicalisation used by a JavaScript
case-insensitive regex without the unicode flag (non-ASCII characters are
compared verbatim there). -/
def lowerChar (c : Char) : Char :=
  if 'A' ≤ c ∧ c ≤ 'Z' then Char.ofNat (c.toNat + 32) else c

/-- The JavaScript whitespace class: the set matched by `\s` in a regex and
removed by `String.prototype.trim`. -/
def jsWS (c : Char) : Bool :=
  c = ' ' ∨ c = '\t' ∨ c = '\n' ∨ c = '\r' ∨ c = Char.ofNat 0x0B ∨
  c = Char.ofNat 0x0C ∨ c = Char.ofNat 0xA0 ∨ c = Char.ofNat 0x1680 ∨
  (Char.ofNat 0x2000 ≤ c ∧ c ≤ Char.ofNat 0x200A) ∨
  c = Char.ofNat 0x2028 ∨ c = Char.ofNat 0x2029 ∨ c = Char.ofNat 0x202F ∨
  c = Char.ofNat 0x205F ∨ c = Char.ofNat 0x3000 ∨ c = Char.ofNat 0xFEFF

/-- JSON whitespace (the only characters `JSON.parse` skips between tokens). -/
def jsonWS (c : Char) : Bool :=
  c = ' ' ∨ c = '\t' ∨ c = '\n' ∨ c = '\r'

/-- JavaScript `String.prototype.trim`. -/
def trimJS (l : List Char) : List Char :=
  ((l.dropWhile jsWS).reverse.dropWhile jsWS).reverse

/-- Prefix test up to a character normalisation `f` (with `f := lowerChar` this
is the matching done by a case-insensitive literal regex, with `f := id` it is
a plain prefix test). -/
def normPref (f : Char → Char) : List Char → List Char → Bool
  | [], _ => true
  | _ :: _, [] => false
  | p :: ps, c :: cs => (f p = f c) && normPref f ps cs

/-- One global left-to-right removal pass of the literal pattern `p` (compared
through `f`), the semantics of JavaScript `str.replace(/pat/g, '')` for a
literal pattern: scan left to right, delete each leftmost non-overlapping
occurrence, never rescanning produced text.  `n` is fuel (call with
`n = l.length`). -/
def removeAllF (f : Char → Char) (p : List Char) : Nat → List Char → List Char
  | _, [] => []
  | 0, l => l
  | n + 1, c :: cs =>
    if normPref f p (c :: cs) then
      removeAllF f p n (List.drop (p.length - 1) cs)
    else
      c :: removeAllF f p n cs

/-- Removal of every occurrence of `p` from `l` (fuel instantiated). -/
def removeAllL (f : Char → Char) (p : List Char) (l : List Char) : List Char :=
  removeAllF f p l.length l

/-- The literal pattern of the regex `/```json/gi` (three backticks then
`json`), stored lowercased. -/
def patJson : List Char := [btick, btick, btick, 'j', 's', 'o', 'n']

/-- The literal pattern of the regex `/```/g`. -/
def patTicks : List Char := [btick, btick, btick]

/-- Step 1 of `cleanAndParseJSON`:
`text.replace(/```json/gi, '').replace(/```/g, '').trim()`. -/
def cleanFences (l : List Char) : List Char :=
  trimJS (removeAllL id patTicks (removeAllL lowerChar patJson l))

/-! ### JSON values and a model of `JSON.parse`

`JSON.parse` is a JavaScript builtin; it is modelled here by a strict
recursive-descent parser over the JSON grammar.  Numbers are kept as their
source lexeme (no claim depends on numeric value semantics); a `\uXXXX` escape
denoting an unpaired surrogate, which Lean's `Char` cannot hold, is mapped to
U+FFFD (no claim exercises that corner). -/

inductive JSValue where
  | null : JSValue
  | bool : Bool → JSValue
  | num : String → JSValue
  | str : String → JSValue
  | arr : List JSValue → JSValue
  | obj : List (String × JSValue) → JSValue

/-- Value of a hex digit, if any. -/
def hexVal (c : Char) : Option Nat :=
  if '0' ≤ c ∧ c ≤ '9' then some (c.toNat - '0'.toNat)
  else if 'a' ≤ c ∧ c ≤ 'f' then some (c.toNat - 'a'.toNat + 10)
  else if 'A' ≤ c ∧ c ≤ 'F' then some (c.toNat - 'A'.toNat + 10)
  else none

/-- Character denoted by a `\uXXXX` escape (U+FFFD for surrogate code points,
which `Char` cannot represent). -/
def charOfCode (n : Nat) : Char :=
  if h : n < 0xd800 ∨ (0xdfff < n ∧ n < 0x110000) then Char.ofNatAux n h
  else Char.ofNat 0xFFFD

/-- Decoded character of a single-letter escape sequence, if valid (the
`\uXXXX` form is handled separately). -/
def escChar (e : Char) : Option Char :=
  if e = '"' then some '"'
  else if e = '\\' then some '\\'
  else if e = '/' then some '/'
  else if e = 'b' then some (Char.ofNat 0x08)
  else if e = 'f' then some (Char.ofNat 0x0C)
  else if e = 'n' then some '\n'
  else if e = 'r' then some '\r'
  else if e = 't' then some '\t'
  else none

/-- Scanner for the body of a JSON string literal, entered just after the
opening quote; returns the decoded characters and the input after the closing
quote.  Rejects raw control characters and invalid escapes, as `JSON.parse`
does (a `\u` escape not followed by four hex digits is invalid). -/
def scanStr : List Char → Option (List Char × List Char)
  | [] => none
  | c :: rest =>
    if c = '"' then some ([], rest)
    else if c = '\\' then
      match rest with
      | [] => none
      | e :: rest2 =>
        if e = 'u' then
          match rest2 with
          | h1 :: h2 :: h3 :: h4 :: rest3 =>
            match hexVal h1, hexVal h2, hexVal h3, hexVal h4 with
            | some a, some b, some cc, some d =>
              (scanStr rest3).map fun x =>
                (charOfCode (((a * 16 + b) * 16 + cc) * 16 + d) :: x.1, x.2)
            | _, _, _, _ => none
          | _ => none
        else
          match escChar e with
          | some d => (scanStr rest2).map fun x => (d :: x.1, x.2)
          | none => none
    else if c.toNat < 0x20 then none
    else (scanStr rest).map fun x => (c :: x.1, x.2)

/-- Decimal digit test (JSON / regex `\d`, ASCII only). -/
def isDig (c : Char) : Bool := '0' ≤ c ∧ c ≤ '9'

/-- The longest digit prefix and the rest (span of `isDig`). -/
def takeDigits : List Char → List Char × List Char
  | [] => ([], [])
  | c :: r =>
    if isDig c then (c :: (takeDigits r).1, (takeDigits r).2)
    else ([], c :: r)

/-- Scanner for the optional fraction part `(\.[0-9]+)?` of a JSON number;
a dot not followed by a digit is an error, as in `JSON.parse`. -/
def scanFrac : List Char → Option (List Char × List Char)
  | [] => some ([], [])
  | c :: r =>
    if c = '.' then
      if (takeDigits r).1 = [] then none
      else some ('.' :: (takeDigits r).1, (takeDigits r).2)
    else some ([], c :: r)

/-- Scanner for the optional exponent part `([eE][+-]?[0-9]+)?` of a JSON
number; an exponent marker without digits is an error. -/
def scanExp : List Char → Option (List Char × List Char)
  | [] => some ([], [])
  | e :: r =>
    if e = 'e' ∨ e = 'E' then
      match r with
      | [] => none
      | s :: r3 =>
        if s = '+' ∨ s = '-' then
          if (takeDigits r3).1 = [] then none
          else some (e :: s :: (takeDigits r3).1, (takeDigits r3).2)
        else
          if (takeDigits r).1 = [] then none
          else some (e :: (takeDigits r).1, (takeDigits r).2)
    else some ([], e :: r)

/-- The fraction and exponent parts of a number lexeme after its integer part
`ip`, assembling the full lexeme. -/
def scanNumTail (ip : List Char) (r1 : List Char) : Option (List Char × List Char) :=
  match scanFrac r1 with
  | none => none
  | some (fp, r2) =>
    match scanExp r2 with
    | none => none
    | some (ep, r3) => some (ip ++ fp ++ ep, r3)

/-- Scanner for an unsigned JSON number lexeme `(0|[1-9][0-9]*)` followed by
the optional fraction and exponent. -/
def scanNumPos : List Char → Option (List Char × List Char)
  | [] => none
  | c :: r =>
    if isDig c then
      if c = '0' then scanNumTail [c] r
      else scanNumTail (c :: (takeDigits r).1) (takeDigits r).2
    else none

/-- Scanner for a JSON number lexeme (strict grammar
`-?(0|[1-9][0-9]*)(\.[0-9]+)?([eE][+-]?[0-9]+)?`); returns the lexeme and the
rest. -/
def scanNum (l : List Char) : Option (List Char × List Char) :=
  match l with
  | '-' :: l1 => (scanNumPos l1).map fun x => ('-' :: x.1, x.2)
  | l1 => scanNumPos l1

/-- Skip JSON whitespace. -/
def skipWsJ (l : List Char) : List Char := l.dropWhile jsonWS

mutual

/-- Recursive-descent JSON value recogniser (model of the core of
`JSON.parse`); expects the value to start at the head (caller skips
whitespace), returns the value and the unconsumed rest. -/
def parseVal : Nat → List Char → Option (JSValue × List Char)
  | 0, _ => none
  | n + 1, l =>
    match l with
    | '"' :: rest => (scanStr rest).map fun x => (.str (String.mk x.1), x.2)
    | '[' :: rest =>
      let r1 := skipWsJ rest
      match r1 with
      | ']' :: r2 => some (.arr [], r2)
      | _ =>
        match parseElems n r1 with
        | some (vs, r2) => some (.arr vs, r2)
        | none => none
    | 't' :: 'r' :: 'u' :: 'e' :: rest => some (.bool true, rest)
    | 'f' :: 'a' :: 'l' :: 's' :: 'e' :: rest => some (.bool false, rest)
    | 'n' :: 'u' :: 'l' :: 'l' :: rest => some (.null, rest)
    | c :: rest =>
      if c = lbraceC then
        let r1 := skipWsJ rest
        match r1 with
        | d :: r2 =>
          if d = rbraceC then some (.obj [], r2)
          else
            match parseMembers n r1 with
            | some (ms, r3) => some (.obj ms, r3)
            | none => none
        | [] => none
      else if c = '-' ∨ isDig c then
        (scanNum (c :: rest)).map fun x => (.num (String.mk x.1), x.2)
      else none
    | [] => none

/-- Parses `value (ws , ws value)* ws ]` inside an array. -/
def parseElems : Nat → List Char → Option (List JSValue × List Char)
  | 0, _ => none
  | n + 1, l =>
    match parseVal n (skipWsJ l) with
    | some (v, r) =>
      match skipWsJ r with
      | ',' :: r2 =>
        match parseElems n r2 with
        | some (vs, r3) => some (v :: vs, r3)
        | none => none
      | ']' :: r2 => some ([v], r2)
      | _ => none
    | none => none

/-- Parses `ws "key" ws : ws value (ws , …)* ws }` inside an object. -/
def parseMembers : Nat → List Char → Option (List (String × JSValue) × List Char)
  | 0, _ => none
  | n + 1, l =>
    match skipWsJ l with
    | '"' :: rest =>
      match scanStr rest with
      | some (k, r) =>
        match skipWsJ r with
        | ':' :: r2 =>
          match parseVal n (skipWsJ r2) with
          | some (v, r3) =>
            match skipWsJ r3 with
            | ',' :: r4 =>
              match parseMembers n r4 with
              | some (ms, r5) => some ((String.mk k, v) :: ms, r5)
              | none => none
            | d :: r4 =>
              if d = rbraceC then some ([(String.mk k, v)], r4) else none
            | [] => none
          | none => none
        | _ => none
      | none => none
    | _ => none

end

/-- Model of `JSON.parse` on a character list: a single JSON value surrounded
only by whitespace; `none` plays the role of the thrown `SyntaxError`. -/
def parseJsonL (l : List Char) : Option JSValue :=
  match parseVal (2 * l.length + 2) (skipWsJ l) with
  | some (v, r) => if skipWsJ r = [] then some v else none
  | none => none

/-! ### Step 3 of the cascade: the newline-repair pass

`cleaned.replace(/\n\s*(?!["}\]])/g, "\\n")`: at each newline, the greedy
`\s*` takes the maximal whitespace run; if the following character is one of
`"`, `}`, `]` the engine backtracks one whitespace character (which then
satisfies the negative lookahead), and if the run is empty the match attempt
fails.  The replacement is the two characters backslash-n. -/

def fixNLF : Nat → List Char → List Char
  | _, [] => []
  | 0, l => l
  | n + 1, c :: cs =>
    if c = '\n' then
      let run := cs.takeWhile jsWS
      let rest := cs.dropWhile jsWS
      match rest with
      | [] => ['\\', 'n']
      | d :: _ =>
        if d = '"' ∨ d = rbraceC ∨ d = ']' then
          match run.getLast? with
          | none => '\n' :: fixNLF n cs
          | some w => '\\' :: 'n' :: fixNLF n (w :: rest)
        else '\\' :: 'n' :: fixNLF n rest
    else c :: fixNLF n cs

/-- The repaired text of stage 3 (fuel instantiated). -/
def fixNewlines (l : List Char) : List Char := fixNLF l.length l

/-- Index of the first occurrence of `c` (JavaScript `indexOf`). -/
def firstIdxOf (c : Char) (l : List Char) : Option Nat := l.findIdx? (· = c)

/-- Index of the last occurrence of `c` (JavaScript `lastIndexOf`). -/
def lastIdxOf (c : Char) (l : List Char) : Option Nat :=
  (l.reverse.findIdx? (· = c)).map (fun i => l.length - 1 - i)

/-- Stages 2 and 3 of the cascade: bracket-substring extraction with strict
JSON parsing, then the newline-repaired retry.  A parse error in the first
attempt (`none` from `parseJsonL`) is a thrown exception caught by the outer
`catch`, which skips the repaired retry; a successful parse of a non-array
falls through to the retry.  Result `some vs` models `return parsed`. -/
def jsonStage (cleaned : List Char) : Option (List JSValue) :=
  let fixedTry : Option (List JSValue) :=
    match parseJsonL (fixNewlines cleaned) with
    | some (.arr vs) => some vs
    | _ => none
  match firstIdxOf '[' cleaned, lastIdxOf ']' cleaned with
  | some fo, some lc =>
    if fo < lc then
      let potential := (cleaned.drop fo).take (lc + 1 - fo)
      match parseJsonL potential with
      | some (.arr vs) => some vs
      | some _ => fixedTry
      | none => none
    else fixedTry
  | _, _ => fixedTry

/-! ### Regex-split machinery for the manual-split fallbacks -/

/-- Does `p` occur as a contiguous substring (JavaScript `includes`)? -/
def containsSub (p : List Char) : List Char → Bool
  | [] => p.isEmpty
  | c :: cs => normPref id p (c :: cs) || containsSub p cs

/-- Splitter engine: `mat l` returns the length (at least 1) of a separator
match starting at the head of `l`, if any; the split walks left to right taking
leftmost non-overlapping matches, like `String.prototype.split` with a regex
that cannot match the empty string.  `n` is fuel (call with `n = l.length`). -/
def splitGo (mat : List Char → Option Nat) : Nat → List Char → List Char → List (List Char)
  | _, [], acc => [acc.reverse]
  | 0, l, acc => [acc.reverse ++ l]
  | n + 1, c :: cs, acc =>
    match mat (c :: cs) with
    | some k => acc.reverse :: splitGo mat n (List.drop (max k 1 - 1) cs) []
    | none => splitGo mat n cs (c :: acc)

/-- Split of `l` at the matches of `mat` (fuel instantiated). -/
def splitBy (mat : List Char → Option Nat) (l : List Char) : List (List Char) :=
  splitGo mat l.length l []

/-- Length of the leading whitespace run (`\s*`). -/
def wsRun (l : List Char) : Nat := (l.takeWhile jsWS).length

/-- Matcher of the 3A separator regex `/",\s*|,\s*"/` at the head of `l`.
In the second alternative the greedy `\s*` with the following `"` is
equivalent to the maximal run followed by a quote check, since every shorter
run is followed by a whitespace character. -/
def quoteSepLen (l : List Char) : Option Nat :=
  match l with
  | '"' :: ',' :: r => some (2 + wsRun r)
  | ',' :: r =>
    match r.dropWhile jsWS with
    | '"' :: _ => some (1 + wsRun r + 1)
    | _ => none
  | _ => none

/-- Matcher for the marker alternative `[\d]+[\.\)]`: the greedy digit run
must be maximal because any shorter run is followed by a digit, which is
neither `.` nor `)`. -/
def digitMarkLen (l : List Char) : Option Nat :=
  let ds := l.takeWhile isDig
  if ds = [] then none
  else
    match l.drop ds.length with
    | '.' :: _ => some (ds.length + 1)
    | ')' :: _ => some (ds.length + 1)
    | _ => none

/-- Matcher for the alternatives `Option \d+` / `Variation \d+` (the word is
compared case-insensitively, the regex carrying the `i` flag); `w` is the
lowercased word including its trailing space. -/
def wordNumLen (w : List Char) (l : List Char) : Option Nat :=
  if normPref lowerChar w l then
    let ds := (l.drop w.length).takeWhile isDig
    if ds = [] then none else some (w.length + ds.length)
  else none

/-- The marker alternation `(?:[\d]+[\.\)]|\-|\*|•|Option \d+|Variation \d+)`
followed by `\s+`: alternatives are tried in order and an alternative whose
trailing `\s+` fails is abandoned for the next one (regex backtracking). -/
def markerThenWs (l : List Char) : Option Nat :=
  let tryWsPlus : Nat → Option Nat := fun k =>
    let w := wsRun (l.drop k)
    if w = 0 then none else some (k + w)
  let alt2 : Option Nat := match l with | '-' :: _ => some 1 | _ => none
  let alt3 : Option Nat := match l with | '*' :: _ => some 1 | _ => none
  let alt4 : Option Nat :=
    match l with
    | c :: _ => if c = Char.ofNat 0x2022 then some 1 else none
    | _ => none
  let alts : List (Option Nat) :=
    [digitMarkLen l, alt2, alt3, alt4,
     wordNumLen ['o', 'p', 't', 'i', 'o', 'n', ' '] l,
     wordNumLen ['v', 'a', 'r', 'i', 'a', 't', 'i', 'o', 'n', ' '] l]
  alts.foldl
    (fun acc a =>
      match acc with
      | some r => some r
      | none => match a with
        | some k => tryWsPlus k
        | none => none)
    none

/-- The `\s*` before the marker, greedy with backtracking: prefer consuming
further whitespace; on failure try the marker at the current position. -/
def wsStarMarker : List Char → Option Nat
  | [] => markerThenWs []
  | c :: cs =>
    if jsWS c then
      match wsStarMarker cs with
      | some k => some (k + 1)
      | none => markerThenWs (c :: cs)
    else markerThenWs (c :: cs)

/-- Matcher of the full 3B separator regex
`/(?:\r\n|\r|\n)\s*(?:[\d]+[\.\)]|\-|\*|•|Option \d+|Variation \d+)\s+/i`. -/
def markerSepLen (l : List Char) : Option Nat :=
  match l with
  | '\r' :: '\n' :: r => (wsStarMarker r).map (· + 2)
  | '\r' :: r => (wsStarMarker r).map (· + 1)
  | '\n' :: r => (wsStarMarker r).map (· + 1)
  | _ => none

/-- Matcher of the stage-4 separator `/\n\n+/`. -/
def blankSepLen (l : List Char) : Option Nat :=
  match l with
  | '\n' :: '\n' :: r => some (2 + (r.takeWhile (· = '\n')).length)
  | _ => none

/-- The per-item cleanup `item.replace(/^\[?"|"?\]?$/g, '')` of stage 3A:
strip a leading `["` or `"`, then on what the scan left strip a trailing
`"]`, `"` or `]`. -/
def stripQB (l : List Char) : List Char :=
  let l1 := match l with
    | '[' :: '"' :: r => r
    | '"' :: r => r
    | _ => l
  match l1.reverse with
  | ']' :: '"' :: r => r.reverse
  | ']' :: r => r.reverse
  | '"' :: r => r.reverse
  | _ => l1

/-- Leading part of the per-item cleanup `item.replace(/^\["|"$|^"|",?$/g, '')`
of stage 3B: strip a leading `["` or `"`.  (A bare trailing comma is not
touched by the trailing part: the last alternative requires a quote.) -/
def stripLeadQ2 : List Char → List Char
  | '[' :: '"' :: r => r
  | '"' :: r => r
  | l => l

/-- Trailing part of the same cleanup: strip a trailing `",` or `"`. -/
def stripTailQ2 (l : List Char) : List Char :=
  match l.reverse with
  | ',' :: '"' :: r => r.reverse
  | '"' :: r => r.reverse
  | _ => l

def stripQB2 (l : List Char) : List Char := stripTailQ2 (stripLeadQ2 l)

/-- Lowercasing of a character list (`toLowerCase`, ASCII model). -/
def lowerL (l : List Char) : List Char := l.map lowerChar

/-- The stage-3B plausibility filter on a (trimmed) candidate item. -/
def keepItem (item : List Char) : Bool :=
  let lower := lowerL item
  if item.length < 5 then false
  else if normPref id ['h', 'e', 'r', 'e', ' ', 'a', 'r', 'e'] lower then false
  else if normPref id
      ['b', 'e', 'r', 'i', 'k', 'u', 't', ' ', 'a', 'd', 'a', 'l', 'a', 'h'] lower then false
  else if normPref id ['s', 'u', 'r', 'e', '!'] lower then false
  else if containsSub
      ['l', 'i', 'n', 'k', 'e', 'd', 'i', 'n', ' ', 'p', 'o', 's', 't'] lower then false
  else true

/-- The guard of the quoted-list fallback:
`cleaned.includes('", "') || cleaned.startsWith('"')`. -/
def quotedListGuard (cleaned : List Char) : Bool :=
  containsSub ['"', ',', ' ', '"'] cleaned ||
    (match cleaned with | '"' :: _ => true | _ => false)

/-- Stage 4A of the cascade (manual split of a quoted comma-separated list),
guarded by `cleaned.includes('", "') || cleaned.startsWith('"')`; accepted
only when more than one item of length above 5 survives. -/
def stage3A (cleaned : List Char) : Option (List (List Char)) :=
  if quotedListGuard cleaned then
    let items :=
      ((splitBy quoteSepLen cleaned).map fun i => trimJS (stripQB i)).filter
        fun i => 5 < i.length
    if 1 < items.length then some items else none
  else none

/-- Stage 4B of the cascade: split the original text on line-start list
markers, trim, filter with `keepItem`, strip residual quotes, accept when more
than one item survives. -/
def stage3B (text : List Char) : Option (List (List Char)) :=
  let validItems :=
    (((splitBy markerSepLen text).map trimJS).filter keepItem).map
      fun i => trimJS (stripQB2 i)
  if 1 < validItems.length then some validItems else none

/-- Stage 5 of the cascade: split the original text on blank lines, trim,
keep paragraphs longer than 20 characters, accept when more than one
survives. -/
def stage4 (text : List Char) : Option (List (List Char)) :=
  let paragraphs :=
    ((splitBy blankSepLen text).map trimJS).filter fun p => 20 < p.length
  if 1 < paragraphs.length then some paragraphs else none

/-- Wrap split pieces as JSON string values (the manual-split branches of the
source return plain JavaScript strings). -/
def strVals (ls : List (List Char)) : List JSValue :=
  ls.map fun l => .str (String.mk l)

/-- The response normalizer `cleanAndParseJSON`
(src/src/scripts/test-payment.ts lines 893-958): fence cleanup, strict and
repaired JSON-array extraction, quoted-list split, list-marker split,
blank-line split, and the original text as last resort. -/
def cleanAndParseJSON (text : String) : List JSValue :=
  let t := text.toList
  let cleaned := cleanFences t
  match jsonStage cleaned with
  | some vs => vs
  | none =>
    match stage3A cleaned with
    | some items => strVals items
    | none =>
      match stage3B t with
      | some items => strVals items
      | none =>
        match stage4 t with
        | some ps => strVals ps
        | none => [.str text]

/-- Input family of the preamble claim: the line `"Here are some options:"`
followed by newline-separated dash-marked items. -/
def dashOptionsText (items : List (List Char)) : List Char :=
  "Here are some options:".toList ++
    (items.map fun it => '\n' :: '-' :: ' ' :: it).flatten

/-! ### Predicates of the fence-stripping parse-preservation argument -/

/-- Ordinary string-body character: consumable by the string scanner as a
plain character (not a quote, not a backslash, not a control character). -/
def strOrd (c : Char) : Bool :=
  c ≠ '"' && c ≠ '\\' && decide (0x20 ≤ c.toNat)

/-- The head of `l`, if any, is not a backtick. -/
def nbHead (l : List Char) : Prop := ∀ c, l.head? = some c → c ≠ btick

/-- Every character of `l` is JSON whitespace. -/
def wsOnly (l : List Char) : Prop := ∀ c ∈ l, jsonWS c = true

/-- Two continuations offering the same one-character lookahead (or the second
empty): every scanner that stops before `r` also stops before `z`. -/
def headCompat (r z : List Char) : Prop :=
  z = [] ∨ ∃ c r2 z2, r = c :: r2 ∧ z = c :: z2

/-- The two facts about a removal pattern used by the parse-preservation
argument: a match can only start at a backtick, and a match consists of
ordinary string-body characters. -/
def GoodPat (f : Char → Char) (p : List Char) : Prop :=
  (∀ c cs, normPref f p (c :: cs) = true → c = btick) ∧
  (∀ c cs, normPref f p (c :: cs) = true →
    ∀ d ∈ cs.take (p.length - 1), strOrd d = true)

/-! ### HTTP handlers (src/src/server.ts, src/src/routes/grant.ts)

Each Express handler is modelled as a pure function from the parsed JSON
request body and an environment recording the outcomes of the external calls
(blockchain RPC, token contract, model provider; `Except Unit` models a
rejected promise / thrown error) to the JSON response sent, paired with a
trace of which external calls were actually issued.  JavaScript truthiness of
the presence checks is modelled on the declared field types: an absent field
is `none`, the empty string and the number 0 are falsy. -/

/-- Truthiness of an optional string request field. -/
def truthyS : Option String → Bool
  | none => false
  | some s => !(s = "")

/-- Truthiness of an optional numeric request field. -/
def truthyI : Option Int → Bool
  | none => false
  | some n => !(n = 0)

/-- Body of `POST /api/payment`. -/
structure PaymentBody where
  user : Option String
  tier : Option Int
  contentId : Option String
  nonce : Option Int
  deadline : Option Int
  signature : Option String

/-- Oracles for the five generation-stage functions of the AI service (each
makes a model-provider call; the orchestrator only consumes their returned
`AIResponse`, whose `result` is the normalizer output and may contain
non-string values).  Every stage catches its own provider errors and returns a
fallback result, so the oracles are total. -/
structure AIEnv where
  topics : Option String → List JSValue × Option String
  hooks : Option JSValue → String → List JSValue × Option String
  bodyStage : Option JSValue → Option JSValue → String → String → List JSValue × Option String
  cta : Option JSValue → String → List JSValue × Option String
  polish : Option JSValue → Int → Int → String × Option String

/-- The tier-shaped result object assembled by `generateTieredContent`
(fields of the three shapes merged; a field absent from a given tier's shape
is `none` / `[]`). -/
structure TierResult where
  tier : Int
  topic : Option JSValue
  hook : Option JSValue
  body : Option JSValue
  hooks : List JSValue
  bodyOptions : List JSValue
  bodies : List JSValue
  ctas : List JSValue
  finalPolished : Option String
  status : String

/-- The tiered generation orchestrator `generateTieredContent`
(src/src/scripts/test-payment.ts lines 1430-1488): fixed input and intent,
a tier-dependent fixed sequence of stage calls, and a fall-through returning
`undefined` (`none`) for any tier outside 1..3.  The second component lists
the stages invoked. -/
def generateTieredContent (tier : Int) (contentId : String) (env : AIEnv) :
    Option TierResult × List String :=
  let input := "AI in Marketing"
  let intent := "educational"
  if tier = 1 then
    let t := env.topics (some input)
    let selectedTopic := t.1.head?
    let h := env.hooks selectedTopic intent
    let b := env.bodyStage h.1.head? selectedTopic intent "short"
    (some ⟨1, selectedTopic, h.1.head?, b.1.head?, [], [], [], [], none, "completed"⟩,
     ["topics", "hooks", "body"])
  else if tier = 2 then
    let t := env.topics (some input)
    let selectedTopic := t.1.head?
    let h := env.hooks selectedTopic intent
    let b := env.bodyStage h.1.head? selectedTopic intent "medium"
    (some ⟨2, selectedTopic, none, none, h.1, b.1, [], [], none, "completed"⟩,
     ["topics", "hooks", "body"])
  else if tier = 3 then
    let t := env.topics (some input)
    let selectedTopic := t.1.head?
    let h := env.hooks selectedTopic intent
    let b := env.bodyStage h.1.head? selectedTopic intent "long"
    let c := env.cta b.1.head? intent
    let p := env.polish b.1.head? 8 5
    (some ⟨3, selectedTopic, none, none, h.1, [], b.1, c.1, some p.1, "completed"⟩,
     ["topics", "hooks", "body", "cta", "polish"])
  else (none, [])

/-- Outcomes of the blockchain interactions of `POST /api/payment`:
the read-only `verifyPaymentSignature` call, the `executePayment`
transaction submission, and `tx.wait()` returning `(receipt.status,
receipt.hash)`. -/
structure PayEnv where
  verify : Except Unit (Bool × String)
  execute : Except Unit String
  wait : Except Unit (Int × String)

/-- Response of `POST /api/payment`. -/
structure PayResp where
  status : Nat
  success : Bool
  error : Option String
  txHash : Option String
  result : Option TierResult

/-- Which external interactions `POST /api/payment` issued. -/
structure PayTrace where
  verifyCalled : Bool
  executeCalled : Bool
  generateCalled : Bool

/-- The `POST /api/payment` handler (src/src/server.ts lines 109-192):
presence check, contract signature verification (402 with the contract's
reason when invalid, 500 when the read call itself throws), transaction
execution and confirmation, then the generation orchestrator. -/
def paymentHandler (b : PaymentBody) (env : PayEnv) (ai : AIEnv) :
    PayResp × PayTrace :=
  if truthyS b.user && truthyI b.tier && truthyS b.contentId && b.nonce.isSome
      && truthyI b.deadline && truthyS b.signature then
    match env.verify with
    | .error _ =>
      (⟨500, false, some "Contract verification failed", none, none⟩,
       ⟨true, false, false⟩)
    | .ok (isValid, reason) =>
      if isValid then
        match env.execute with
        | .error _ =>
          (⟨500, false, some "Transaction execution failed", none, none⟩,
           ⟨true, true, false⟩)
        | .ok _ =>
          match env.wait with
          | .error _ =>
            (⟨500, false, some "Internal server error", none, none⟩,
             ⟨true, true, false⟩)
          | .ok (st, rhash) =>
            if st = 1 then
              let g := generateTieredContent (b.tier.getD 0) (b.contentId.getD "") ai
              (⟨200, true, none, some rhash, g.1⟩, ⟨true, true, true⟩)
            else
              (⟨500, false, some "Transaction reverted", none, none⟩,
               ⟨true, true, false⟩)
      else (⟨402, false, some reason, none, none⟩, ⟨true, false, false⟩)
  else
    (⟨400, false, some "Missing required fields", none, none⟩,
     ⟨false, false, false⟩)

/-- Body of `POST /api/execute-payment`. -/
structure ExecBody where
  userAddress : Option String
  tier : Option Int

/-- Outcomes of the token-contract interactions of
`POST /api/execute-payment`, plus the generated content id. -/
structure ExecEnv where
  allowance : Except Unit Int
  balance : Except Unit Int
  transfer : Except Unit String
  wait : Except Unit (Int × String)
  contentId : String

/-- Response of `POST /api/execute-payment`. -/
structure ExecResp where
  status : Nat
  success : Bool
  error : Option String
  needsApproval : Option Bool
  contentId : Option String
  txHash : Option String
  content : Option (Option Int × String × String)

/-- Which token-contract calls `POST /api/execute-payment` issued. -/
structure ExecTrace where
  allowanceCalled : Bool
  balanceCalled : Bool
  transferCalled : Bool

/-- The tier price table of `POST /api/execute-payment` (USDC base units). -/
def TIERS : Int → Option Int
  | 1 => some 5000000
  | 2 => some 15000000
  | 3 => some 30000000
  | _ => none

/-- The `POST /api/execute-payment` handler (src/src/server.ts lines
195-279): presence and tier checks, allowance check (error with
`needsApproval: true` when insufficient), balance check, `transferFrom`, and
confirmation. -/
def executePaymentHandler (b : ExecBody) (env : ExecEnv) :
    ExecResp × ExecTrace :=
  if truthyS b.userAddress && truthyI b.tier then
    match TIERS (b.tier.getD 0) with
    | none =>
      (⟨400, false, some "Invalid tier", none, none, none, none⟩,
       ⟨false, false, false⟩)
    | some amount =>
      match env.allowance with
      | .error _ =>
        (⟨500, false, some "Execution failed", none, none, none, none⟩,
         ⟨true, false, false⟩)
      | .ok allw =>
        if allw < amount then
          (⟨400, false,
            some "Insufficient USDC allowance. Please enable permissionless mode first.",
            some true, none, none, none⟩,
           ⟨true, false, false⟩)
        else
          match env.balance with
          | .error _ =>
            (⟨500, false, some "Execution failed", none, none, none, none⟩,
             ⟨true, true, false⟩)
          | .ok bal =>
            if bal < amount then
              (⟨400, false, some "Insufficient USDC balance", none, none, none, none⟩,
               ⟨true, true, false⟩)
            else
              match env.transfer with
              | .error _ =>
                (⟨500, false, some "Execution failed", none, none, none, none⟩,
                 ⟨true, true, true⟩)
              | .ok _ =>
                match env.wait with
                | .error _ =>
                  (⟨500, false, some "Execution failed", none, none, none, none⟩,
                   ⟨true, true, true⟩)
                | .ok (st, rhash) =>
                  if st = 1 then
                    (⟨200, true, none, none, some env.contentId, some rhash,
                      some (b.tier, "AI Generated Content",
                        "Content generation triggered successfully via permissionless flow.")⟩,
                     ⟨true, true, true⟩)
                  else
                    (⟨500, false, some "Transaction reverted", none, none, none, none⟩,
                     ⟨true, true, true⟩)
  else
    (⟨400, false, some "Missing userAddress or tier", none, none, none, none⟩,
     ⟨false, false, false⟩)

/-- Body of `POST /api/polish`. -/
structure PolishBody where
  content : Option String
  tone : Option Int
  emojiDensity : Option Int

/-- Outcome of the model-provider chat completion in `polishContent` (the
completion text and the optional provider signature). -/
structure PolishEnv where
  completion : Except Unit (String × Option String)

/-- The `polishContent` stage: always issues a model-provider call (the
second component of the result); on error, or when the completion text is
falsy, the original content is returned. -/
def polishContent (content : Option String) (tone emojiDensity : Option Int)
    (env : PolishEnv) : (Option String × Option String) × Bool :=
  match env.completion with
  | .ok (s, sig) => ((if s = "" then content else some s, sig), true)
  | .error _ => ((content, none), true)

/-- Response of `POST /api/polish`. -/
structure PolishResp where
  status : Nat
  result : Option (Option String)
  signature : Option String
  error : Option String

/-- The `POST /api/polish` handler: no field validation at all; the body
fields are forwarded directly to `polishContent`.  The second component
records whether a model-provider call was issued. -/
def polishHandler (b : PolishBody) (env : PolishEnv) : PolishResp × Bool :=
  let r := polishContent b.content b.tone b.emojiDensity env
  (⟨200, some r.1.1, r.1.2, none⟩, r.2)

/-- Body of `POST /api/generate`. -/
structure GenBody where
  step : Option String
  input : Option String
  context : Option String
  intent : Option String
  length : Option String
  model : Option String
  researchDepth : Option Int
  grantMessage : Option String
  grantSignature : Option String
  walletAddress : Option String

/-- The optional grant-auth triple forwarded to the stage functions. -/
structure GrantAuth where
  grantMessage : Option String
  grantSignature : Option String
  walletAddress : Option String

/-- Grant extraction of the `/api/generate` route: present exactly when
`grantMessage` is present. -/
def genGrant (b : GenBody) : Option GrantAuth :=
  if b.grantMessage.isSome then
    some ⟨b.grantMessage, b.grantSignature, b.walletAddress⟩
  else none

/-- Oracles for the four stage functions reachable from `/api/generate`
(each issues model-provider — and for the body stage also search — calls). -/
structure GenEnv where
  topicsStage : Option String → Option Int → Option String → Option GrantAuth →
    List JSValue × Option String
  hooksStage : Option String → Option String → Option String → Option GrantAuth →
    List JSValue × Option String
  bodyGen : Option String → Option String → Option String → Option String →
    Option String → Option GrantAuth → List JSValue × Option String
  ctaStage : Option String → Option String → Option String → Option GrantAuth →
    List JSValue × Option String

/-- Response of `POST /api/generate`. -/
structure GenResp where
  status : Nat
  result : Option (List JSValue)
  signature : Option String
  error : Option String

/-- The `POST /api/generate` handler (src/src/routes/grant.ts part, lines
30-71): switch on `step`; only an unknown or missing step is rejected (400,
before any external call); a known step calls its stage function regardless
of the other fields.  The second component records whether an external call
was issued. -/
def generateHandler (b : GenBody) (env : GenEnv) : GenResp × Bool :=
  let grant := genGrant b
  match b.step with
  | some s =>
    if s = "topics" then
      let r := env.topicsStage b.input b.researchDepth b.model grant
      (⟨200, some r.1, r.2, none⟩, true)
    else if s = "hooks" then
      let r := env.hooksStage b.input b.intent b.model grant
      (⟨200, some r.1, r.2, none⟩, true)
    else if s = "body" then
      let r := env.bodyGen b.input b.context b.intent b.length b.model grant
      (⟨200, some r.1, r.2, none⟩, true)
    else if s = "cta" then
      let r := env.ctaStage b.input b.intent b.model grant
      (⟨200, some r.1, r.2, none⟩, true)
    else (⟨400, none, none, some "Invalid step"⟩, false)
  | none => (⟨400, none, none, some "Invalid step"⟩, false)

/-- A simple `(status, payload, error)` response shape for the faucet and
grant-message routes. -/
structure SimpleResp where
  status : Nat
  payload : Option String
  error : Option String

/-- Outcomes of the faucet token transfer. -/
structure FaucetEnv where
  transfer : Except Unit String
  wait : Except Unit Unit

/-- The `POST /api/faucet` handler (src/src/server.ts lines 35-70): presence
check before any chain interaction, then `transfer` and confirmation.  The
second component records whether the transfer transaction was issued. -/
def faucetHandler (userAddress : Option String) (env : FaucetEnv) :
    SimpleResp × Bool :=
  if truthyS userAddress then
    match env.transfer with
    | .error _ => (⟨500, none, some "Faucet failed"⟩, true)
    | .ok h =>
      match env.wait with
      | .error _ => (⟨500, none, some "Faucet failed"⟩, true)
      | .ok _ => (⟨200, some h, none⟩, true)
  else (⟨400, none, some "Missing userAddress"⟩, false)

/-- Outcome of the upstream grant-issuance API call. -/
structure GrantEnv where
  message : Except String String

/-- The `GET /api/grant/message` handler (src/src/routes/grant.ts lines
6-20): presence check on the `address` query parameter before the upstream
call.  The second component records whether the upstream call was issued. -/
def grantMessageHandler (address : Option String) (env : GrantEnv) :
    SimpleResp × Bool :=
  if truthyS address then
    match env.message with
    | .ok m => (⟨200, some m, none⟩, true)
    | .error e => (⟨500, none, some e⟩, true)
  else (⟨400, none, some "Missing wallet address"⟩, false)

/-! ## Theorems -/

/-- Stage 3A only accepts a split with more than one surviving item. -/
theorem stage3A_pos {c : List Char} {items : List (List Char)}
    (h : stage3A c = some items) : 1 < items.length := by
  simp only [stage3A] at h
  split at h
  · split at h
    · cases h; assumption
    · cases h
  · cases h

/-- Stage 3B only accepts a split with more than one surviving item. -/
theorem stage3B_pos {t : List Char} {items : List (List Char)}
    (h : stage3B t = some items) : 1 < items.length := by
  simp only [stage3B] at h
  split at h
  · cases h; assumption
  · cases h

/-- Stage 4 only accepts a split with more than one surviving paragraph. -/
theorem stage4_pos {t : List Char} {ps : List (List Char)}
    (h : stage4 t = some ps) : 1 < ps.length := by
  simp only [stage4] at h
  split at h
  · cases h; assumption
  · cases h

/-- A list with more than one element is wrapped to a non-empty value list. -/
theorem strVals_ne_nil {ps : List (List Char)} (h : 1 < ps.length) :
    strVals ps ≠ [] := by
  intro hc
  have := congrArg List.length hc
  simp only [strVals, List.length_map, List.length_nil] at this
  omega

/-- Claim C1, counterexample: the input `"[]"` parses as the empty JSON array
and is returned as the empty sequence, so the normalizer does not return a
non-empty sequence on every input. -/
theorem c1_empty_array_input :
    cleanAndParseJSON "[]" = ([] : List JSValue) := rfl

/-- Claim C1, amended: the normalizer always terminates, and on every input on
which the strict / repaired JSON-array extraction does not itself return, the
result is non-empty (each manual-split stage requires more than one item, and
the final fallback is the one-element original text), so an empty sequence can
only come out of the JSON extraction itself, e.g. on input `"[]"`.  No stage
guarantees non-empty elements: the empty input reaches the final fallback and
yields a one-element sequence containing the empty string. -/
theorem c1_amended_nonempty_unless_json :
    (∀ t : String, jsonStage (cleanFences t.toList) = none →
      cleanAndParseJSON t ≠ []) ∧
    cleanAndParseJSON "" = [JSValue.str ""] := by
  constructor
  · intro t h
    unfold cleanAndParseJSON
    simp only [h]
    rcases h3 : stage3A (cleanFences t.toList) with _ | items
    · rcases h3b : stage3B t.toList with _ | items
      · rcases h4 : stage4 t.toList with _ | ps
        · simp
        · exact strVals_ne_nil (stage4_pos h4)
      · exact strVals_ne_nil (stage3B_pos h3b)
    · exact strVals_ne_nil (stage3A_pos h3)
  · rfl

/-- Witness for the amended C1: a plain word fails every JSON extraction and
yields a non-empty result. -/
theorem c1_amended_nonempty_unless_json_witness :
    jsonStage (cleanFences "hello".toList) = none ∧
    cleanAndParseJSON "hello" ≠ [] :=
  ⟨rfl, c1_amended_nonempty_unless_json.1 "hello" rfl⟩

/-- Claim C6: for the input `'["a", "b", "c"]'` the normalizer returns exactly
the three-element sequence `["a", "b", "c"]`, in order, unmodified. -/
theorem c6_strict_json_array :
    cleanAndParseJSON "[\"a\", \"b\", \"c\"]" = [.str "a", .str "b", .str "c"] := rfl

/-- Claim C4, counterexample: on `"1. First item\n2. Second item\n3. Third
item"` the normalizer keeps the leading `"1. "` of the first item (the split
regex requires a newline before a marker), so the claimed all-stripped result
is not returned. -/
theorem c4_first_ordinal_not_stripped :
    cleanAndParseJSON "1. First item\n2. Second item\n3. Third item" =
      [.str "1. First item", .str "Second item", .str "Third item"] ∧
    cleanAndParseJSON "1. First item\n2. Second item\n3. Third item" ≠
      [.str "First item", .str "Second item", .str "Third item"] := by
  refine ⟨rfl, ?_⟩
  intro h
  rw [show cleanAndParseJSON "1. First item\n2. Second item\n3. Third item" =
      [.str "1. First item", .str "Second item", .str "Third item"] from rfl] at h
  simp only [List.cons.injEq, JSValue.str.injEq] at h
  exact absurd h.1 (by decide)

/-- Claim C4, amended: the normalizer returns exactly three items; the second
and third have their ordinal markers stripped, while the first retains its
leading `"1. "`. -/
theorem c4_amended_three_items :
    cleanAndParseJSON "1. First item\n2. Second item\n3. Third item" =
      [.str "1. First item", .str "Second item", .str "Third item"] := rfl

/-- Claim C2: whenever the contract's read-only verification reports the
request invalid with some reason, `/api/payment` answers HTTP 402 with
`success: false` and that reason, and neither the `executePayment` transaction
nor the generation orchestrator is invoked. -/
theorem c2_payment_invalid_signature_402 (b : PaymentBody) (env : PayEnv)
    (ai : AIEnv) (reason : String)
    (hpresent : (truthyS b.user && truthyI b.tier && truthyS b.contentId &&
      b.nonce.isSome && truthyI b.deadline && truthyS b.signature) = true)
    (hverify : env.verify = .ok (false, reason)) :
    (paymentHandler b env ai).1 = ⟨402, false, some reason, none, none⟩ ∧
    (paymentHandler b env ai).2.executeCalled = false ∧
    (paymentHandler b env ai).2.generateCalled = false := by
  simp [paymentHandler, hpresent, hverify]

/-- Witness for C2 at a concrete request and contract answer. -/
theorem c2_payment_invalid_signature_402_witness :
    (paymentHandler ⟨some "0xabc", some 1, some "cid-1", some 0,
        some 1700000000, some "0xsig"⟩
      ⟨.ok (false, "Invalid signature"), .ok "0xtx", .ok (1, "0xtx")⟩
      ⟨fun _ => ([], none), fun _ _ => ([], none), fun _ _ _ _ => ([], none),
       fun _ _ => ([], none), fun _ _ _ => ("", none)⟩).1 =
      ⟨402, false, some "Invalid signature", none, none⟩ ∧
    (paymentHandler ⟨some "0xabc", some 1, some "cid-1", some 0,
        some 1700000000, some "0xsig"⟩
      ⟨.ok (false, "Invalid signature"), .ok "0xtx", .ok (1, "0xtx")⟩
      ⟨fun _ => ([], none), fun _ _ => ([], none), fun _ _ _ _ => ([], none),
       fun _ _ => ([], none), fun _ _ _ => ("", none)⟩).2.executeCalled = false ∧
    (paymentHandler ⟨some "0xabc", some 1, some "cid-1", some 0,
        some 1700000000, some "0xsig"⟩
      ⟨.ok (false, "Invalid signature"), .ok "0xtx", .ok (1, "0xtx")⟩
      ⟨fun _ => ([], none), fun _ _ => ([], none), fun _ _ _ _ => ([], none),
       fun _ _ => ([], none), fun _ _ _ => ("", none)⟩).2.generateCalled = false :=
  c2_payment_invalid_signature_402 _ _ _ "Invalid signature" rfl rfl

/-- Claim C5: on `/api/execute-payment` with a valid tier, an allowance below
the tier price yields an error response with `needsApproval: true` and
`success: false`, and `transferFrom` is never issued. -/
theorem c5_execute_payment_insufficient_allowance (b : ExecBody) (env : ExecEnv)
    (amount allw : Int)
    (hpresent : (truthyS b.userAddress && truthyI b.tier) = true)
    (htier : TIERS (b.tier.getD 0) = some amount)
    (hallw : env.allowance = .ok allw) (hlt : allw < amount) :
    (executePaymentHandler b env).1.status = 400 ∧
    (executePaymentHandler b env).1.success = false ∧
    (executePaymentHandler b env).1.needsApproval = some true ∧
    (executePaymentHandler b env).2.transferCalled = false := by
  simp [executePaymentHandler, hpresent, htier, hallw, hlt]

/-- Witness for C5: tier 1, zero allowance. -/
theorem c5_execute_payment_insufficient_allowance_witness :
    (executePaymentHandler ⟨some "0xabc", some 1⟩
      ⟨.ok 0, .ok 10000000, .ok "0xtx", .ok (1, "0xtx"), "linkid-1"⟩).1.status = 400 ∧
    (executePaymentHandler ⟨some "0xabc", some 1⟩
      ⟨.ok 0, .ok 10000000, .ok "0xtx", .ok (1, "0xtx"), "linkid-1"⟩).1.success = false ∧
    (executePaymentHandler ⟨some "0xabc", some 1⟩
      ⟨.ok 0, .ok 10000000, .ok "0xtx", .ok (1, "0xtx"), "linkid-1"⟩).1.needsApproval
        = some true ∧
    (executePaymentHandler ⟨some "0xabc", some 1⟩
      ⟨.ok 0, .ok 10000000, .ok "0xtx", .ok (1, "0xtx"),
        "linkid-1"⟩).2.transferCalled = false :=
  c5_execute_payment_insufficient_allowance _ _ 5000000 0 rfl rfl rfl (by decide)

/-- Claim C3, counterexample: `/api/polish` with every field missing does not
answer 400; it issues the model-provider call and answers 200, refuting the
claim that every endpoint rejects missing required fields before any external
call. -/
theorem c3_polish_no_validation :
    (polishHandler ⟨none, none, none⟩ ⟨.ok ("polished", none)⟩).2 = true ∧
    (polishHandler ⟨none, none, none⟩ ⟨.ok ("polished", none)⟩).1.status = 200 :=
  ⟨rfl, rfl⟩

/-- Claim C3, amended: the missing-field-means-400-before-any-external-call
guarantee holds for `/api/payment`, `/api/execute-payment`, `/api/faucet`,
`/api/grant/message`, and for the `step` field of `/api/generate`; it does not
hold for `/api/polish` (no validation at all) nor for the other fields of
`/api/generate`. -/
theorem c3_amended_missing_field_400
    (pb : PaymentBody) (penv : PayEnv) (ai : AIEnv)
    (eb : ExecBody) (eenv : ExecEnv)
    (gb : GenBody) (genv : GenEnv)
    (fa : Option String) (fenv : FaucetEnv)
    (ga : Option String) (grenv : GrantEnv)
    (hpb : (truthyS pb.user && truthyI pb.tier && truthyS pb.contentId &&
      pb.nonce.isSome && truthyI pb.deadline && truthyS pb.signature) = false)
    (heb : (truthyS eb.userAddress && truthyI eb.tier) = false)
    (hgb : gb.step = none)
    (hfa : truthyS fa = false)
    (hga : truthyS ga = false) :
    ((paymentHandler pb penv ai).1.status = 400 ∧
      (paymentHandler pb penv ai).2 = ⟨false, false, false⟩) ∧
    ((executePaymentHandler eb eenv).1.status = 400 ∧
      (executePaymentHandler eb eenv).2 = ⟨false, false, false⟩) ∧
    ((generateHandler gb genv).1.status = 400 ∧
      (generateHandler gb genv).2 = false) ∧
    ((faucetHandler fa fenv).1.status = 400 ∧ (faucetHandler fa fenv).2 = false) ∧
    ((grantMessageHandler ga grenv).1.status = 400 ∧
      (grantMessageHandler ga grenv).2 = false) := by
  refine ⟨?_, ?_, ?_, ?_, ?_⟩
  · simp [paymentHandler, hpb]
  · simp [executePaymentHandler, heb]
  · simp [generateHandler, hgb]
  · simp [faucetHandler, hfa]
  · simp [grantMessageHandler, hga]

/-- Witness for the amended C3 at concrete all-missing requests. -/
theorem c3_amended_missing_field_400_witness :
    ((paymentHandler ⟨none, none, none, none, none, none⟩
        ⟨.ok (true, ""), .ok "0xtx", .ok (1, "0xtx")⟩
        ⟨fun _ => ([], none), fun _ _ => ([], none), fun _ _ _ _ => ([], none),
         fun _ _ => ([], none), fun _ _ _ => ("", none)⟩).1.status = 400 ∧
      (paymentHandler ⟨none, none, none, none, none, none⟩
        ⟨.ok (true, ""), .ok "0xtx", .ok (1, "0xtx")⟩
        ⟨fun _ => ([], none), fun _ _ => ([], none), fun _ _ _ _ => ([], none),
         fun _ _ => ([], none), fun _ _ _ => ("", none)⟩).2 =
        ⟨false, false, false⟩) ∧
    ((executePaymentHandler ⟨none, none⟩
        ⟨.ok 0, .ok 0, .ok "0xtx", .ok (1, "0xtx"), "linkid-1"⟩).1.status = 400 ∧
      (executePaymentHandler ⟨none, none⟩
        ⟨.ok 0, .ok 0, .ok "0xtx", .ok (1, "0xtx"), "linkid-1"⟩).2 =
        ⟨false, false, false⟩) ∧
    ((generateHandler ⟨none, none, none, none, none, none, none, none, none, none⟩
        ⟨fun _ _ _ _ => ([], none), fun _ _ _ _ => ([], none),
         fun _ _ _ _ _ _ => ([], none), fun _ _ _ _ => ([], none)⟩).1.status = 400 ∧
      (generateHandler ⟨none, none, none, none, none, none, none, none, none, none⟩
        ⟨fun _ _ _ _ => ([], none), fun _ _ _ _ => ([], none),
         fun _ _ _ _ _ _ => ([], none), fun _ _ _ _ => ([], none)⟩).2 = false) ∧
    ((faucetHandler none ⟨.ok "0xtx", .ok ()⟩).1.status = 400 ∧
      (faucetHandler none ⟨.ok "0xtx", .ok ()⟩).2 = false) ∧
    ((grantMessageHandler none ⟨.ok "msg"⟩).1.status = 400 ∧
      (grantMessageHandler none ⟨.ok "msg"⟩).2 = false) :=
  c3_amended_missing_field_400 _ _ _ _ _ _ _ _ _ _ _ rfl rfl rfl rfl rfl

/-- Claim C10: for any tier outside 1..3, `generateTieredContent` returns
`undefined` (`none`) without invoking any stage, and a `/api/payment` request
carrying such a tier that passes the presence check and the contract calls
yields a success response whose `result` field is absent. -/
theorem c10_unknown_tier_undefined (t : Int) (cid : String) (ai : AIEnv)
    (h1 : t ≠ 1) (h2 : t ≠ 2) (h3 : t ≠ 3) :
    generateTieredContent t cid ai = (none, []) ∧
    ∀ (b : PaymentBody) (env : PayEnv) (reason txh rhash : String),
      b.tier = some t →
      (truthyS b.user && truthyI b.tier && truthyS b.contentId &&
        b.nonce.isSome && truthyI b.deadline && truthyS b.signature) = true →
      env.verify = .ok (true, reason) → env.execute = .ok txh →
      env.wait = .ok (1, rhash) →
      (paymentHandler b env ai).1 = ⟨200, true, none, some rhash, none⟩ := by
  constructor
  · simp [generateTieredContent, h1, h2, h3]
  · intro b env reason txh rhash hbt hp hv he hw
    have h4 : b.tier.getD 0 = t := by rw [hbt]; rfl
    simp [paymentHandler, hp, hv, he, hw, h4, generateTieredContent, h1, h2, h3]

/-- Witness for C10 at tier 4. -/
theorem c10_unknown_tier_undefined_witness :
    generateTieredContent 4 "cid-1"
      ⟨fun _ => ([], none), fun _ _ => ([], none), fun _ _ _ _ => ([], none),
       fun _ _ => ([], none), fun _ _ _ => ("", none)⟩ = (none, []) ∧
    ∀ (b : PaymentBody) (env : PayEnv) (reason txh rhash : String),
      b.tier = some 4 →
      (truthyS b.user && truthyI b.tier && truthyS b.contentId &&
        b.nonce.isSome && truthyI b.deadline && truthyS b.signature) = true →
      env.verify = .ok (true, reason) → env.execute = .ok txh →
      env.wait = .ok (1, rhash) →
      (paymentHandler b env
        ⟨fun _ => ([], none), fun _ _ => ([], none), fun _ _ _ _ => ([], none),
         fun _ _ => ([], none), fun _ _ _ => ("", none)⟩).1 =
        ⟨200, true, none, some rhash, none⟩ :=
  c10_unknown_tier_undefined 4 "cid-1" _ (by decide) (by decide) (by decide)

/-- Characters of a removal pass are characters of the input. -/
theorem mem_removeAllF {f : Char → Char} {p : List Char} :
    ∀ {n : Nat} {l : List Char} {c : Char}, c ∈ removeAllF f p n l → c ∈ l := by
  intro n
  induction n with
  | zero =>
    intro l c h
    cases l with
    | nil => simp [removeAllF] at h
    | cons a as => simpa [removeAllF] using h
  | succ n ih =>
    intro l c h
    cases l with
    | nil => simp [removeAllF] at h
    | cons a as =>
      simp only [removeAllF] at h
      split at h
      · exact List.mem_cons_of_mem _ (List.mem_of_mem_drop (ih h))
      · rcases List.mem_cons.mp h with h | h
        · exact h ▸ List.mem_cons_self _ _
        · exact List.mem_cons_of_mem _ (ih h)

/-- Characters of the trimmed string are characters of the input. -/
theorem mem_trimJS {l : List Char} {c : Char} (h : c ∈ trimJS l) : c ∈ l := by
  simp only [trimJS, List.mem_reverse] at h
  have h2 : c ∈ (l.dropWhile jsWS).reverse :=
    List.Sublist.mem h (List.dropWhile_sublist jsWS)
  exact List.Sublist.mem (List.mem_reverse.mp h2) (List.dropWhile_sublist jsWS)

/-- Characters of the cleaned string are characters of the input. -/
theorem mem_cleanFences {l : List Char} {c : Char} (h : c ∈ cleanFences l) :
    c ∈ l := by
  simp only [cleanFences, removeAllL] at h
  exact mem_removeAllF (mem_removeAllF (mem_trimJS h))

/-- The newline repair introduces only backslash and `n` characters. -/
theorem mem_fixNLF :
    ∀ {n : Nat} {l : List Char} {c : Char},
      c ∈ fixNLF n l → c ∈ l ∨ c = '\\' ∨ c = 'n' := by
  intro n
  induction n with
  | zero =>
    intro l c h
    cases l with
    | nil => simp [fixNLF] at h
    | cons a as => exact Or.inl (by simpa [fixNLF] using h)
  | succ n ih =>
    intro l c h
    cases l with
    | nil => simp [fixNLF] at h
    | cons a as =>
      simp only [fixNLF] at h
      split at h
      case isTrue ha =>
        split at h
        · simp only [List.mem_cons, List.not_mem_nil, or_false] at h
          exact Or.inr h
        case h_2 d ds heq =>
          split at h
          case isTrue hban =>
            split at h
            case h_1 hlast =>
              rcases List.mem_cons.mp h with h | h
              · exact Or.inl (by rw [h, ha]; exact List.mem_cons_self _ _)
              · rcases ih h with hm | hm
                · exact Or.inl (List.mem_cons_of_mem _ hm)
                · exact Or.inr hm
            case h_2 w hlast =>
              rcases List.mem_cons.mp h with h | h
              · exact Or.inr (Or.inl h)
              · rcases List.mem_cons.mp h with h | h
                · exact Or.inr (Or.inr h)
                · rcases ih h with hm | hm
                  · rcases List.mem_cons.mp hm with hm | hm
                    · refine Or.inl (List.mem_cons_of_mem _ ?_)
                      rw [hm]
                      exact List.Sublist.mem (List.mem_of_mem_getLast? hlast)
                        (List.takeWhile_sublist jsWS)
                    · exact Or.inl (List.mem_cons_of_mem _
                        (List.Sublist.mem hm (List.dropWhile_sublist jsWS)))
                  · exact Or.inr hm
          case isFalse hban =>
            rcases List.mem_cons.mp h with h | h
            · exact Or.inr (Or.inl h)
            · rcases List.mem_cons.mp h with h | h
              · exact Or.inr (Or.inr h)
              · rcases ih h with hm | hm
                · exact Or.inl (List.mem_cons_of_mem _
                    (List.Sublist.mem hm (List.dropWhile_sublist jsWS)))
                · exact Or.inr hm
      case isFalse ha =>
        rcases List.mem_cons.mp h with h | h
        · exact Or.inl (by rw [h]; exact List.mem_cons_self _ _)
        · rcases ih h with hm | hm
          · exact Or.inl (List.mem_cons_of_mem _ hm)
          · exact Or.inr hm

/-- A successful parse of an array requires an opening bracket in the
input. -/
theorem parseVal_arr_mem {n : Nat} {l r : List Char} {vs : List JSValue}
    (h : parseVal n l = some (.arr vs, r)) : '[' ∈ l := by
  cases n with
  | zero => simp [parseVal] at h
  | succ n =>
    simp only [parseVal] at h
    split at h
    · rcases Option.map_eq_some'.mp h with ⟨⟨cs, r2⟩, _, hv⟩
      simp at hv
    · exact List.mem_cons_self _ _
    · simp at h
    · simp at h
    · simp at h
    · rename_i c rest hq hb ht hf hn
      split at h
      · split at h
        · split at h
          · simp at h
          · split at h
            · simp at h
            · simp at h
        · simp at h
      · split at h
        · rcases Option.map_eq_some'.mp h with ⟨⟨cs, r2⟩, _, hv⟩
          simp at hv
        · simp at h
    · simp at h

/-- With no opening bracket in the cleaned text, the JSON extraction stage
fails: the bracket condition is false and the repaired retry cannot parse an
array. -/
theorem jsonStage_none_of_no_bracket {c : List Char} (h : '[' ∉ c) :
    jsonStage c = none := by
  have h1 : firstIdxOf '[' c = none := by
    rw [firstIdxOf, List.findIdx?_eq_none_iff]
    intro x hx
    simp only [decide_eq_false_iff_not]
    rintro rfl
    exact h hx
  have h2 : ∀ vs, parseJsonL (fixNewlines c) ≠ some (.arr vs) := by
    intro vs hc
    unfold parseJsonL at hc
    split at hc
    · rename_i v r hp
      split at hc
      · cases hc
        have h3 : '[' ∈ skipWsJ (fixNewlines c) := parseVal_arr_mem hp
        have h4 : '[' ∈ fixNewlines c :=
          List.Sublist.mem h3 (List.dropWhile_sublist jsonWS)
        rw [fixNewlines] at h4
        rcases mem_fixNLF h4 with h5 | h5 | h5
        · exact h h5
        · exact absurd h5 (by decide)
        · exact absurd h5 (by decide)
      · cases hc
    · cases hc
  unfold jsonStage
  rw [h1]
  rcases hp : parseJsonL (fixNewlines c) with _ | v
  · rfl
  · cases v with
    | arr vs => exact absurd hp (h2 vs)
    | null => rfl
    | bool b => rfl
    | num s => rfl
    | str s => rfl
    | obj ms => rfl

/-- Claim C8, counterexample: on the single unstructured paragraph
`" hello world "` (no brackets, quotes, markers or blank lines) the last
resort returns the original text untrimmed, not the trimmed input the claim
states. -/
theorem c8_untrimmed_fallback :
    cleanAndParseJSON " hello world " = [.str " hello world "] ∧
    cleanAndParseJSON " hello world " ≠ [.str "hello world"] := by
  refine ⟨rfl, ?_⟩
  intro h
  rw [show cleanAndParseJSON " hello world " = [.str " hello world "] from rfl] at h
  simp only [List.cons.injEq, JSValue.str.injEq] at h
  exact absurd h.1 (by decide)

/-- Claim C8, amended: on a single unstructured paragraph — no `[`, quoted-list
guard false, no line-start list marker, no blank-line break — the normalizer
returns the one-element sequence containing the original input unchanged (not
trimmed). -/
theorem c8_amended_single_paragraph (s : String)
    (hbr : '[' ∉ s.toList)
    (hq : quotedListGuard (cleanFences s.toList) = false)
    (hmk : splitBy markerSepLen s.toList = [s.toList])
    (hbl : splitBy blankSepLen s.toList = [s.toList]) :
    cleanAndParseJSON s = [.str s] := by
  have hbr2 : '[' ∉ cleanFences s.toList := fun hmem => hbr (mem_cleanFences hmem)
  have hjs : jsonStage (cleanFences s.toList) = none :=
    jsonStage_none_of_no_bracket hbr2
  have h3a : stage3A (cleanFences s.toList) = none := by
    unfold stage3A
    rw [hq]
    simp
  have h3b : stage3B s.toList = none := by
    simp only [stage3B, hmk]
    have hlen :
        ((([s.toList].map trimJS).filter keepItem).map
          (fun i => trimJS (stripQB2 i))).length ≤ 1 := by
      rw [List.length_map]
      exact (List.length_filter_le _ _).trans (by simp)
    rw [if_neg (by omega)]
  have h4 : stage4 s.toList = none := by
    simp only [stage4, hbl]
    have hlen : ((([s.toList].map trimJS)).filter
        (fun p => decide (20 < p.length))).length ≤ 1 :=
      (List.length_filter_le _ _).trans (by simp)
    rw [if_neg (by omega)]
  unfold cleanAndParseJSON
  simp only [hjs, h3a, h3b, h4]

/-- Witness for the amended C8 at a concrete paragraph. -/
theorem c8_amended_single_paragraph_witness :
    '[' ∉ "Just one plain paragraph.".toList ∧
    quotedListGuard (cleanFences "Just one plain paragraph.".toList) = false ∧
    splitBy markerSepLen "Just one plain paragraph.".toList =
      ["Just one plain paragraph.".toList] ∧
    splitBy blankSepLen "Just one plain paragraph.".toList =
      ["Just one plain paragraph.".toList] ∧
    cleanAndParseJSON "Just one plain paragraph." =
      [.str "Just one plain paragraph."] :=
  ⟨by decide, rfl, rfl, rfl,
   c8_amended_single_paragraph "Just one plain paragraph." (by decide) rfl rfl rfl⟩


/-- The split engine is fuel-irrelevant once the fuel covers the input
length. -/
theorem splitGo_fuel (M : List Char → Option Nat) :
    ∀ (n : Nat) (l : List Char) (m : Nat) (acc : List Char),
      l.length ≤ n → l.length ≤ m →
      splitGo M n l acc = splitGo M m l acc := by
  intro n
  induction n with
  | zero =>
    intro l m acc h1 _
    have hl : l = [] := List.eq_nil_of_length_eq_zero (Nat.le_zero.mp h1)
    subst hl
    cases m <;> rfl
  | succ n ih =>
    intro l m acc h1 h2
    cases l with
    | nil => cases m <;> rfl
    | cons c cs =>
      cases m with
      | zero => simp at h2
      | succ m =>
        simp only [splitGo]
        cases hM : M (c :: cs) with
        | some k =>
          dsimp only
          have hd1 : (List.drop (max k 1 - 1) cs).length ≤ n := by
            have := List.length_drop (max k 1 - 1) cs
            simp only [List.length_cons] at h1
            omega
          have hd2 : (List.drop (max k 1 - 1) cs).length ≤ m := by
            have := List.length_drop (max k 1 - 1) cs
            simp only [List.length_cons] at h2
            omega
          rw [ih _ m _ hd1 hd2]
        | none =>
          dsimp only
          have hc1 : cs.length ≤ n := by
            simp only [List.length_cons] at h1; omega
          have hc2 : cs.length ≤ m := by
            simp only [List.length_cons] at h2; omega
          rw [ih _ m _ hc1 hc2]

/-- The list-marker separator regex needs a newline at the match start. -/
theorem markerSepLen_none {c : Char} {z : List Char}
    (h1 : c ≠ '\r') (h2 : c ≠ '\n') : markerSepLen (c :: z) = none := by
  unfold markerSepLen
  split <;> simp_all

/-- The split scan passes unchanged over a newline-free block. -/
theorem splitGo_no_marker (u : List Char) :
    ∀ (v acc : List Char) (m : Nat),
      (∀ x ∈ u, x ≠ '\r' ∧ x ≠ '\n') →
      splitGo markerSepLen (u.length + m) (u ++ v) acc =
        splitGo markerSepLen m v (u.reverse ++ acc) := by
  induction u with
  | nil => intro v acc m _; simp
  | cons c cs ih =>
    intro v acc m hu
    have hc := hu c (List.mem_cons_self _ _)
    have hM : markerSepLen (c :: (cs ++ v)) = none := markerSepLen_none hc.1 hc.2
    have hfuel : (c :: cs).length + m = (cs.length + m) + 1 := by
      simp only [List.length_cons]; omega
    rw [hfuel, List.cons_append]
    simp only [splitGo, hM]
    rw [ih v (c :: acc) m fun x hx => hu x (List.mem_cons_of_mem _ hx)]
    simp [List.append_assoc]

/-- At a `"\n- "` boundary followed by a non-whitespace character the
separator regex matches exactly the three characters `"\n- "`. -/
theorem markerSepLen_dash {hd : Char} {z : List Char} (hhd : jsWS hd = false) :
    markerSepLen ('\n' :: '-' :: ' ' :: hd :: z) = some 3 := by
  simp [markerSepLen, wsStarMarker, markerThenWs, digitMarkLen, wordNumLen,
    wsRun, normPref, hhd, List.takeWhile,
    (by decide : jsWS '-' = false), (by decide : jsWS ' ' = true),
    (by decide : isDig '-' = false)]

/-- Mapping a function that fixes every element of a list is the identity. -/
theorem map_id_of_eq {f : List Char → List Char} {l : List (List Char)}
    (h : ∀ a ∈ l, f a = a) : l.map f = l := by
  induction l with
  | nil => rfl
  | cons a as ih =>
    simp only [List.map_cons, h a (List.mem_cons_self a as),
      ih fun x hx => h x (List.mem_cons_of_mem a hx)]

/-- The scan over the dash-joined items splits exactly at the inserted
`"\n- "` separators. -/
theorem splitGo_dash_items :
    ∀ (items : List (List Char)) (acc : List Char) (n : Nat),
      (∀ it ∈ items, it ≠ [] ∧ (∀ c, it.head? = some c → jsWS c = false) ∧
        '\n' ∉ it ∧ '\r' ∉ it) →
      ((items.map fun it => '\n' :: '-' :: ' ' :: it).flatten).length ≤ n →
      splitGo markerSepLen n
        ((items.map fun it => '\n' :: '-' :: ' ' :: it).flatten) acc =
        acc.reverse :: items := by
  intro items
  induction items with
  | nil =>
    intro acc n _ _
    simp only [List.map_nil, List.flatten_nil]
    cases n <;> rfl
  | cons it its ih =>
    intro acc n hI hn
    obtain ⟨hne, hhd, hnl, hnr⟩ := hI it (List.mem_cons_self _ _)
    obtain ⟨hd, tl, rfl⟩ := List.exists_cons_of_ne_nil hne
    have hhd2 : jsWS hd = false := hhd hd rfl
    simp only [List.map_cons, List.flatten_cons, List.cons_append] at hn ⊢
    cases n with
    | zero => simp at hn
    | succ n =>
      simp only [splitGo, markerSepLen_dash hhd2]
      have hdrop :
          List.drop (max 3 1 - 1)
            ('-' :: ' ' :: hd ::
              (tl ++ (its.map fun x => '\n' :: '-' :: ' ' :: x).flatten)) =
          (hd :: tl) ++ (its.map fun x => '\n' :: '-' :: ' ' :: x).flatten := rfl
      rw [hdrop]
      congr 1
      have hlen1 :
          ((hd :: tl) ++ (its.map fun x => '\n' :: '-' :: ' ' :: x).flatten).length
            ≤ n := by
        simp only [List.length_cons, List.length_append] at hn ⊢
        omega
      rw [splitGo_fuel markerSepLen n _
        ((hd :: tl).length +
          ((its.map fun x => '\n' :: '-' :: ' ' :: x).flatten).length) []
        hlen1 (by simp only [List.length_cons, List.length_append]; omega)]
      rw [splitGo_no_marker (hd :: tl) _ [] _
        (fun x hx => ⟨fun hxe => hnr (hxe ▸ hx), fun hxe => hnl (hxe ▸ hx)⟩)]
      rw [ih ((hd :: tl).reverse ++ []) _
        (fun x hx => hI x (List.mem_cons_of_mem _ hx)) (le_refl _)]
      simp

/-- The full 3B split of the constructed input: the preamble line followed by
the items. -/
theorem splitBy_dashOptions (items : List (List Char))
    (hI : ∀ it ∈ items, it ≠ [] ∧ (∀ c, it.head? = some c → jsWS c = false) ∧
      '\n' ∉ it ∧ '\r' ∉ it) :
    splitBy markerSepLen (dashOptionsText items) =
      "Here are some options:".toList :: items := by
  unfold splitBy dashOptionsText
  rw [List.length_append]
  rw [splitGo_no_marker "Here are some options:".toList _ [] _ (by decide)]
  rw [splitGo_dash_items items _ _ hI (le_refl _)]
  simp

/-- A trim-fixed list starts with a non-whitespace character. -/
theorem trim_head_not_ws {l : List Char} {c : Char} (h : trimJS l = l)
    (hc : l.head? = some c) : jsWS c = false := by
  by_contra hws
  rw [Bool.not_eq_false] at hws
  cases l with
  | nil => simp at hc
  | cons a as =>
    have ha : a = c := by simpa using hc
    subst ha
    have h1 : trimJS (a :: as) =
        ((as.dropWhile jsWS).reverse.dropWhile jsWS).reverse := by
      unfold trimJS
      rw [List.dropWhile_cons, if_pos hws]
    rw [h] at h1
    have h2 := congrArg List.length h1
    have h3 := (@List.dropWhile_sublist _ ((as.dropWhile jsWS).reverse) jsWS).length_le
    have h4 := (@List.dropWhile_sublist _ as jsWS).length_le
    simp only [List.length_cons, List.length_reverse] at h2 h3
    omega

/-- A substring hit implies the pattern head occurs in the text. -/
theorem containsSub_head_mem {c : Char} {ps l : List Char}
    (h : containsSub (c :: ps) l = true) : c ∈ l := by
  induction l with
  | nil => simp [containsSub] at h
  | cons a as ih =>
    simp only [containsSub, Bool.or_eq_true] at h
    rcases h with h | h
    · simp only [normPref, id_eq, Bool.and_eq_true, decide_eq_true_eq] at h
      exact h.1 ▸ List.mem_cons_self _ _
    · exact List.mem_cons_of_mem _ (ih h)

/-- With no quote character in the cleaned text, the quoted-list stage is
skipped. -/
theorem stage3A_none_of_no_quote {c : List Char} (h : ('"' : Char) ∉ c) :
    stage3A c = none := by
  have hg : quotedListGuard c = false := by
    unfold quotedListGuard
    rw [Bool.or_eq_false_iff]
    constructor
    · by_contra hcon
      rw [Bool.not_eq_false] at hcon
      exact h (containsSub_head_mem hcon)
    · cases c with
      | nil => rfl
      | cons a as =>
        split
        · rename_i heq
          exact absurd (by rw [heq]; exact List.mem_cons_self _ _) h
        · rfl
  unfold stage3A
  rw [hg]
  simp

/-- The 3B per-item cleanup fixes any quote-free item. -/
theorem stripQB2_id {it : List Char} (hq : ('"' : Char) ∉ it) :
    stripQB2 it = it := by
  have h1 : stripLeadQ2 it = it := by
    unfold stripLeadQ2
    split
    · exact absurd (List.mem_cons_of_mem _ (List.mem_cons_self _ _)) hq
    · exact absurd (List.mem_cons_self _ _) hq
    · rfl
  have h2 : stripTailQ2 it = it := by
    unfold stripTailQ2
    split
    · rename_i r heq
      refine absurd ?_ hq
      have h3 : ('"' : Char) ∈ it.reverse := by rw [heq]; simp
      simpa using h3
    · rename_i r heq
      refine absurd ?_ hq
      have h3 : ('"' : Char) ∈ it.reverse := by
        rw [heq]; exact List.mem_cons_self _ _
      simpa using h3
    · rfl
  rw [stripQB2, h1, h2]
/-- Stage 3B on the constructed input accepts exactly the items: the preamble
line is filtered out by the `"here are"` check and every real item
survives. -/
theorem stage3B_dashOptions (items : List (List Char))
    (hlen2 : 2 ≤ items.length)
    (hkeep : ∀ it ∈ items, keepItem it = true)
    (htrim : ∀ it ∈ items, trimJS it = it)
    (hnl : ∀ it ∈ items, '\n' ∉ it ∧ '\r' ∉ it)
    (hnq : ∀ it ∈ items, ('"' : Char) ∉ it) :
    stage3B (dashOptionsText items) = some items := by
  have hI : ∀ it ∈ items, it ≠ [] ∧
      (∀ c, it.head? = some c → jsWS c = false) ∧ '\n' ∉ it ∧ '\r' ∉ it := by
    intro it hit
    have hk := hkeep it hit
    have hne : it ≠ [] := by
      intro he
      rw [he] at hk
      exact absurd hk (by decide)
    exact ⟨hne, fun c hc => trim_head_not_ws (htrim it hit) hc, hnl it hit⟩
  unfold stage3B
  rw [splitBy_dashOptions items hI, List.map_cons,
    show trimJS "Here are some options:".toList =
      "Here are some options:".toList from rfl,
    map_id_of_eq htrim, List.filter_cons]
  simp only [show keepItem "Here are some options:".toList = false from by decide,
    Bool.false_eq_true, if_false]
  rw [List.filter_eq_self.mpr hkeep]
  rw [map_id_of_eq fun it hit => by
    rw [stripQB2_id (hnq it hit), htrim it hit]]
  rw [if_pos (by omega)]

/-- Claim C9: on an input whose first line is the preamble
`"Here are some options:"` followed by newline-separated dash-marked real
items, the normalizer returns exactly the items: the preamble is excluded and
every real item is present. -/
theorem c9_preamble_excluded (items : List (List Char))
    (hlen2 : 2 ≤ items.length)
    (hkeep : ∀ it ∈ items, keepItem it = true)
    (htrim : ∀ it ∈ items, trimJS it = it)
    (hnl : ∀ it ∈ items, '\n' ∉ it ∧ '\r' ∉ it)
    (hnq : ∀ it ∈ items, ('"' : Char) ∉ it)
    (hnb : ∀ it ∈ items, ('[' : Char) ∉ it) :
    cleanAndParseJSON (String.mk (dashOptionsText items)) = strVals items ∧
    JSValue.str "Here are some options:" ∉
      cleanAndParseJSON (String.mk (dashOptionsText items)) := by
  have hqmem : ('"' : Char) ∉ dashOptionsText items := by
    intro hmem
    unfold dashOptionsText at hmem
    rcases List.mem_append.mp hmem with hm | hm
    · exact absurd hm (by decide)
    · rcases List.mem_flatten.mp hm with ⟨chunk, hchunk, hx⟩
      rcases List.mem_map.mp hchunk with ⟨it, hit, rfl⟩
      simp only [List.mem_cons] at hx
      rcases hx with hx | hx | hx | hx
      · exact absurd hx (by decide)
      · exact absurd hx (by decide)
      · exact absurd hx (by decide)
      · exact hnq it hit hx
  have hbmem : ('[' : Char) ∉ dashOptionsText items := by
    intro hmem
    unfold dashOptionsText at hmem
    rcases List.mem_append.mp hmem with hm | hm
    · exact absurd hm (by decide)
    · rcases List.mem_flatten.mp hm with ⟨chunk, hchunk, hx⟩
      rcases List.mem_map.mp hchunk with ⟨it, hit, rfl⟩
      simp only [List.mem_cons] at hx
      rcases hx with hx | hx | hx | hx
      · exact absurd hx (by decide)
      · exact absurd hx (by decide)
      · exact absurd hx (by decide)
      · exact hnb it hit hx
  have hjs : jsonStage (cleanFences (dashOptionsText items)) = none :=
    jsonStage_none_of_no_bracket fun hm => hbmem (mem_cleanFences hm)
  have h3a : stage3A (cleanFences (dashOptionsText items)) = none :=
    stage3A_none_of_no_quote fun hm => hqmem (mem_cleanFences hm)
  have h3b := stage3B_dashOptions items hlen2 hkeep htrim hnl hnq
  have ht : (String.mk (dashOptionsText items)).toList = dashOptionsText items := rfl
  have hres : cleanAndParseJSON (String.mk (dashOptionsText items)) =
      strVals items := by
    unfold cleanAndParseJSON
    simp only [ht, hjs, h3a, h3b]
  refine ⟨hres, ?_⟩
  rw [hres]
  intro hmem
  rcases List.mem_map.mp hmem with ⟨it, hit, heq⟩
  have hit2 : it = "Here are some options:".toList := by
    have h4 : String.mk it = "Here are some options:" := by
      injection heq
    have := congrArg String.data h4
    simpa using this
  rw [hit2] at hit
  exact absurd (hkeep _ hit) (by decide)

/-- Witness for C9 at two concrete items. -/
theorem c9_preamble_excluded_witness :
    cleanAndParseJSON (String.mk (dashOptionsText
        ["First real item".toList, "Second real item".toList])) =
      strVals ["First real item".toList, "Second real item".toList] ∧
    JSValue.str "Here are some options:" ∉
      cleanAndParseJSON (String.mk (dashOptionsText
        ["First real item".toList, "Second real item".toList])) :=
  c9_preamble_excluded ["First real item".toList, "Second real item".toList]
    (by decide) (by decide) (by decide) (by decide) (by decide) (by decide)

/-- The removal pass is fuel-irrelevant once the fuel covers the input
length. -/
theorem removeAllF_fuel {f : Char → Char} {p : List Char} :
    ∀ (n : Nat) (l : List Char) (m : Nat), l.length ≤ n → l.length ≤ m →
      removeAllF f p n l = removeAllF f p m l := by
  intro n
  induction n with
  | zero =>
    intro l m h1 _
    have hl : l = [] := List.eq_nil_of_length_eq_zero (Nat.le_zero.mp h1)
    subst hl
    cases m <;> rfl
  | succ n ih =>
    intro l m h1 h2
    cases l with
    | nil => cases m <;> rfl
    | cons c cs =>
      cases m with
      | zero => simp at h2
      | succ m =>
        simp only [removeAllF]
        split
        · refine ih _ _ ?_ ?_ <;>
            (have hld := List.length_drop (p.length - 1) cs
             simp only [List.length_cons] at h1 h2
             omega)
        · rw [ih cs m (by simp only [List.length_cons] at h1; omega)
            (by simp only [List.length_cons] at h2; omega)]

/-- Unfolding equation of the removal on a cons cell. -/
theorem removeAllL_cons (f : Char → Char) (p : List Char) (c : Char)
    (cs : List Char) :
    removeAllL f p (c :: cs) =
      if normPref f p (c :: cs) then
        removeAllL f p (List.drop (p.length - 1) cs)
      else c :: removeAllL f p cs := by
  unfold removeAllL
  simp only [List.length_cons, removeAllF]
  split
  · exact removeAllF_fuel cs.length _ _
      (by have := List.length_drop (p.length - 1) cs; omega) (le_refl _)
  · rfl

/-- A pattern matches its own occurrence. -/
theorem normPref_append_self (f : Char → Char) (p x : List Char) :
    normPref f p (p ++ x) = true := by
  induction p with
  | nil => rfl
  | cons a ps ih => simp [normPref, ih]

/-- A prefix match only looks at the first pattern-length characters. -/
theorem normPref_long (f : Char → Char) (p : List Char) :
    ∀ (l x : List Char), p.length ≤ l.length →
      normPref f p (l ++ x) = normPref f p l := by
  induction p with
  | nil => intro l x _; rfl
  | cons a ps ih =>
    intro l x h
    cases l with
    | nil => simp at h
    | cons c cs =>
      simp only [List.cons_append, normPref, List.append_eq]
      rw [ih cs x (by simp only [List.length_cons] at h; omega)]

/-- A pattern cannot match a shorter text. -/
theorem normPref_short (f : Char → Char) (p : List Char) :
    ∀ l : List Char, l.length < p.length → normPref f p l = false := by
  induction p with
  | nil => intro l h; simp at h
  | cons a ps ih =>
    intro l h
    cases l with
    | nil => rfl
    | cons c cs =>
      simp only [normPref]
      rw [ih cs (by simp only [List.length_cons] at h; omega)]
      simp

/-- A successful prefix match needs at least pattern-length characters. -/
theorem normPref_true_length {f : Char → Char} {p l : List Char}
    (h : normPref f p l = true) : p.length ≤ l.length := by
  by_contra hc
  rw [normPref_short f p l (by omega)] at h
  cases h

/-- Elementwise consequence of a prefix match. -/
theorem normPref_true_elem {f : Char → Char} :
    ∀ {p l : List Char}, normPref f p l = true →
      ∀ i (hi : i < p.length), ∃ hl : i < l.length,
        f (p.get ⟨i, hi⟩) = f (l.get ⟨i, hl⟩) := by
  intro p
  induction p with
  | nil => intro l _ i hi; simp at hi
  | cons a ps ih =>
    intro l h i hi
    cases l with
    | nil => simp [normPref] at h
    | cons c cs =>
      simp only [normPref, Bool.and_eq_true, decide_eq_true_eq] at h
      cases i with
      | zero => exact ⟨by simp, h.1⟩
      | succ i =>
        obtain ⟨hl, he⟩ := ih h.2 i (by simpa using hi)
        exact ⟨by simpa using hl, he⟩

/-- Texts shorter than the pattern are left unchanged by the removal. -/
theorem removeAllL_short {f : Char → Char} {p : List Char} :
    ∀ l : List Char, l.length < p.length → removeAllL f p l = l := by
  intro l
  induction l with
  | nil => intro _; rfl
  | cons c cs ih =>
    intro h
    rw [removeAllL_cons, normPref_short f p _ h]
    simp only [Bool.false_eq_true, if_false]
    rw [ih (by simp only [List.length_cons] at h; omega)]

/-- No occurrence of the `/```json/i` pattern can straddle into a trailing
triple backtick (the pattern's seventh character is `n`, never a backtick). -/
theorem no_json_match_short (u : List Char) (hu : u.length < 7) :
    normPref lowerChar patJson (u ++ patTicks) = false := by
  by_contra hcon
  rw [Bool.not_eq_false] at hcon
  have hlen := normPref_true_length hcon
  simp only [List.length_append, show patJson.length = 7 from rfl,
    show patTicks.length = 3 from rfl] at hlen
  obtain ⟨hl, helem⟩ := normPref_true_elem hcon 6 (by decide)
  have h6 : (u ++ patTicks).get ⟨6, hl⟩ = btick := by
    have h46 : u.length ≤ 6 := by omega
    have hlt : 6 - u.length < patTicks.length := by
      simp only [show patTicks.length = 3 from rfl]
      omega
    rw [List.get_eq_getElem, List.getElem_append_right h46]
    have hmem : patTicks[6 - u.length] ∈ patTicks := List.getElem_mem _
    simp only [patTicks, List.mem_cons, List.not_mem_nil, or_false] at hmem
    rcases hmem with h | h | h <;> exact h
  rw [h6] at helem
  exact absurd helem (by decide)

/-- The case-insensitive `/```json/i` removal commutes with appending a
trailing triple backtick. -/
theorem removeCI_append_ticks (u : List Char) :
    removeAllL lowerChar patJson (u ++ patTicks) =
      removeAllL lowerChar patJson u ++ patTicks := by
  by_cases h7 : 7 ≤ u.length
  · obtain ⟨c, cs, rfl⟩ : ∃ c cs, u = c :: cs := by
      cases u with
      | nil => simp at h7
      | cons c cs => exact ⟨c, cs, rfl⟩
    rw [List.cons_append, removeAllL_cons, removeAllL_cons,
      show (c :: (cs ++ patTicks)) = (c :: cs) ++ patTicks from rfl,
      normPref_long lowerChar patJson (c :: cs) patTicks
        (by rw [show patJson.length = 7 from rfl]; exact h7)]
    split
    · rw [show patJson.length - 1 = 6 from rfl,
        List.drop_append_of_le_length
          (by simp only [List.length_cons] at h7; omega)]
      exact removeCI_append_ticks (cs.drop 6)
    · rw [removeCI_append_ticks cs, List.cons_append]
  · have hshort : ∀ v : List Char, v.length < 7 →
        removeAllL lowerChar patJson (v ++ patTicks) = v ++ patTicks := by
      intro v
      induction v with
      | nil =>
        intro _
        exact removeAllL_short patTicks (by decide)
      | cons c cs ih =>
        intro hv
        rw [List.cons_append, removeAllL_cons,
          show (c :: (cs ++ patTicks)) = (c :: cs) ++ patTicks from rfl,
          no_json_match_short _ hv]
        simp only [Bool.false_eq_true, if_false]
        rw [ih (by simp only [List.length_cons] at hv; omega), List.cons_append]
    rw [hshort u (by omega),
      removeAllL_short u (by simp only [show patJson.length = 7 from rfl]; omega)]
termination_by u.length
decreasing_by
all_goals
  try rename u = _ => hu9
  try rw [hu9]
  simp only [List.length_cons, List.length_drop]
  omega

/-- The `/```/g` removal absorbs a trailing triple backtick: the appended
ticks merge with any trailing backtick run, and the leftmost scan removes the
same total number of pattern occurrences. -/
theorem removeTicks_append (t : List Char) :
    removeAllL id patTicks (t ++ patTicks) = removeAllL id patTicks t := by
  cases hm : normPref id patTicks t with
  | true =>
    have hlen := normPref_true_length hm
    obtain ⟨c, cs, rfl⟩ : ∃ c cs, t = c :: cs := by
      cases t with
      | nil => simp [show patTicks.length = 3 from rfl] at hlen
      | cons c cs => exact ⟨c, cs, rfl⟩
    rw [List.cons_append, removeAllL_cons, removeAllL_cons,
      show (c :: (cs ++ patTicks)) = (c :: cs) ++ patTicks from rfl,
      normPref_long id patTicks (c :: cs) patTicks hlen, if_pos hm, if_pos hm]
    rw [show patTicks.length - 1 = 2 from rfl,
      List.drop_append_of_le_length
        (by simp only [List.length_cons, show patTicks.length = 3 from rfl] at hlen; omega)]
    exact removeTicks_append (cs.drop 2)
  | false =>
    cases t with
    | nil => decide
    | cons c cs =>
      cases hm2 : normPref id patTicks (c :: (cs ++ patTicks)) with
      | true =>
        have hshort : (c :: cs).length < 3 := by
          by_contra hge
          have hm2a : normPref id patTicks ((c :: cs) ++ patTicks) = true := hm2
          rw [normPref_long id patTicks (c :: cs) patTicks
            (by simpa [show patTicks.length = 3 from rfl] using hge), hm] at hm2a
          cases hm2a
        have hc : c = btick := by
          obtain ⟨hl, he⟩ := normPref_true_elem hm2 0 (by decide)
          simpa using he.symm
        subst hc
        cases cs with
        | nil => decide
        | cons c2 cs2 =>
          have hc2 : c2 = btick := by
            obtain ⟨hl, he⟩ := normPref_true_elem hm2 1 (by decide)
            simpa using he.symm
          subst hc2
          cases cs2 with
          | nil => decide
          | cons c3 cs3 => exact absurd hshort (by simp only [List.length_cons]; omega)
      | false =>
        rw [List.cons_append, removeAllL_cons, removeAllL_cons, hm2, hm]
        simp only [Bool.false_eq_true, if_false]
        rw [removeTicks_append cs]
termination_by t.length
decreasing_by
all_goals
  try rename t = _ => hu9
  try rw [hu9]
  simp only [List.length_cons, List.length_drop]
  omega

/-- Step 1 of the normalizer erases the wrapping fences completely: cleaning
the fenced text yields exactly the cleaned unfenced text. -/
theorem cleanFences_wrap (s : List Char) :
    cleanFences (patJson ++ (s ++ patTicks)) = cleanFences s := by
  unfold cleanFences
  have h1 : removeAllL lowerChar patJson (patJson ++ (s ++ patTicks)) =
      removeAllL lowerChar patJson s ++ patTicks := by
    have h0 : patJson ++ (s ++ patTicks) =
        btick :: ([btick, btick, 'j', 's', 'o', 'n'] ++ (s ++ patTicks)) := rfl
    rw [h0, removeAllL_cons,
      show (btick :: ([btick, btick, 'j', 's', 'o', 'n'] ++ (s ++ patTicks))) =
        patJson ++ (s ++ patTicks) from rfl,
      normPref_append_self]
    simp only [if_true]
    rw [show patJson.length - 1 = 6 from rfl,
      show List.drop 6 ([btick, btick, 'j', 's', 'o', 'n'] ++ (s ++ patTicks)) =
        s ++ patTicks from rfl]
    exact removeCI_append_ticks s
  rw [h1, removeTicks_append]

/-! ### Characters, patterns and removal commutation -/

theorem toNat_ofNat_small {n : Nat} (h : n < 55296) : (Char.ofNat n).toNat = n := by
  unfold Char.ofNat
  rw [dif_pos (Or.inl h)]
  rfl

theorem lowerChar_btick : lowerChar btick = btick := by decide

theorem char_le_toNat {a b : Char} (h : a ≤ b) : a.toNat ≤ b.toNat := h

theorem lowerChar_eq_btick {c : Char} (h : lowerChar c = btick) : c = btick := by
  unfold lowerChar at h
  split at h
  · rename_i hAZ
    exfalso
    have h65 : 65 ≤ c.toNat := char_le_toNat hAZ.1
    have h90 : c.toNat ≤ 90 := char_le_toNat hAZ.2
    have h1 : (Char.ofNat (c.toNat + 32)).toNat = c.toNat + 32 :=
      toNat_ofNat_small (by omega)
    have h2 : (Char.ofNat (c.toNat + 32)).toNat = btick.toNat := by rw [h]
    rw [h1] at h2
    have h3 : btick.toNat = 96 := by decide
    omega
  · exact h

theorem strOrd_iff {c : Char} :
    strOrd c = true ↔ c ≠ '"' ∧ c ≠ '\\' ∧ 0x20 ≤ c.toNat := by
  simp [strOrd, and_assoc]

theorem strOrd_btick : strOrd btick = true := by decide

theorem jsonWS_ne_btick {c : Char} (h : jsonWS c = true) : c ≠ btick := by
  intro he
  rw [he] at h
  exact absurd h (by decide)

theorem strOrd_of_toNat {c : Char} (h1 : 0x20 ≤ c.toNat) (h2 : c.toNat ≠ 34)
    (h3 : c.toNat ≠ 92) : strOrd c = true := by
  rw [strOrd_iff]
  refine ⟨?_, ?_, h1⟩
  · intro he
    rw [he] at h2
    exact h2 (by decide)
  · intro he
    rw [he] at h3
    exact h3 (by decide)

theorem strOrd_of_lowerChar {d v : Char} (h : lowerChar d = v)
    (hv : v ∈ [btick, 'j', 's', 'o', 'n']) : strOrd d = true := by
  unfold lowerChar at h
  split at h
  · rename_i hAZ
    have h65 : 65 ≤ d.toNat := char_le_toNat hAZ.1
    have h90 : d.toNat ≤ 90 := char_le_toNat hAZ.2
    exact strOrd_of_toNat (by omega) (by omega) (by omega)
  · subst h
    fin_cases hv <;> decide

theorem goodPat_json : GoodPat lowerChar patJson := by
  constructor
  · intro c cs h
    simp only [patJson, normPref, Bool.and_eq_true, decide_eq_true_eq] at h
    exact lowerChar_eq_btick (by rw [← h.1, lowerChar_btick])
  · intro c cs h d hd
    have hl := normPref_true_length h
    rw [show patJson.length = 7 from rfl] at hl
    simp only [List.length_cons] at hl
    rcases cs with _ | ⟨x1, _ | ⟨x2, _ | ⟨x3, _ | ⟨x4, _ | ⟨x5, _ | ⟨x6, rest⟩⟩⟩⟩⟩⟩
    · simp only [List.length_nil] at hl; omega
    · simp only [List.length_cons, List.length_nil] at hl; omega
    · simp only [List.length_cons, List.length_nil] at hl; omega
    · simp only [List.length_cons, List.length_nil] at hl; omega
    · simp only [List.length_cons, List.length_nil] at hl; omega
    · simp only [List.length_cons, List.length_nil] at hl; omega
    · simp only [patJson, normPref, Bool.and_eq_true, decide_eq_true_eq] at h
      obtain ⟨e0, e1, e2, e3, e4, e5, e6, -⟩ := h
      rw [show patJson.length - 1 = 6 from rfl] at hd
      rw [show (x1::x2::x3::x4::x5::x6::rest).take 6 = [x1,x2,x3,x4,x5,x6] from rfl] at hd
      simp only [List.mem_cons, List.not_mem_nil, or_false] at hd
      rcases hd with rfl | rfl | rfl | rfl | rfl | rfl
      · have e : lowerChar d = btick := by rw [← e1, lowerChar_btick]
        exact strOrd_of_lowerChar e (by decide)
      · have e : lowerChar d = btick := by rw [← e2, lowerChar_btick]
        exact strOrd_of_lowerChar e (by decide)
      · have e : lowerChar d = 'j' := by rw [← e3]; decide
        exact strOrd_of_lowerChar e (by decide)
      · have e : lowerChar d = 's' := by rw [← e4]; decide
        exact strOrd_of_lowerChar e (by decide)
      · have e : lowerChar d = 'o' := by rw [← e5]; decide
        exact strOrd_of_lowerChar e (by decide)
      · have e : lowerChar d = 'n' := by rw [← e6]; decide
        exact strOrd_of_lowerChar e (by decide)

theorem goodPat_ticks : GoodPat id patTicks := by
  constructor
  · intro c cs h
    simp only [patTicks, normPref, Bool.and_eq_true, decide_eq_true_eq, id] at h
    exact h.1.symm
  · intro c cs h d hd
    have hl := normPref_true_length h
    rw [show patTicks.length = 3 from rfl] at hl
    simp only [List.length_cons] at hl
    rcases cs with _ | ⟨x1, _ | ⟨x2, rest⟩⟩
    · simp only [List.length_nil] at hl; omega
    · simp only [List.length_cons, List.length_nil] at hl; omega
    · simp only [patTicks, normPref, Bool.and_eq_true, decide_eq_true_eq, id] at h
      obtain ⟨e0, e1, e2, -⟩ := h
      rw [show patTicks.length - 1 = 2 from rfl] at hd
      rw [show (x1::x2::rest).take 2 = [x1,x2] from rfl] at hd
      simp only [List.mem_cons, List.not_mem_nil, or_false] at hd
      rcases hd with rfl | rfl
      · rw [show d = btick from e1.symm]; exact strOrd_btick
      · rw [show d = btick from e2.symm]; exact strOrd_btick

theorem removeAllL_cons_nb {f : Char → Char} {p : List Char} (hp : GoodPat f p)
    {c : Char} (hc : c ≠ btick) (cs : List Char) :
    removeAllL f p (c :: cs) = c :: removeAllL f p cs := by
  rw [removeAllL_cons]
  cases hm : normPref f p (c :: cs) with
  | true => exact absurd (hp.1 c cs hm) hc
  | false => simp

theorem removeAllL_append_nb {f : Char → Char} {p : List Char} (hp : GoodPat f p) :
    ∀ (a b : List Char), (∀ c ∈ a, c ≠ btick) →
      removeAllL f p (a ++ b) = a ++ removeAllL f p b := by
  intro a
  induction a with
  | nil => intro b _; rfl
  | cons c a ih =>
    intro b h
    rw [List.cons_append, removeAllL_cons_nb hp (h c (List.mem_cons_self _ _)),
      ih b (fun d hd => h d (List.mem_cons_of_mem _ hd)), List.cons_append]

theorem removeAllL_id_nb {f : Char → Char} {p : List Char} (hp : GoodPat f p)
    {a : List Char} (h : ∀ c ∈ a, c ≠ btick) : removeAllL f p a = a := by
  have h2 := removeAllL_append_nb hp a [] h
  have h3 : removeAllL f p ([] : List Char) = [] := rfl
  rw [h3, List.append_nil] at h2
  exact h2

/-! ### Whitespace-skipping lemmas -/

theorem skipWsJ_append_ws {w : List Char} (hw : ∀ c ∈ w, jsonWS c = true) :
    ∀ x : List Char, skipWsJ (w ++ x) = skipWsJ x := by
  induction w with
  | nil => intro x; rfl
  | cons c w ih =>
    intro x
    simp only [skipWsJ, List.cons_append, List.dropWhile_cons,
      hw c (List.mem_cons_self _ _), if_true]
    exact ih (fun d hd => hw d (List.mem_cons_of_mem _ hd)) x

theorem skipWsJ_head : ∀ {l : List Char} {c : Char} {x : List Char},
    skipWsJ l = c :: x → jsonWS c = false := by
  intro l
  induction l with
  | nil => intro c x h; exact absurd h (by simp [skipWsJ])
  | cons a l ih =>
    intro c x h
    simp only [skipWsJ, List.dropWhile_cons] at h
    split at h
    · exact ih h
    · rename_i ha
      injection h with h1 _
      subst h1
      simpa using ha

theorem skipWsJ_eq_nil {l : List Char} (h : skipWsJ l = []) : wsOnly l := by
  intro c hc
  exact (List.dropWhile_eq_nil_iff).mp h c hc

theorem skipWsJ_cons_not {c : Char} (h : jsonWS c = false) (l : List Char) :
    skipWsJ (c :: l) = c :: l := by
  simp [skipWsJ, List.dropWhile_cons, h]

theorem skipWsJ_split (l : List Char) :
    l = l.takeWhile jsonWS ++ skipWsJ l := (List.takeWhile_append_dropWhile _ _).symm

theorem takeWhile_wsOnly (l : List Char) : wsOnly (l.takeWhile jsonWS) :=
  fun _ hc => List.mem_takeWhile_imp hc

theorem wsOnly_ne_btick {l : List Char} (h : wsOnly l) : ∀ c ∈ l, c ≠ btick :=
  fun c hc => jsonWS_ne_btick (h c hc)

theorem nbHead_of_wsOnly {l : List Char} (h : wsOnly l) : nbHead l := by
  intro c hc
  cases l with
  | nil => exact absurd hc (by simp)
  | cons a l =>
    injection hc with h1
    subst h1
    exact jsonWS_ne_btick (h a (List.mem_cons_self _ _))


/-! ### String-scanner lemmas -/

theorem scanStr_nil : scanStr [] = none := rfl

theorem scanStr_quote (cs : List Char) : scanStr ('"' :: cs) = some ([], cs) := by
  conv_lhs => rw [scanStr.eq_def]
  simp only []
  rw [if_pos trivial]

theorem scanStr_ctl {c : Char} (hq : c ≠ '"') (hb : c ≠ '\\')
    (hctl : c.toNat < 0x20) (cs : List Char) : scanStr (c :: cs) = none := by
  conv_lhs => rw [scanStr.eq_def]
  simp only []
  rw [if_neg hq, if_neg hb, if_pos hctl]

theorem scanStr_cons_ord {c : Char} (hc : strOrd c = true) (cs : List Char) :
    scanStr (c :: cs) = (scanStr cs).map fun x => (c :: x.1, x.2) := by
  obtain ⟨hq, hb, hn⟩ := strOrd_iff.mp hc
  conv_lhs => rw [scanStr.eq_def]
  simp only []
  rw [if_neg hq, if_neg hb, if_neg (by omega : ¬ c.toNat < 0x20)]

theorem scanStr_cons_ord_some {c : Char} (hc : strOrd c = true)
    {cs out r : List Char} (h : scanStr cs = some (out, r)) :
    scanStr (c :: cs) = some (c :: out, r) := by
  rw [scanStr_cons_ord hc, h]
  rfl

theorem scanStr_cons_ord_inv {c : Char} (hc : strOrd c = true)
    {cs out r : List Char} (h : scanStr (c :: cs) = some (out, r)) :
    ∃ o, out = c :: o ∧ scanStr cs = some (o, r) := by
  rw [scanStr_cons_ord hc] at h
  rcases hs : scanStr cs with _ | ⟨o, r2⟩
  · rw [hs] at h
    exact Option.noConfusion h
  · rw [hs] at h
    simp only [Option.map_some', Option.some.injEq, Prod.mk.injEq] at h
    exact ⟨o, h.1.symm, by rw [h.2]⟩

theorem scanStr_u4 (x1 x2 x3 x4 : Char) (rest3 : List Char) :
    scanStr ('\\' :: 'u' :: x1 :: x2 :: x3 :: x4 :: rest3) =
      match hexVal x1, hexVal x2, hexVal x3, hexVal x4 with
      | some a, some b, some cc, some d =>
        (scanStr rest3).map fun x =>
          (charOfCode (((a * 16 + b) * 16 + cc) * 16 + d) :: x.1, x.2)
      | _, _, _, _ => none := by
  conv_lhs => rw [scanStr.eq_def]
  simp only []
  rw [if_neg (by decide : ¬ ('\\' : Char) = '"'), if_pos trivial, if_pos trivial]

theorem scanStr_esc {e : Char} (he : e ≠ 'u') (cs2 : List Char) :
    scanStr ('\\' :: e :: cs2) =
      match escChar e with
      | some d => (scanStr cs2).map fun x => (d :: x.1, x.2)
      | none => none := by
  conv_lhs => rw [scanStr.eq_def]
  simp only []
  rw [if_neg (by decide : ¬ ('\\' : Char) = '"')]
  try rw [if_pos trivial]
  rw [if_neg he]

theorem scanStr_u4_inv {cs2 out r} (h : scanStr ('\\' :: 'u' :: cs2) = some (out, r)) :
    ∃ x1 x2 x3 x4 rest3 a1 a2 a3 a4 o3,
      cs2 = x1 :: x2 :: x3 :: x4 :: rest3 ∧ hexVal x1 = some a1 ∧
      hexVal x2 = some a2 ∧ hexVal x3 = some a3 ∧ hexVal x4 = some a4 ∧
      scanStr rest3 = some (o3, r) ∧
      out = charOfCode (((a1 * 16 + a2) * 16 + a3) * 16 + a4) :: o3 := by
  rcases cs2 with _ | ⟨x1, _ | ⟨x2, _ | ⟨x3, _ | ⟨x4, rest3⟩⟩⟩⟩
  · exact Option.noConfusion h
  · exact Option.noConfusion h
  · exact Option.noConfusion h
  · exact Option.noConfusion h
  · rw [scanStr_u4] at h
    rcases hh1 : hexVal x1 with _ | a1 <;> rw [hh1] at h
    · exact Option.noConfusion h
    rcases hh2 : hexVal x2 with _ | a2 <;> rw [hh2] at h
    · exact Option.noConfusion h
    rcases hh3 : hexVal x3 with _ | a3 <;> rw [hh3] at h
    · exact Option.noConfusion h
    rcases hh4 : hexVal x4 with _ | a4 <;> rw [hh4] at h
    · exact Option.noConfusion h
    rcases Option.map_eq_some'.mp h with ⟨⟨o3, r3⟩, hs, hmk⟩
    simp only [Prod.mk.injEq] at hmk
    exact ⟨x1, x2, x3, x4, rest3, a1, a2, a3, a4, o3, rfl, hh1, hh2, hh3, hh4,
      by rw [hs, hmk.2], hmk.1.symm⟩

theorem hexVal_ne_btick {c : Char} {a : Nat} (h : hexVal c = some a) : c ≠ btick := by
  intro he
  rw [he] at h
  exact Option.noConfusion (h ▸ (by decide : hexVal btick = none))

theorem escChar_ne_btick {e : Char} {d : Char} (h : escChar e = some d) : e ≠ btick := by
  intro he
  rw [he] at h
  exact Option.noConfusion (h ▸ (by decide : escChar btick = none))

theorem scanStr_consume :
    ∀ (N : Nat) (u : List Char), u.length ≤ N → ∀ {out r : List Char},
      scanStr u = some (out, r) → ∃ a, a ≠ [] ∧ u = a ++ r := by
  intro N
  induction N with
  | zero =>
    intro u hu out r h
    have hn : u = [] := List.eq_nil_of_length_eq_zero (Nat.le_zero.mp hu)
    subst hn
    exact Option.noConfusion h
  | succ N ih =>
    intro u hu out r h
    cases u with
    | nil => exact Option.noConfusion h
    | cons c cs =>
      simp only [List.length_cons] at hu
      by_cases hq : c = '"'
      · subst hq
        rw [scanStr_quote] at h
        simp only [Option.some.injEq, Prod.mk.injEq] at h
        exact ⟨['"'], by simp, by rw [← h.2]; rfl⟩
      · by_cases hb : c = '\\'
        · subst hb
          cases cs with
          | nil => exact Option.noConfusion h
          | cons e cs2 =>
            by_cases hue : e = 'u'
            · subst hue
              obtain ⟨x1, x2, x3, x4, rest3, a1, a2, a3, a4, o3, hcs, -, -, -, -,
                hs, -⟩ := scanStr_u4_inv h
              subst hcs
              obtain ⟨a0, ha0, he0⟩ := ih rest3
                (by simp only [List.length_cons] at hu ⊢; omega) hs
              refine ⟨'\\' :: 'u' :: x1 :: x2 :: x3 :: x4 :: a0, by simp, ?_⟩
              rw [he0]
              rfl
            · rcases hec : escChar e with _ | d
              · rw [scanStr_esc hue, hec] at h
                exact Option.noConfusion h
              · rw [scanStr_esc hue, hec] at h
                rcases Option.map_eq_some'.mp h with ⟨⟨o3, r3⟩, hs, hmk⟩
                simp only [Prod.mk.injEq] at hmk
                obtain ⟨a0, ha0, he0⟩ := ih cs2
                  (by simp only [List.length_cons] at hu ⊢; omega)
                  (by rw [hs, hmk.2])
                refine ⟨'\\' :: e :: a0, by simp, ?_⟩
                rw [he0]
                rfl
        · by_cases hctl : c.toNat < 0x20
          · rw [scanStr_ctl hq hb hctl] at h
            exact Option.noConfusion h
          · have hord : strOrd c = true :=
              strOrd_iff.mpr ⟨hq, hb, by omega⟩
            obtain ⟨o, -, h2⟩ := scanStr_cons_ord_inv hord h
            obtain ⟨a0, ha0, he0⟩ := ih cs (by omega) h2
            exact ⟨c :: a0, by simp, by rw [he0]; rfl⟩

theorem scanStr_skip : ∀ (d : List Char), (∀ c ∈ d, strOrd c = true) →
    ∀ {tail out r : List Char}, scanStr (d ++ tail) = some (out, r) →
      ∃ out2, scanStr tail = some (out2, r) := by
  intro d
  induction d with
  | nil => exact fun _ {tail out r} h => ⟨out, h⟩
  | cons c d ih =>
    intro hd tail out r h
    rw [List.cons_append] at h
    obtain ⟨o, -, h2⟩ := scanStr_cons_ord_inv (hd c (List.mem_cons_self _ _)) h
    exact ih (fun e he => hd e (List.mem_cons_of_mem _ he)) h2

theorem scanStr_pres {f : Char → Char} {p : List Char} (hp : GoodPat f p) :
    ∀ (N : Nat) (u : List Char), u.length ≤ N → ∀ {out r : List Char},
      scanStr u = some (out, r) →
      ∃ out2, scanStr (removeAllL f p u) = some (out2, removeAllL f p r) := by
  intro N
  induction N with
  | zero =>
    intro u hu out r h
    have hn : u = [] := List.eq_nil_of_length_eq_zero (Nat.le_zero.mp hu)
    subst hn
    exact Option.noConfusion h
  | succ N ih =>
    intro u hu out r h
    cases u with
    | nil => exact Option.noConfusion h
    | cons c cs =>
      simp only [List.length_cons] at hu
      by_cases hm : normPref f p (c :: cs) = true
      · have hcb : c = btick := hp.1 c cs hm
        subst hcb
        rw [removeAllL_cons, if_pos hm]
        obtain ⟨o2, -, h2⟩ := scanStr_cons_ord_inv strOrd_btick h
        rw [show cs = cs.take (p.length - 1) ++ cs.drop (p.length - 1) from
          (List.take_append_drop _ _).symm] at h2
        obtain ⟨o3, h3⟩ := scanStr_skip _ (hp.2 btick cs hm) h2
        exact ih (cs.drop (p.length - 1))
          (by have := List.length_drop (p.length - 1) cs; omega) h3
      · rw [removeAllL_cons, if_neg hm]
        by_cases hq : c = '"'
        · subst hq
          rw [scanStr_quote] at h
          simp only [Option.some.injEq, Prod.mk.injEq] at h
          rw [← h.2]
          exact ⟨[], scanStr_quote _⟩
        · by_cases hb : c = '\\'
          · subst hb
            cases cs with
            | nil => exact Option.noConfusion h
            | cons e cs2 =>
              by_cases hue : e = 'u'
              · subst hue
                obtain ⟨x1, x2, x3, x4, rest3, a1, a2, a3, a4, o3, hcs, hh1, hh2,
                  hh3, hh4, hs, -⟩ := scanStr_u4_inv h
                subst hcs
                obtain ⟨o4, h4⟩ := ih rest3
                  (by simp only [List.length_cons] at hu ⊢; omega) hs
                rw [removeAllL_cons_nb hp (by decide),
                  removeAllL_cons_nb hp (hexVal_ne_btick hh1),
                  removeAllL_cons_nb hp (hexVal_ne_btick hh2),
                  removeAllL_cons_nb hp (hexVal_ne_btick hh3),
                  removeAllL_cons_nb hp (hexVal_ne_btick hh4)]
                refine ⟨charOfCode (((a1 * 16 + a2) * 16 + a3) * 16 + a4) :: o4, ?_⟩
                rw [scanStr_u4, hh1, hh2, hh3, hh4, h4]
                rfl
              · rcases hec : escChar e with _ | d
                · rw [scanStr_esc hue, hec] at h
                  exact Option.noConfusion h
                · rw [scanStr_esc hue, hec] at h
                  rcases Option.map_eq_some'.mp h with ⟨⟨o3, r3⟩, hs, hmk⟩
                  simp only [Prod.mk.injEq] at hmk
                  obtain ⟨o4, h4⟩ := ih cs2
                    (by simp only [List.length_cons] at hu ⊢; omega)
                    (show scanStr cs2 = some (o3, r) by rw [hs, hmk.2])
                  rw [removeAllL_cons_nb hp (escChar_ne_btick hec)]
                  refine ⟨d :: o4, ?_⟩
                  rw [scanStr_esc hue, hec, h4]
                  rfl
          · by_cases hctl : c.toNat < 0x20
            · rw [scanStr_ctl hq hb hctl] at h
              exact Option.noConfusion h
            · have hord : strOrd c = true := strOrd_iff.mpr ⟨hq, hb, by omega⟩
              obtain ⟨o, -, h2⟩ := scanStr_cons_ord_inv hord h
              obtain ⟨o4, h4⟩ := ih cs (by omega) h2
              exact ⟨c :: o4, scanStr_cons_ord_some hord h4⟩

theorem scanStr_ws_none : ∀ {y : List Char}, wsOnly y → scanStr y = none := by
  intro y
  induction y with
  | nil => intro _; rfl
  | cons c y ih =>
    intro h
    have hc := h c (List.mem_cons_self _ _)
    have h4 : c = ' ' ∨ c = '\t' ∨ c = '\n' ∨ c = '\r' := by
      simpa [jsonWS] using hc
    rcases h4 with rfl | rfl | rfl | rfl
    · rw [scanStr_cons_ord (by decide), ih (fun d hd => h d (List.mem_cons_of_mem _ hd))]
      rfl
    · exact scanStr_ctl (by decide) (by decide) (by decide) y
    · exact scanStr_ctl (by decide) (by decide) (by decide) y
    · exact scanStr_ctl (by decide) (by decide) (by decide) y

theorem scanStr_trunc {y : List Char} (hy : wsOnly y) :
    ∀ (N : Nat) (a : List Char), a.length ≤ N → ∀ {out b : List Char},
      scanStr (a ++ y) = some (out, b ++ y) → scanStr a = some (out, b) := by
  intro N
  induction N with
  | zero =>
    intro a ha out b h
    have hn : a = [] := List.eq_nil_of_length_eq_zero (Nat.le_zero.mp ha)
    subst hn
    rw [List.nil_append, scanStr_ws_none hy] at h
    exact Option.noConfusion h
  | succ N ih =>
    intro a ha out b h
    cases a with
    | nil =>
      rw [List.nil_append, scanStr_ws_none hy] at h
      exact Option.noConfusion h
    | cons c a2 =>
      simp only [List.length_cons] at ha
      rw [List.cons_append] at h
      by_cases hq : c = '"'
      · subst hq
        rw [scanStr_quote] at h
        simp only [Option.some.injEq, Prod.mk.injEq] at h
        rw [scanStr_quote, ← h.1, List.append_cancel_right h.2]
      · by_cases hb : c = '\\'
        · subst hb
          cases a2 with
          | nil =>
            rw [List.nil_append] at h
            cases hyy : y with
            | nil =>
              rw [hyy] at h
              exact Option.noConfusion h
            | cons w y2 =>
              have hw := hy w (by rw [hyy]; exact List.mem_cons_self _ _)
              have hw4 : w = ' ' ∨ w = '\t' ∨ w = '\n' ∨ w = '\r' := by
                simpa [jsonWS] using hw
              rw [hyy] at h
              rcases hw4 with rfl | rfl | rfl | rfl
              · rw [scanStr_esc (by decide) y2, (by decide : escChar ' ' = none)] at h
                exact Option.noConfusion h
              · rw [scanStr_esc (by decide) y2, (by decide : escChar '\t' = none)] at h
                exact Option.noConfusion h
              · rw [scanStr_esc (by decide) y2, (by decide : escChar '\n' = none)] at h
                exact Option.noConfusion h
              · rw [scanStr_esc (by decide) y2, (by decide : escChar '\r' = none)] at h
                exact Option.noConfusion h
          | cons e a3 =>
            rw [List.cons_append] at h
            by_cases hue : e = 'u'
            · subst hue
              obtain ⟨x1, x2, x3, x4, rest3, a1, a2', a3', a4, o3, hcs, hh1, hh2,
                hh3, hh4, hs, hout⟩ := scanStr_u4_inv h
              rcases a3 with _ | ⟨w1, _ | ⟨w2, _ | ⟨w3, _ | ⟨w4, rest3a⟩⟩⟩⟩
              · rw [List.nil_append] at hcs
                have : jsonWS x1 = true := hy x1 (by rw [hcs]; exact List.mem_cons_self _ _)
                have hx : hexVal x1 = none := by
                  have h4 : x1 = ' ' ∨ x1 = '\t' ∨ x1 = '\n' ∨ x1 = '\r' := by
                    simpa [jsonWS] using this
                  rcases h4 with rfl | rfl | rfl | rfl <;> rfl
                rw [hx] at hh1
                exact Option.noConfusion hh1
              · rw [List.cons_append, List.nil_append] at hcs
                injection hcs with he1 hcs2
                have : jsonWS x2 = true := hy x2 (by rw [hcs2]; exact List.mem_cons_self _ _)
                have hx : hexVal x2 = none := by
                  have h4 : x2 = ' ' ∨ x2 = '\t' ∨ x2 = '\n' ∨ x2 = '\r' := by
                    simpa [jsonWS] using this
                  rcases h4 with rfl | rfl | rfl | rfl <;> rfl
                rw [hx] at hh2
                exact Option.noConfusion hh2
              · simp only [List.cons_append, List.nil_append] at hcs
                injection hcs with he1 hcs2
                injection hcs2 with he2 hcs3
                have : jsonWS x3 = true := hy x3 (by rw [hcs3]; exact List.mem_cons_self _ _)
                have hx : hexVal x3 = none := by
                  have h4 : x3 = ' ' ∨ x3 = '\t' ∨ x3 = '\n' ∨ x3 = '\r' := by
                    simpa [jsonWS] using this
                  rcases h4 with rfl | rfl | rfl | rfl <;> rfl
                rw [hx] at hh3
                exact Option.noConfusion hh3
              · simp only [List.cons_append, List.nil_append] at hcs
                injection hcs with he1 hcs2
                injection hcs2 with he2 hcs3
                injection hcs3 with he3 hcs4
                have : jsonWS x4 = true := hy x4 (by rw [hcs4]; exact List.mem_cons_self _ _)
                have hx : hexVal x4 = none := by
                  have h4 : x4 = ' ' ∨ x4 = '\t' ∨ x4 = '\n' ∨ x4 = '\r' := by
                    simpa [jsonWS] using this
                  rcases h4 with rfl | rfl | rfl | rfl <;> rfl
                rw [hx] at hh4
                exact Option.noConfusion hh4
              · simp only [List.cons_append] at hcs
                injection hcs with he1 hcs2
                injection hcs2 with he2 hcs3
                injection hcs3 with he3 hcs4
                injection hcs4 with he4 hcs5
                subst he1; subst he2; subst he3; subst he4
                have hs2 : scanStr (rest3a ++ y) = some (o3, b ++ y) := by
                  rw [← hcs5] at hs
                  exact hs
                have h5 := ih rest3a
                  (by simp only [List.length_cons] at ha ⊢; omega) hs2
                rw [scanStr_u4, hh1, hh2, hh3, hh4, h5, hout]
                rfl
            · rcases hec : escChar e with _ | d
              · rw [scanStr_esc hue, hec] at h
                exact Option.noConfusion h
              · rw [scanStr_esc hue, hec] at h
                rcases Option.map_eq_some'.mp h with ⟨⟨o3, r3⟩, hs, hmk⟩
                simp only [Prod.mk.injEq] at hmk
                have h5 := ih a3 (by simp only [List.length_cons] at ha ⊢; omega)
                  (show scanStr (a3 ++ y) = some (o3, b ++ y) by rw [hs, hmk.2])
                rw [scanStr_esc hue, hec, h5, ← hmk.1]
                rfl
        · by_cases hctl : c.toNat < 0x20
          · rw [scanStr_ctl hq hb hctl] at h
            exact Option.noConfusion h
          · have hord : strOrd c = true := strOrd_iff.mpr ⟨hq, hb, by omega⟩
            obtain ⟨o, ho, h2⟩ := scanStr_cons_ord_inv hord h
            have h5 := ih a2 (by omega) h2
            rw [ho]
            exact scanStr_cons_ord_some hord h5



/-! ### Head-compatibility lemmas -/

theorem headCompat_append (b y : List Char) : headCompat (b ++ y) b := by
  cases b with
  | nil => exact Or.inl rfl
  | cons c b2 => exact Or.inr ⟨c, b2 ++ y, b2, rfl, rfl⟩

theorem headCompat_R {f : Char → Char} {p : List Char} (hp : GoodPat f p)
    {r : List Char} (h : nbHead r) : headCompat r (removeAllL f p r) := by
  cases r with
  | nil => exact Or.inl rfl
  | cons c r2 =>
    have hc : c ≠ btick := h c rfl
    rw [removeAllL_cons_nb hp hc]
    exact Or.inr ⟨c, r2, removeAllL f p r2, rfl, rfl⟩

theorem headCompat_extend {r z : List Char} (h : headCompat r z) (w : List Char) :
    headCompat (w ++ r) (w ++ z) := by
  cases w with
  | nil =>
    simpa using h
  | cons c w2 => exact Or.inr ⟨c, w2 ++ r, w2 ++ z, rfl, rfl⟩

/-! ### Number-scanner lemmas -/

theorem isDig_ne_btick {c : Char} (h : isDig c = true) : c ≠ btick := by
  intro he
  rw [he] at h
  exact absurd h (by decide)

theorem takeDigits_nil : takeDigits [] = ([], []) := rfl

theorem takeDigits_cons_dig {c : Char} (h : isDig c = true) (u : List Char) :
    takeDigits (c :: u) = (c :: (takeDigits u).1, (takeDigits u).2) := by
  conv_lhs => rw [takeDigits.eq_def]
  simp only []
  rw [if_pos h]

theorem takeDigits_cons_not {c : Char} (h : isDig c = false) (u : List Char) :
    takeDigits (c :: u) = ([], c :: u) := by
  conv_lhs => rw [takeDigits.eq_def]
  simp only []
  rw [if_neg (by simp [h])]

theorem takeDigits_eq : ∀ u : List Char,
    u = (takeDigits u).1 ++ (takeDigits u).2 ∧
      ∀ d ∈ (takeDigits u).1, isDig d = true := by
  intro u
  induction u with
  | nil => rw [takeDigits_nil]; exact ⟨rfl, by simp⟩
  | cons c u ih =>
    cases hd : isDig c with
    | true =>
      rw [takeDigits_cons_dig hd]
      refine ⟨?_, ?_⟩
      · rw [List.cons_append, ← ih.1]
      · intro d hdm
        rcases List.mem_cons.mp hdm with rfl | hdm
        · exact hd
        · exact ih.2 d hdm
    | false =>
      rw [takeDigits_cons_not hd]
      exact ⟨rfl, by simp⟩


theorem takeDigits_stop2 : ∀ {u : List Char} {cc : Char} {rr : List Char},
    (takeDigits u).2 = cc :: rr → isDig cc = false := by
  intro u
  induction u with
  | nil =>
    intro cc rr h
    rw [takeDigits_nil] at h
    exact absurd h (by simp)
  | cons a u ih =>
    intro cc rr h
    cases hd : isDig a with
    | true =>
      rw [takeDigits_cons_dig hd] at h
      exact ih h
    | false =>
      rw [takeDigits_cons_not hd] at h
      injection h with h1 h2
      subst h1
      exact hd

theorem takeDigits_compat : ∀ (ds : List Char) {r z : List Char},
    takeDigits (ds ++ r) = (ds, r) → headCompat r z →
    takeDigits (ds ++ z) = (ds, z) := by
  intro ds
  induction ds with
  | nil =>
    intro r z h hc
    simp only [List.nil_append] at h ⊢
    rcases hc with rfl | ⟨c, r2, z2, rfl, rfl⟩
    · exact takeDigits_nil
    · cases hd : isDig c with
      | true =>
        rw [takeDigits_cons_dig hd] at h
        exact absurd (congrArg Prod.fst h) (by simp)
      | false =>
        rw [takeDigits_cons_not hd]
  | cons d ds ih =>
    intro r z h hc
    simp only [List.cons_append] at h ⊢
    cases hd : isDig d with
    | true =>
      rw [takeDigits_cons_dig hd] at h
      rw [takeDigits_cons_dig hd]
      have h1 : (takeDigits (ds ++ r)).1 = ds := by
        have h2 := congrArg Prod.fst h
        simpa using h2
      have h2 : (takeDigits (ds ++ r)).2 = r := by
        have h3 := congrArg Prod.snd h
        simpa using h3
      have h3 : takeDigits (ds ++ r) = (ds, r) := by
        rw [Prod.ext_iff]
        exact ⟨h1, h2⟩
      rw [ih h3 hc]
    | false =>
      rw [takeDigits_cons_not hd] at h
      exact absurd (congrArg Prod.fst h) (by simp)

theorem scanFrac_nil : scanFrac [] = some ([], []) := rfl

theorem scanFrac_dot (u : List Char) :
    scanFrac ('.' :: u) =
      if (takeDigits u).1 = [] then none
      else some ('.' :: (takeDigits u).1, (takeDigits u).2) := by
  conv_lhs => rw [scanFrac.eq_def]
  simp only []
  rw [if_pos trivial]

theorem scanFrac_not {c : Char} (h : ¬ c = '.') (u : List Char) :
    scanFrac (c :: u) = some ([], c :: u) := by
  conv_lhs => rw [scanFrac.eq_def]
  simp only []
  rw [if_neg h]

theorem scanFrac_sound : ∀ {x fp r : List Char}, scanFrac x = some (fp, r) →
    x = fp ++ r ∧ ∀ c ∈ fp, c ≠ btick := by
  intro x fp r h
  cases x with
  | nil =>
    rw [scanFrac_nil] at h
    simp only [Option.some.injEq, Prod.mk.injEq] at h
    obtain ⟨h1, h2⟩ := h
    subst h1
    subst h2
    exact ⟨rfl, by simp⟩
  | cons c u =>
    by_cases hdot : c = '.'
    · subst hdot
      rw [scanFrac_dot] at h
      split at h
      · exact Option.noConfusion h
      · simp only [Option.some.injEq, Prod.mk.injEq] at h
        obtain ⟨h1, h2⟩ := h
        subst h1
        subst h2
        refine ⟨?_, ?_⟩
        · rw [List.cons_append, ← (takeDigits_eq u).1]
        · intro d hd
          rcases List.mem_cons.mp hd with rfl | hd
          · decide
          · exact isDig_ne_btick ((takeDigits_eq u).2 d hd)
    · rw [scanFrac_not hdot] at h
      simp only [Option.some.injEq, Prod.mk.injEq] at h
      obtain ⟨h1, h2⟩ := h
      subst h1
      subst h2
      exact ⟨rfl, by simp⟩

theorem scanFrac_compat : ∀ {fp r z : List Char},
    scanFrac (fp ++ r) = some (fp, r) → headCompat r z →
    scanFrac (fp ++ z) = some (fp, z) := by
  intro fp r z h hc
  cases fp with
  | nil =>
    simp only [List.nil_append] at h ⊢
    rcases hc with rfl | ⟨c, r2, z2, rfl, rfl⟩
    · exact scanFrac_nil
    · by_cases hdot : c = '.'
      · subst hdot
        rw [scanFrac_dot] at h
        split at h
        · exact Option.noConfusion h
        · simp only [Option.some.injEq, Prod.mk.injEq] at h
          exact absurd h.1 (by simp)
      · rw [scanFrac_not hdot]
  | cons f1 fp2 =>
    simp only [List.cons_append] at h ⊢
    by_cases hdot : f1 = '.'
    · subst hdot
      rw [scanFrac_dot] at h
      split at h
      · exact Option.noConfusion h
      · rename_i hne
        simp only [Option.some.injEq, Prod.mk.injEq] at h
        obtain ⟨h1, h2⟩ := h
        injection h1 with hh1 h1
        have h3 : takeDigits (fp2 ++ r) = (fp2, r) := by
          rw [Prod.ext_iff]
          exact ⟨h1, h2⟩
        have h4 := takeDigits_compat fp2 h3 hc
        rw [scanFrac_dot, h4, if_neg (h1 ▸ hne)]
    · rw [scanFrac_not hdot] at h
      simp only [Option.some.injEq, Prod.mk.injEq] at h
      exact absurd h.1 (by simp)

theorem scanExp_nil : scanExp [] = some ([], []) := rfl

theorem scanExp_not {e : Char} (h : ¬(e = 'e' ∨ e = 'E')) (u : List Char) :
    scanExp (e :: u) = some ([], e :: u) := by
  conv_lhs => rw [scanExp.eq_def]
  simp only []
  rw [if_neg h]

theorem scanExp_marker_nil {e : Char} (h : e = 'e' ∨ e = 'E') :
    scanExp [e] = none := by
  conv_lhs => rw [scanExp.eq_def]
  simp only []
  rw [if_pos h]

theorem scanExp_marker_sign {e s : Char} (he : e = 'e' ∨ e = 'E')
    (hs : s = '+' ∨ s = '-') (r3 : List Char) :
    scanExp (e :: s :: r3) =
      if (takeDigits r3).1 = [] then none
      else some (e :: s :: (takeDigits r3).1, (takeDigits r3).2) := by
  conv_lhs => rw [scanExp.eq_def]
  simp only []
  rw [if_pos he, if_pos hs]

theorem scanExp_marker_nosign {e s : Char} (he : e = 'e' ∨ e = 'E')
    (hs : ¬(s = '+' ∨ s = '-')) (r3 : List Char) :
    scanExp (e :: s :: r3) =
      if (takeDigits (s :: r3)).1 = [] then none
      else some (e :: (takeDigits (s :: r3)).1, (takeDigits (s :: r3)).2) := by
  conv_lhs => rw [scanExp.eq_def]
  simp only []
  rw [if_pos he, if_neg hs]

theorem scanExp_sound : ∀ {x ep r : List Char}, scanExp x = some (ep, r) →
    x = ep ++ r ∧ ∀ c ∈ ep, c ≠ btick := by
  intro x ep r h
  cases x with
  | nil =>
    rw [scanExp_nil] at h
    simp only [Option.some.injEq, Prod.mk.injEq] at h
    obtain ⟨h1, h2⟩ := h
    subst h1
    subst h2
    exact ⟨rfl, by simp⟩
  | cons e u =>
    by_cases he : e = 'e' ∨ e = 'E'
    · cases u with
      | nil =>
        rw [scanExp_marker_nil he] at h
        exact Option.noConfusion h
      | cons s r3 =>
        by_cases hs : s = '+' ∨ s = '-'
        · rw [scanExp_marker_sign he hs] at h
          split at h
          · exact Option.noConfusion h
          · simp only [Option.some.injEq, Prod.mk.injEq] at h
            obtain ⟨h1, h2⟩ := h
            subst h1
            subst h2
            refine ⟨?_, ?_⟩
            · simp only [List.cons_append]
              rw [← (takeDigits_eq r3).1]
            · intro d hd
              rcases List.mem_cons.mp hd with rfl | hd
              · rcases he with rfl | rfl <;> decide
              · rcases List.mem_cons.mp hd with rfl | hd
                · rcases hs with rfl | rfl <;> decide
                · exact isDig_ne_btick ((takeDigits_eq r3).2 d hd)
        · rw [scanExp_marker_nosign he hs] at h
          split at h
          · exact Option.noConfusion h
          · simp only [Option.some.injEq, Prod.mk.injEq] at h
            obtain ⟨h1, h2⟩ := h
            subst h1
            subst h2
            refine ⟨?_, ?_⟩
            · simp only [List.cons_append]
              rw [← (takeDigits_eq (s :: r3)).1]
            · intro d hd
              rcases List.mem_cons.mp hd with rfl | hd
              · rcases he with rfl | rfl <;> decide
              · exact isDig_ne_btick ((takeDigits_eq (s :: r3)).2 d hd)
    · rw [scanExp_not he] at h
      simp only [Option.some.injEq, Prod.mk.injEq] at h
      obtain ⟨h1, h2⟩ := h
      subst h1
      subst h2
      exact ⟨rfl, by simp⟩

theorem scanExp_compat : ∀ {ep r z : List Char},
    scanExp (ep ++ r) = some (ep, r) → headCompat r z →
    scanExp (ep ++ z) = some (ep, z) := by
  intro ep r z h hc
  cases ep with
  | nil =>
    simp only [List.nil_append] at h ⊢
    rcases hc with rfl | ⟨c, r2, z2, rfl, rfl⟩
    · exact scanExp_nil
    · by_cases he : c = 'e' ∨ c = 'E'
      · exfalso
        cases r2 with
        | nil =>
          rw [scanExp_marker_nil he] at h
          exact Option.noConfusion h
        | cons s r3 =>
          by_cases hs : s = '+' ∨ s = '-'
          · rw [scanExp_marker_sign he hs] at h
            split at h
            · exact Option.noConfusion h
            · simp only [Option.some.injEq, Prod.mk.injEq] at h
              exact absurd h.1 (by simp)
          · rw [scanExp_marker_nosign he hs] at h
            split at h
            · exact Option.noConfusion h
            · simp only [Option.some.injEq, Prod.mk.injEq] at h
              exact absurd h.1 (by simp)
      · rw [scanExp_not he]
  | cons e ep2 =>
    simp only [List.cons_append] at h ⊢
    by_cases he : e = 'e' ∨ e = 'E'
    · cases ep2 with
      | nil =>
        exfalso
        simp only [List.nil_append] at h
        cases r with
        | nil =>
          rw [scanExp_marker_nil he] at h
          exact Option.noConfusion h
        | cons s r3 =>
          by_cases hs : s = '+' ∨ s = '-'
          · rw [scanExp_marker_sign he hs] at h
            split at h
            · exact Option.noConfusion h
            · simp only [Option.some.injEq, Prod.mk.injEq] at h
              obtain ⟨h1, -⟩ := h
              injection h1 with h1a h1
              exact absurd h1 (by simp)
          · rw [scanExp_marker_nosign he hs] at h
            split at h
            · exact Option.noConfusion h
            · rename_i hne
              simp only [Option.some.injEq, Prod.mk.injEq] at h
              obtain ⟨h1, -⟩ := h
              injection h1 with h1a h1
              exact absurd h1 hne
      | cons s ep3 =>
        simp only [List.cons_append] at h ⊢
        by_cases hs : s = '+' ∨ s = '-'
        · rw [scanExp_marker_sign he hs] at h
          split at h
          · exact Option.noConfusion h
          · rename_i hne
            simp only [Option.some.injEq, Prod.mk.injEq] at h
            obtain ⟨h1, h2⟩ := h
            injection h1 with h1a h1
            injection h1 with h1b h1
            have h3 : takeDigits (ep3 ++ r) = (ep3, r) := by
              rw [Prod.ext_iff]
              exact ⟨h1, h2⟩
            have h4 := takeDigits_compat ep3 h3 hc
            rw [scanExp_marker_sign he hs, h4, if_neg (h1 ▸ hne)]
        · rw [scanExp_marker_nosign he hs] at h
          split at h
          · exact Option.noConfusion h
          · rename_i hne
            simp only [Option.some.injEq, Prod.mk.injEq] at h
            obtain ⟨h1, h2⟩ := h
            injection h1 with h1a h1
            have h3 : takeDigits ((s :: ep3) ++ r) = (s :: ep3, r) := by
              rw [show (s :: ep3) ++ r = s :: (ep3 ++ r) from rfl, Prod.ext_iff]
              exact ⟨h1, h2⟩
            have h4 := takeDigits_compat (s :: ep3) h3 hc
            rw [scanExp_marker_nosign he hs,
              show s :: (ep3 ++ z) = (s :: ep3) ++ z from rfl, h4,
              if_neg (h1 ▸ hne)]
    · rw [scanExp_not he] at h
      simp only [Option.some.injEq, Prod.mk.injEq] at h
      exact absurd h.1 (by simp)


theorem scanNumTail_inv {ip r1 lex r : List Char}
    (h : scanNumTail ip r1 = some (lex, r)) :
    ∃ fp ep r2, scanFrac r1 = some (fp, r2) ∧ scanExp r2 = some (ep, r) ∧
      lex = ip ++ fp ++ ep := by
  unfold scanNumTail at h
  rcases hf : scanFrac r1 with _ | ⟨fp, r2⟩
  · rw [hf] at h
    exact Option.noConfusion h
  · rw [hf] at h
    simp only [] at h
    rcases he : scanExp r2 with _ | ⟨ep, r3⟩
    · rw [he] at h
      exact Option.noConfusion h
    · rw [he] at h
      simp only [Option.some.injEq, Prod.mk.injEq] at h
      exact ⟨fp, ep, r2, rfl, by rw [he, h.2], h.1.symm⟩

theorem scanNumTail_sound {ip r1 lex r : List Char}
    (h : scanNumTail ip r1 = some (lex, r)) :
    ∃ tl, lex = ip ++ tl ∧ r1 = tl ++ r ∧ ∀ c ∈ tl, c ≠ btick := by
  obtain ⟨fp, ep, r2, hf, he, hl⟩ := scanNumTail_inv h
  obtain ⟨hf1, hf2⟩ := scanFrac_sound hf
  obtain ⟨he1, he2⟩ := scanExp_sound he
  refine ⟨fp ++ ep, ?_, ?_, ?_⟩
  · rw [hl, List.append_assoc]
  · rw [hf1, he1, List.append_assoc]
  · intro c hc
    rcases List.mem_append.mp hc with hc | hc
    · exact hf2 c hc
    · exact he2 c hc

theorem scanNumTail_compat {ip tl r z : List Char}
    (h : scanNumTail ip (tl ++ r) = some (ip ++ tl, r)) (hc : headCompat r z) :
    scanNumTail ip (tl ++ z) = some (ip ++ tl, z) := by
  obtain ⟨fp, ep, r2, hf, he, hl⟩ := scanNumTail_inv h
  have htl : tl = fp ++ ep := by
    have h9 := hl
    rw [List.append_assoc] at h9
    exact List.append_cancel_left h9
  obtain ⟨he1, -⟩ := scanExp_sound he
  subst he1
  subst htl
  have hf2 : scanFrac (fp ++ (ep ++ r)) = some (fp, ep ++ r) := by
    rw [← List.append_assoc]
    exact hf
  have hf3 := scanFrac_compat hf2 (headCompat_extend hc ep)
  have he3 := scanExp_compat he hc
  unfold scanNumTail
  rw [show fp ++ ep ++ z = fp ++ (ep ++ z) from List.append_assoc fp ep z, hf3]
  simp only []
  rw [he3]
  simp only []
  rw [List.append_assoc]

theorem scanNumPos_nil : scanNumPos [] = none := rfl

theorem scanNumPos_zero (r : List Char) :
    scanNumPos ('0' :: r) = scanNumTail ['0'] r := by
  conv_lhs => rw [scanNumPos.eq_def]
  simp only []
  rw [if_pos (by decide : isDig '0' = true), if_pos trivial]

theorem scanNumPos_dig {c : Char} (hd : isDig c = true) (h0 : ¬ c = '0')
    (r : List Char) :
    scanNumPos (c :: r) =
      scanNumTail (c :: (takeDigits r).1) (takeDigits r).2 := by
  conv_lhs => rw [scanNumPos.eq_def]
  simp only []
  rw [if_pos hd, if_neg h0]

theorem scanNumPos_not {c : Char} (hd : isDig c = false) (r : List Char) :
    scanNumPos (c :: r) = none := by
  conv_lhs => rw [scanNumPos.eq_def]
  simp only []
  rw [if_neg (by simp [hd])]

theorem scanNumPos_sound {x lex r : List Char} (h : scanNumPos x = some (lex, r)) :
    x = lex ++ r ∧ lex ≠ [] ∧ ∀ c ∈ lex, c ≠ btick := by
  cases x with
  | nil =>
    rw [scanNumPos_nil] at h
    exact Option.noConfusion h
  | cons c r0 =>
    cases hd : isDig c with
    | false =>
      rw [scanNumPos_not hd] at h
      exact Option.noConfusion h
    | true =>
      by_cases h0 : c = '0'
      · subst h0
        rw [scanNumPos_zero] at h
        obtain ⟨tl, hl, hr, hch⟩ := scanNumTail_sound h
        refine ⟨?_, by rw [hl]; simp, ?_⟩
        · rw [hl, hr]
          simp
        · intro d hdm
          rw [hl] at hdm
          rcases List.mem_append.mp hdm with hdm | hdm
          · rcases List.mem_cons.mp hdm with rfl | hdm
            · decide
            · exact absurd hdm (by simp)
          · exact hch d hdm
      · rw [scanNumPos_dig hd h0] at h
        obtain ⟨tl, hl, hr, hch⟩ := scanNumTail_sound h
        refine ⟨?_, by rw [hl]; simp, ?_⟩
        · rw [hl]
          conv_lhs =>
            rw [show r0 = (takeDigits r0).1 ++ (takeDigits r0).2 from (takeDigits_eq r0).1]
          rw [hr]
          simp
        · intro d hdm
          rw [hl] at hdm
          rcases List.mem_append.mp hdm with hdm | hdm
          · rcases List.mem_cons.mp hdm with rfl | hdm
            · exact isDig_ne_btick hd
            · exact isDig_ne_btick ((takeDigits_eq r0).2 d hdm)
          · exact hch d hdm

theorem scanNumPos_compat {lex r z : List Char}
    (h : scanNumPos (lex ++ r) = some (lex, r)) (hc : headCompat r z) :
    scanNumPos (lex ++ z) = some (lex, z) := by
  cases lex with
  | nil => exact absurd rfl (scanNumPos_sound h).2.1
  | cons c lex2 =>
    simp only [List.cons_append] at h ⊢
    cases hd : isDig c with
    | false =>
      rw [scanNumPos_not hd] at h
      exact Option.noConfusion h
    | true =>
      by_cases h0 : c = '0'
      · subst h0
        rw [scanNumPos_zero] at h ⊢
        exact scanNumTail_compat
          (show scanNumTail ['0'] (lex2 ++ r) = some (['0'] ++ lex2, r) from h) hc
      · rw [scanNumPos_dig hd h0] at h ⊢
        obtain ⟨tl, hl, hr, -⟩ := scanNumTail_sound h
        have hl2 : lex2 = (takeDigits (lex2 ++ r)).1 ++ tl := by
          simpa using hl
        have h9 : lex2 ++ r = (takeDigits (lex2 ++ r)).1 ++ (tl ++ r) := by
          conv_lhs => rw [hl2]
          simp [List.append_assoc]
        have htd : takeDigits ((takeDigits (lex2 ++ r)).1 ++ (tl ++ r)) =
            ((takeDigits (lex2 ++ r)).1, tl ++ r) := by
          rw [← h9, Prod.ext_iff]
          exact ⟨rfl, hr⟩
        have htd2 := takeDigits_compat _ htd (headCompat_extend hc tl)
        have h9z : lex2 ++ z = (takeDigits (lex2 ++ r)).1 ++ (tl ++ z) := by
          conv_lhs => rw [hl2]
          simp [List.append_assoc]
        rw [h9z, htd2]
        have h10 : scanNumTail (c :: (takeDigits (lex2 ++ r)).1) (tl ++ r) =
            some ((c :: (takeDigits (lex2 ++ r)).1) ++ tl, r) := by
          rw [← hr, ← hl]
          exact h
        have h11 := scanNumTail_compat h10 hc
        rw [h11, ← hl]

theorem scanNum_neg (l1 : List Char) :
    scanNum ('-' :: l1) = (scanNumPos l1).map fun x => ('-' :: x.1, x.2) := by
  conv_lhs => rw [scanNum.eq_def]
  simp only []

theorem scanNum_nil : scanNum [] = none := rfl

theorem scanNum_nonneg {c : Char} (h : ¬ c = '-') (l1 : List Char) :
    scanNum (c :: l1) = scanNumPos (c :: l1) := by
  conv_lhs => rw [scanNum.eq_def]
  split
  · rename_i l2 heq
    injection heq with h1 h2
    exact absurd h1 h
  · rfl

theorem scanNum_sound {u lex r : List Char} (h : scanNum u = some (lex, r)) :
    u = lex ++ r ∧ lex ≠ [] ∧ ∀ c ∈ lex, c ≠ btick := by
  cases u with
  | nil =>
    rw [scanNum_nil] at h
    exact Option.noConfusion h
  | cons c l1 =>
    by_cases hneg : c = '-'
    · subst hneg
      rw [scanNum_neg] at h
      rcases Option.map_eq_some'.mp h with ⟨⟨lex1, r1⟩, hs, hmk⟩
      simp only [Prod.mk.injEq] at hmk
      obtain ⟨hm1, hm2⟩ := hmk
      subst hm1
      subst hm2
      obtain ⟨h1, h2, h3⟩ := scanNumPos_sound hs
      refine ⟨by rw [h1]; rfl, by simp, ?_⟩
      intro d hd
      rcases List.mem_cons.mp hd with rfl | hd
      · decide
      · exact h3 d hd
    · rw [scanNum_nonneg hneg] at h
      exact scanNumPos_sound h

theorem scanNum_compat {lex r z : List Char}
    (h : scanNum (lex ++ r) = some (lex, r)) (hc : headCompat r z) :
    scanNum (lex ++ z) = some (lex, z) := by
  cases lex with
  | nil => exact absurd rfl (scanNum_sound h).2.1
  | cons c lex2 =>
    simp only [List.cons_append] at h ⊢
    by_cases hneg : c = '-'
    · subst hneg
      rw [scanNum_neg] at h ⊢
      rcases Option.map_eq_some'.mp h with ⟨⟨lex1, r1⟩, hs, hmk⟩
      simp only [Prod.mk.injEq] at hmk
      obtain ⟨hm1, hm2⟩ := hmk
      injection hm1 with hm1a hm1
      subst hm1
      subst hm2
      rw [scanNumPos_compat hs hc]
      rfl
    · rw [scanNum_nonneg hneg] at h ⊢
      exact scanNumPos_compat
        (show scanNumPos ((c :: lex2) ++ r) = some (c :: lex2, r) from h) hc

theorem scanNum_R {f : Char → Char} {p : List Char} (hp : GoodPat f p)
    {u lex r : List Char} (h : scanNum u = some (lex, r)) (hn : nbHead r) :
    scanNum (removeAllL f p u) = some (lex, removeAllL f p r) := by
  obtain ⟨h1, -, h3⟩ := scanNum_sound h
  subst h1
  rw [removeAllL_append_nb hp lex r h3]
  exact scanNum_compat h (headCompat_R hp hn)

theorem scanNum_trunc {a y lex b : List Char}
    (h : scanNum (a ++ y) = some (lex, b ++ y)) : scanNum a = some (lex, b) := by
  obtain ⟨h1, -, -⟩ := scanNum_sound h
  have h1b : a ++ y = (lex ++ b) ++ y := by rw [h1, List.append_assoc]
  have h2 : a = lex ++ b := List.append_cancel_right h1b
  rw [h2]
  refine scanNum_compat ?_ (headCompat_append b y)
  rw [← List.append_assoc, ← h2]
  exact h


/-! ### Parser unfolding lemmas -/

theorem isDig_facts {c : Char} (h : isDig c = true) : jsonWS c = false ∧ c ≠ btick := by
  have hb : '0' ≤ c ∧ c ≤ '9' := by simpa [isDig] using h
  have h1 : 48 ≤ c.toNat := char_le_toNat hb.1
  have h2 : c.toNat ≤ 57 := char_le_toNat hb.2
  constructor
  · cases hw : jsonWS c with
    | false => rfl
    | true =>
      exfalso
      have h4 : c = ' ' ∨ c = '\t' ∨ c = '\n' ∨ c = '\r' := by simpa [jsonWS] using hw
      rcases h4 with rfl | rfl | rfl | rfl
      · exact absurd h1 (by decide)
      · exact absurd h1 (by decide)
      · exact absurd h1 (by decide)
      · exact absurd h1 (by decide)
  · intro he
    subst he
    exact absurd h (by decide)

theorem numHead_facts {c : Char} (hc : c = '-' ∨ isDig c = true) :
    ¬ c = '"' ∧ ¬ c = '[' ∧ ¬ c = 't' ∧ ¬ c = 'f' ∧ ¬ c = 'n' ∧
      ¬ c = lbraceC ∧ c ≠ btick ∧ jsonWS c = false := by
  rcases hc with rfl | hd
  · refine ⟨by decide, by decide, by decide, by decide, by decide, by decide,
      by decide, by decide⟩
  · have hb : '0' ≤ c ∧ c ≤ '9' := by simpa [isDig] using hd
    have h1 : 48 ≤ c.toNat := char_le_toNat hb.1
    have h2 : c.toNat ≤ 57 := char_le_toNat hb.2
    have hne : ∀ d : Char, (d.toNat < 48 ∨ 57 < d.toNat) → ¬ c = d := by
      intro d hdn he
      subst he
      omega
    exact ⟨hne '"' (by decide), hne '[' (by decide), hne 't' (by decide),
      hne 'f' (by decide), hne 'n' (by decide), hne lbraceC (by decide),
      hne btick (by decide), (isDig_facts hd).1⟩

theorem parseVal_zero (l : List Char) : parseVal 0 l = none := rfl

theorem parseVal_nil (n : Nat) : parseVal n [] = none := by
  cases n with
  | zero => rfl
  | succ n => conv_lhs => rw [parseVal.eq_def]

theorem parseVal_quote_eq (n : Nat) (rest : List Char) :
    parseVal (n + 1) ('"' :: rest) =
      (scanStr rest).map fun x => (JSValue.str (String.mk x.1), x.2) := by
  conv_lhs => rw [parseVal.eq_def]
  simp only []

theorem parseVal_true_eq (n : Nat) (rest : List Char) :
    parseVal (n + 1) ('t' :: 'r' :: 'u' :: 'e' :: rest) = some (JSValue.bool true, rest) := by
  conv_lhs => rw [parseVal.eq_def]
  simp only []

theorem parseVal_false_eq (n : Nat) (rest : List Char) :
    parseVal (n + 1) ('f' :: 'a' :: 'l' :: 's' :: 'e' :: rest) = some (JSValue.bool false, rest) := by
  conv_lhs => rw [parseVal.eq_def]
  simp only []

theorem parseVal_null_eq (n : Nat) (rest : List Char) :
    parseVal (n + 1) ('n' :: 'u' :: 'l' :: 'l' :: rest) = some (JSValue.null, rest) := by
  conv_lhs => rw [parseVal.eq_def]
  simp only []

theorem parseVal_arr_close {rest r2 : List Char} (n : Nat)
    (h : skipWsJ rest = ']' :: r2) :
    parseVal (n + 1) ('[' :: rest) = some (JSValue.arr [], r2) := by
  conv_lhs => rw [parseVal.eq_def]
  simp only []
  rw [h]
  simp only []

theorem parseVal_arr_go_some {rest : List Char} {c : Char} {r1 : List Char}
    {vs : List JSValue} {r2 : List Char} (n : Nat) (h : skipWsJ rest = c :: r1)
    (hc : ¬ c = ']') (he : parseElems n (c :: r1) = some (vs, r2)) :
    parseVal (n + 1) ('[' :: rest) = some (JSValue.arr vs, r2) := by
  conv_lhs => rw [parseVal.eq_def]
  simp only []
  rw [h]
  split
  · rename_i r2b heq
    injection heq with h1 h2
    exact absurd h1 hc
  · rw [he]

theorem parseVal_obj_empty {rest : List Char} {d : Char} {r2 : List Char} (n : Nat)
    (h : skipWsJ rest = d :: r2) (hd : d = rbraceC) :
    parseVal (n + 1) (lbraceC :: rest) = some (JSValue.obj [], r2) := by
  rw [show (lbraceC : Char) = '\x7b' from rfl]
  conv_lhs => rw [parseVal.eq_def]
  simp only []
  split
  · rename_i rest2 heq
    injection heq with ha hb
    exact absurd ha (by decide)
  · rename_i rest2 heq
    injection heq with ha hb
    exact absurd ha (by decide)
  · rename_i rest2 heq
    injection heq with ha hb
    exact absurd ha (by decide)
  · rename_i rest2 heq
    injection heq with ha hb
    exact absurd ha (by decide)
  · rename_i rest2 heq
    injection heq with ha hb
    exact absurd ha (by decide)
  · rename_i c2 rest2 hq2 hb2 ht2 hf2 hn2 heq
    injection heq with ha hb
    subst ha
    subst hb
    rw [if_pos (by decide : ('\x7b' : Char) = lbraceC), h]
    simp only []
    rw [if_pos hd]
  · rename_i heq
    exact absurd heq (by simp)

theorem parseVal_obj_mem {rest : List Char} {d : Char} {r2 : List Char}
    {ms : List (String × JSValue)} {r3 : List Char} (n : Nat)
    (h : skipWsJ rest = d :: r2) (hd : ¬ d = rbraceC)
    (hm : parseMembers n (d :: r2) = some (ms, r3)) :
    parseVal (n + 1) (lbraceC :: rest) = some (JSValue.obj ms, r3) := by
  rw [show (lbraceC : Char) = '\x7b' from rfl]
  conv_lhs => rw [parseVal.eq_def]
  simp only []
  split
  · rename_i rest2 heq
    injection heq with ha hb
    exact absurd ha (by decide)
  · rename_i rest2 heq
    injection heq with ha hb
    exact absurd ha (by decide)
  · rename_i rest2 heq
    injection heq with ha hb
    exact absurd ha (by decide)
  · rename_i rest2 heq
    injection heq with ha hb
    exact absurd ha (by decide)
  · rename_i rest2 heq
    injection heq with ha hb
    exact absurd ha (by decide)
  · rename_i c2 rest2 hq2 hb2 ht2 hf2 hn2 heq
    injection heq with ha hb
    subst ha
    subst hb
    rw [if_pos (by decide : ('\x7b' : Char) = lbraceC), h]
    simp only []
    rw [if_neg hd]
    rw [hm]
  · rename_i heq
    exact absurd heq (by simp)

theorem parseVal_num_eq {c : Char} (hc : c = '-' ∨ isDig c = true) (n : Nat)
    (rest : List Char) :
    parseVal (n + 1) (c :: rest) =
      (scanNum (c :: rest)).map fun x => (JSValue.num (String.mk x.1), x.2) := by
  obtain ⟨h1, h2, h3, h4, h5, h6, -, -⟩ := numHead_facts hc
  conv_lhs => rw [parseVal.eq_def]
  simp only []
  split
  · rename_i rest2 heq
    injection heq with ha hb
    exact absurd ha h1
  · rename_i rest2 heq
    injection heq with ha hb
    exact absurd ha h2
  · rename_i rest2 heq
    injection heq with ha hb
    exact absurd ha h3
  · rename_i rest2 heq
    injection heq with ha hb
    exact absurd ha h4
  · rename_i rest2 heq
    injection heq with ha hb
    exact absurd ha h5
  · rename_i c2 rest2 hq2 hb2 ht2 hf2 hn2 heq
    injection heq with ha hb
    subst ha
    subst hb
    rw [if_neg h6, if_pos (by simpa [isDig] using hc)]
  · rename_i heq
    exact absurd heq (by simp)

theorem parseElems_zero (l : List Char) : parseElems 0 l = none := rfl

theorem parseElems_some_comma {l : List Char} {v : JSValue} {r : List Char}
    {r2 : List Char} {vs : List JSValue} {r3 : List Char} (n : Nat)
    (hv : parseVal n (skipWsJ l) = some (v, r)) (hr : skipWsJ r = ',' :: r2)
    (he : parseElems n r2 = some (vs, r3)) :
    parseElems (n + 1) l = some (v :: vs, r3) := by
  conv_lhs => rw [parseElems.eq_def]
  simp only []
  rw [hv]
  simp only []
  rw [hr]
  simp only []
  rw [he]

theorem parseElems_some_close {l : List Char} {v : JSValue} {r r2 : List Char}
    (n : Nat) (hv : parseVal n (skipWsJ l) = some (v, r))
    (hr : skipWsJ r = ']' :: r2) :
    parseElems (n + 1) l = some ([v], r2) := by
  conv_lhs => rw [parseElems.eq_def]
  simp only []
  rw [hv]
  simp only []
  rw [hr]
  split
  · rename_i r2b heq
    injection heq with ha hb
    exact absurd ha (by decide)
  · rename_i r2b heq
    injection heq with ha hb
    subst hb
    rfl
  · rename_i hx1 hx2
    exact absurd rfl (hx2 r2)

theorem parseMembers_zero (l : List Char) : parseMembers 0 l = none := rfl

theorem parseMembers_comma {l rest k r r2 : List Char} {v : JSValue}
    {r3 r4 : List Char} {ms : List (String × JSValue)} {r5 : List Char} (n : Nat)
    (hsk : skipWsJ l = '"' :: rest) (hscan : scanStr rest = some (k, r))
    (hcolon : skipWsJ r = ':' :: r2) (hv : parseVal n (skipWsJ r2) = some (v, r3))
    (hr3 : skipWsJ r3 = ',' :: r4) (hm : parseMembers n r4 = some (ms, r5)) :
    parseMembers (n + 1) l = some ((String.mk k, v) :: ms, r5) := by
  conv_lhs => rw [parseMembers.eq_def]
  simp only []
  rw [hsk]
  simp only []
  rw [hscan]
  simp only []
  rw [hcolon]
  simp only []
  rw [hv]
  simp only []
  rw [hr3]
  simp only []
  rw [hm]

theorem parseMembers_close {l rest k r r2 : List Char} {v : JSValue}
    {r3 : List Char} {d : Char} {r4 : List Char} (n : Nat)
    (hsk : skipWsJ l = '"' :: rest) (hscan : scanStr rest = some (k, r))
    (hcolon : skipWsJ r = ':' :: r2) (hv : parseVal n (skipWsJ r2) = some (v, r3))
    (hr3 : skipWsJ r3 = d :: r4) (hd : d = rbraceC) :
    parseMembers (n + 1) l = some ([(String.mk k, v)], r4) := by
  have hdc : ¬ d = ',' := by
    subst hd
    decide
  conv_lhs => rw [parseMembers.eq_def]
  simp only []
  rw [hsk]
  simp only []
  rw [hscan]
  simp only []
  rw [hcolon]
  simp only []
  rw [hv]
  simp only []
  rw [hr3]
  split
  · rename_i r4b heq
    injection heq with ha hb
    exact absurd ha hdc
  · rename_i d2 r4b heq
    injection heq with ha hb
    subst ha
    subst hb
    rw [if_pos hd]
  · rename_i heq
    exact absurd heq (by simp)


/-! ### Consumption: a successful parse reads a nonempty prefix -/

theorem append_ne_nil_right {α : Type} {y : List α} (h : y ≠ []) (x : List α) :
    x ++ y ≠ [] := by
  intro he
  rcases List.append_eq_nil.mp he with ⟨-, h2⟩
  exact h h2

theorem consVEM : ∀ n : Nat,
    (∀ u v r, parseVal n u = some (v, r) → ∃ a, a ≠ [] ∧ u = a ++ r) ∧
    (∀ l vs r, parseElems n l = some (vs, r) → ∃ a, a ≠ [] ∧ l = a ++ r) ∧
    (∀ l ms r, parseMembers n l = some (ms, r) → ∃ a, a ≠ [] ∧ l = a ++ r) := by
  intro n
  induction n with
  | zero =>
    refine ⟨?_, ?_, ?_⟩ <;> (intro l x r h; exact Option.noConfusion h)
  | succ n ih =>
    obtain ⟨ihV, ihE, ihM⟩ := ih
    refine ⟨?_, ?_, ?_⟩
    · intro u v r h
      simp only [parseVal] at h
      split at h
      · rename_i rest
        rcases Option.map_eq_some'.mp h with ⟨⟨o, r1⟩, hs, hmk⟩
        simp only [Prod.mk.injEq] at hmk
        obtain ⟨a2, ha2, he2⟩ := scanStr_consume rest.length rest (le_refl _) hs
        refine ⟨'"' :: a2, by simp, ?_⟩
        rw [← hmk.2, he2]
        rfl
      · rename_i rest
        split at h
        · rename_i r2 heq
          simp only [Option.some.injEq, Prod.mk.injEq] at h
          refine ⟨'[' :: (rest.takeWhile jsonWS ++ [']']), by simp, ?_⟩
          rw [← h.2]
          conv_lhs => rw [skipWsJ_split rest, heq]
          simp [List.append_assoc]
        · split at h
          · rename_i vs r2 heqE
            simp only [Option.some.injEq, Prod.mk.injEq] at h
            obtain ⟨aE, haE, heE⟩ := ihE _ _ _ heqE
            rw [h.2] at heE
            refine ⟨'[' :: (rest.takeWhile jsonWS ++ aE), by simp, ?_⟩
            conv_lhs => rw [skipWsJ_split rest, heE]
            simp [List.append_assoc]
          · exact Option.noConfusion h
      · rename_i rest
        simp only [Option.some.injEq, Prod.mk.injEq] at h
        refine ⟨['t', 'r', 'u', 'e'], by simp, ?_⟩
        rw [← h.2]
        rfl
      · rename_i rest
        simp only [Option.some.injEq, Prod.mk.injEq] at h
        refine ⟨['f', 'a', 'l', 's', 'e'], by simp, ?_⟩
        rw [← h.2]
        rfl
      · rename_i rest
        simp only [Option.some.injEq, Prod.mk.injEq] at h
        refine ⟨['n', 'u', 'l', 'l'], by simp, ?_⟩
        rw [← h.2]
        rfl
      · rename_i c rest hq hb ht hf hn
        split at h
        · rename_i hlb
          split at h
          · rename_i d r2 heq
            split at h
            · rename_i hdr
              simp only [Option.some.injEq, Prod.mk.injEq] at h
              refine ⟨c :: (rest.takeWhile jsonWS ++ [d]), by simp, ?_⟩
              rw [← h.2]
              conv_lhs => rw [skipWsJ_split rest, heq]
              simp [List.append_assoc]
            · split at h
              · rename_i ms r3 heqM
                simp only [Option.some.injEq, Prod.mk.injEq] at h
                obtain ⟨aM, haM, heM⟩ := ihM _ _ _ heqM
                rw [h.2] at heM
                refine ⟨c :: (rest.takeWhile jsonWS ++ aM), by simp, ?_⟩
                conv_lhs => rw [skipWsJ_split rest, heM]
                simp [List.append_assoc]
              · exact Option.noConfusion h
          · exact Option.noConfusion h
        · split at h
          · rename_i hnum
            rcases Option.map_eq_some'.mp h with ⟨⟨lex, r1⟩, hs, hmk⟩
            simp only [Prod.mk.injEq] at hmk
            obtain ⟨h1, h2, -⟩ := scanNum_sound hs
            refine ⟨lex, h2, ?_⟩
            rw [← hmk.2, h1]
          · exact Option.noConfusion h
      · exact Option.noConfusion h
    · intro l vs r h
      simp only [parseElems] at h
      split at h
      · rename_i v r1 heqV
        obtain ⟨aV, haV, heV⟩ := ihV _ _ _ heqV
        split at h
        · rename_i r2 heqC
          split at h
          · rename_i vs2 r3 heqE
            simp only [Option.some.injEq, Prod.mk.injEq] at h
            obtain ⟨aE, haE, heE⟩ := ihE _ _ _ heqE
            rw [h.2] at heE
            refine ⟨l.takeWhile jsonWS ++ (aV ++ (r1.takeWhile jsonWS ++ (',' :: aE))),
              append_ne_nil_right (append_ne_nil_right
                (append_ne_nil_right (by simp) _) _) _, ?_⟩
            conv_lhs => rw [skipWsJ_split l, heV, skipWsJ_split r1, heqC, heE]
            simp [List.append_assoc]
          · exact Option.noConfusion h
        · rename_i r2 heqC
          simp only [Option.some.injEq, Prod.mk.injEq] at h
          refine ⟨l.takeWhile jsonWS ++ (aV ++ (r1.takeWhile jsonWS ++ [']'])),
            append_ne_nil_right (append_ne_nil_right
              (append_ne_nil_right (by simp) _) _) _, ?_⟩
          rw [← h.2]
          conv_lhs => rw [skipWsJ_split l, heV, skipWsJ_split r1, heqC]
          simp [List.append_assoc]
        · exact Option.noConfusion h
      · exact Option.noConfusion h
    · intro l ms r h
      simp only [parseMembers] at h
      split at h
      · rename_i rest heqQ
        split at h
        · rename_i k r1 heqS
          obtain ⟨aS, haS, heS⟩ := scanStr_consume rest.length rest (le_refl _) heqS
          split at h
          · rename_i r2 heqC
            split at h
            · rename_i v r3 heqV
              obtain ⟨aV, haV, heV⟩ := ihV _ _ _ heqV
              split at h
              · rename_i r4 heqC2
                split at h
                · rename_i ms2 r5 heqM
                  simp only [Option.some.injEq, Prod.mk.injEq] at h
                  obtain ⟨aM, haM, heM⟩ := ihM _ _ _ heqM
                  rw [h.2] at heM
                  refine ⟨l.takeWhile jsonWS ++ ('"' :: (aS ++ (r1.takeWhile jsonWS ++
                    (':' :: (r2.takeWhile jsonWS ++ (aV ++ (r3.takeWhile jsonWS ++
                      (',' :: aM)))))))),
                    append_ne_nil_right (by simp) _, ?_⟩
                  conv_lhs => rw [skipWsJ_split l, heqQ, heS, skipWsJ_split r1, heqC,
                    skipWsJ_split r2, heV, skipWsJ_split r3, heqC2, heM]
                  simp [List.append_assoc]
                · exact Option.noConfusion h
              · rename_i d r4 hcon heqC2
                split at h
                · rename_i hdr
                  simp only [Option.some.injEq, Prod.mk.injEq] at h
                  refine ⟨l.takeWhile jsonWS ++ ('"' :: (aS ++ (r1.takeWhile jsonWS ++
                    (':' :: (r2.takeWhile jsonWS ++ (aV ++ (r3.takeWhile jsonWS ++
                      [d]))))))),
                    append_ne_nil_right (by simp) _, ?_⟩
                  rw [← h.2]
                  conv_lhs => rw [skipWsJ_split l, heqQ, heS, skipWsJ_split r1, heqC,
                    skipWsJ_split r2, heV, skipWsJ_split r3, heqC2]
                  simp [List.append_assoc]
                · exact Option.noConfusion h
              · exact Option.noConfusion h
            · exact Option.noConfusion h
          · exact Option.noConfusion h
        · exact Option.noConfusion h
      · exact Option.noConfusion h

theorem parseVal_consume {n : Nat} {u : List Char} {v : JSValue} {r : List Char}
    (h : parseVal n u = some (v, r)) : ∃ a, a ≠ [] ∧ u = a ++ r :=
  (consVEM n).1 u v r h

theorem parseElems_consume {n : Nat} {l : List Char} {vs : List JSValue}
    {r : List Char} (h : parseElems n l = some (vs, r)) :
    ∃ a, a ≠ [] ∧ l = a ++ r :=
  (consVEM n).2.1 l vs r h

theorem parseMembers_consume {n : Nat} {l : List Char}
    {ms : List (String × JSValue)} {r : List Char}
    (h : parseMembers n l = some (ms, r)) : ∃ a, a ≠ [] ∧ l = a ++ r :=
  (consVEM n).2.2 l ms r h


/-! ### Fuel adequacy: a successful parse succeeds at the canonical fuel -/

theorem skipWsJ_le (l : List Char) : (skipWsJ l).length ≤ l.length := by
  conv_rhs => rw [skipWsJ_split l]
  simp

theorem parseElems_nil (n : Nat) : parseElems n [] = none := by
  cases n with
  | zero => rfl
  | succ n =>
    conv_lhs => rw [parseElems.eq_def]
    simp only []
    rw [show skipWsJ ([] : List Char) = [] from rfl, parseVal_nil]

theorem len_of_append {a b x : List Char} (h : x = a ++ b) :
    x.length = a.length + b.length := by
  rw [h, List.length_append]

theorem len_pos_of_ne_nil {a : List Char} (h : a ≠ []) : 1 ≤ a.length :=
  List.length_pos.mpr h

theorem suffVEM : ∀ n : Nat,
    (∀ u v r, parseVal n u = some (v, r) →
      ∀ m, 2 * u.length + 1 ≤ m → parseVal m u = some (v, r)) ∧
    (∀ l vs r, parseElems n l = some (vs, r) →
      ∀ m, 2 * l.length + 2 ≤ m → parseElems m l = some (vs, r)) ∧
    (∀ l ms r, parseMembers n l = some (ms, r) →
      ∀ m, 2 * l.length + 2 ≤ m → parseMembers m l = some (ms, r)) := by
  intro n
  induction n with
  | zero =>
    refine ⟨?_, ?_, ?_⟩ <;> (intro l x r h; exact Option.noConfusion h)
  | succ n ih =>
    obtain ⟨ihV, ihE, ihM⟩ := ih
    refine ⟨?_, ?_, ?_⟩
    · intro u v r h m hm
      obtain ⟨m2, rfl⟩ : ∃ m2, m = m2 + 1 := ⟨m - 1, by omega⟩
      simp only [parseVal] at h
      split at h
      · rename_i rest
        rw [parseVal_quote_eq]
        exact h
      · rename_i rest
        have hlen : (skipWsJ rest).length ≤ rest.length := skipWsJ_le rest
        split at h
        · rename_i r2 heq
          rw [parseVal_arr_close m2 heq]
          exact h
        · rename_i hx hcon
          split at h
          · rename_i vs r2 heqE
            cases hsk : skipWsJ rest with
            | nil =>
              rw [hsk, parseElems_nil] at heqE
              exact Option.noConfusion heqE
            | cons c2 r1b =>
              have hc2 : ¬ c2 = ']' := by
                intro he
                subst he
                exact hcon r1b hsk
              rw [hsk] at heqE
              have hE2 := ihE _ _ _ heqE m2
                (by
                  have h9 := congrArg List.length hsk
                  simp only [List.length_cons] at h9 hm ⊢
                  omega)
              rw [parseVal_arr_go_some m2 hsk hc2 hE2]
              exact h
          · exact Option.noConfusion h
      · rw [parseVal_true_eq]
        exact h
      · rw [parseVal_false_eq]
        exact h
      · rw [parseVal_null_eq]
        exact h
      · rename_i c rest hq hb ht hf hn
        have hlen : (skipWsJ rest).length ≤ rest.length := skipWsJ_le rest
        split at h
        · rename_i hlb
          subst hlb
          split at h
          · rename_i d r2 heq
            split at h
            · rename_i hdr
              rw [parseVal_obj_empty m2 heq hdr]
              exact h
            · rename_i hdr
              split at h
              · rename_i ms r3 heqM
                rw [heq] at heqM
                have hM2 := ihM _ _ _ heqM m2
                  (by
                    have h9 := congrArg List.length heq
                    simp only [List.length_cons] at h9 hm ⊢
                    omega)
                rw [parseVal_obj_mem m2 heq hdr hM2]
                exact h
              · exact Option.noConfusion h
          · exact Option.noConfusion h
        · split at h
          · rename_i hnum
            rw [parseVal_num_eq hnum m2]
            exact h
          · exact Option.noConfusion h
      · exact Option.noConfusion h
    · intro l vs r h m hm
      obtain ⟨m2, rfl⟩ : ∃ m2, m = m2 + 1 := ⟨m - 1, by omega⟩
      simp only [parseElems] at h
      split at h
      · rename_i v0 r1 heqV
        obtain ⟨aV, haV, heV⟩ := parseVal_consume heqV
        have hlV := len_of_append heV
        have hlaV := len_pos_of_ne_nil haV
        have hlsk : l.length = (l.takeWhile jsonWS).length + (skipWsJ l).length :=
          len_of_append (skipWsJ_split l)
        have hV2 := ihV _ _ _ heqV m2 (by omega)
        split at h
        · rename_i r2 heqC
          split at h
          · rename_i vs2 r3 heqE
            have hlr1 : r1.length = (r1.takeWhile jsonWS).length + (skipWsJ r1).length :=
              len_of_append (skipWsJ_split r1)
            have hlc : (skipWsJ r1).length = 1 + r2.length := by
              have h9 := congrArg List.length heqC
              simp only [List.length_cons] at h9
              omega
            have hE2 := ihE _ _ _ heqE m2 (by omega)
            rw [parseElems_some_comma m2 hV2 heqC hE2]
            exact h
          · exact Option.noConfusion h
        · rename_i r2 heqC
          rw [parseElems_some_close m2 hV2 heqC]
          exact h
        · exact Option.noConfusion h
      · exact Option.noConfusion h
    · intro l ms r h m hm
      obtain ⟨m2, rfl⟩ : ∃ m2, m = m2 + 1 := ⟨m - 1, by omega⟩
      simp only [parseMembers] at h
      split at h
      · rename_i rest heqQ
        have hlsk : l.length = (l.takeWhile jsonWS).length + (skipWsJ l).length :=
          len_of_append (skipWsJ_split l)
        have hlq : (skipWsJ l).length = 1 + rest.length := by
          have h9 := congrArg List.length heqQ
          simp only [List.length_cons] at h9
          omega
        split at h
        · rename_i k r1 heqS
          obtain ⟨aS, haS, heS⟩ := scanStr_consume rest.length rest (le_refl _) heqS
          have hlS := len_of_append heS
          have hlaS := len_pos_of_ne_nil haS
          split at h
          · rename_i r2 heqC
            have hlr1 : r1.length = (r1.takeWhile jsonWS).length + (skipWsJ r1).length :=
              len_of_append (skipWsJ_split r1)
            have hlc : (skipWsJ r1).length = 1 + r2.length := by
              have h9 := congrArg List.length heqC
              simp only [List.length_cons] at h9
              omega
            split at h
            · rename_i v r3 heqV
              have hskr2 : (skipWsJ r2).length ≤ r2.length := skipWsJ_le r2
              have hV2 := ihV _ _ _ heqV m2 (by omega)
              obtain ⟨aV, haV, heV⟩ := parseVal_consume heqV
              have hlV := len_of_append heV
              have hlaV := len_pos_of_ne_nil haV
              split at h
              · rename_i r4 heqC2
                have hlr3 : r3.length = (r3.takeWhile jsonWS).length + (skipWsJ r3).length :=
                  len_of_append (skipWsJ_split r3)
                have hlc2 : (skipWsJ r3).length = 1 + r4.length := by
                  have h9 := congrArg List.length heqC2
                  simp only [List.length_cons] at h9
                  omega
                split at h
                · rename_i ms2 r5 heqM
                  have hM2 := ihM _ _ _ heqM m2 (by omega)
                  rw [parseMembers_comma m2 heqQ heqS heqC hV2 heqC2 hM2]
                  exact h
                · exact Option.noConfusion h
              · rename_i d r4 hcon heqC2
                split at h
                · rename_i hdr
                  rw [parseMembers_close m2 heqQ heqS heqC hV2 heqC2 hdr]
                  exact h
                · exact Option.noConfusion h
              · exact Option.noConfusion h
            · exact Option.noConfusion h
          · exact Option.noConfusion h
        · exact Option.noConfusion h
      · exact Option.noConfusion h

theorem parseVal_suff {n : Nat} {u : List Char} {v : JSValue} {r : List Char}
    (h : parseVal n u = some (v, r)) {m : Nat} (hm : 2 * u.length + 1 ≤ m) :
    parseVal m u = some (v, r) :=
  (suffVEM n).1 u v r h m hm


/-! ### Heads of parsed values and whitespace-skip commutation -/

theorem parseVal_head_nb {n : Nat} {c : Char} {u2 : List Char} {v : JSValue}
    {r : List Char} (h : parseVal n (c :: u2) = some (v, r)) : c ≠ btick := by
  cases n with
  | zero => exact Option.noConfusion h
  | succ n =>
    simp only [parseVal] at h
    split at h
    · rename_i rest heq
      injection heq with ha hb
      subst ha
      decide
    · rename_i rest heq
      injection heq with ha hb
      subst ha
      decide
    · rename_i rest heq
      injection heq with ha hb
      subst ha
      decide
    · rename_i rest heq
      injection heq with ha hb
      subst ha
      decide
    · rename_i rest heq
      injection heq with ha hb
      subst ha
      decide
    · rename_i c2 rest hq hb2 ht hf hn heq
      injection heq with ha hb
      subst ha
      split at h
      · rename_i hlb
        subst hlb
        decide
      · split at h
        · rename_i hnum
          exact (numHead_facts hnum).2.2.2.2.2.2.1
        · exact Option.noConfusion h
    · rename_i heq
      exact absurd heq (by simp)

theorem parseElems_head_nb {n : Nat} {l : List Char} {vs : List JSValue}
    {r : List Char} (h : parseElems n l = some (vs, r)) :
    ∀ {c : Char} {x : List Char}, skipWsJ l = c :: x → c ≠ btick := by
  cases n with
  | zero => exact Option.noConfusion h
  | succ n =>
    intro c x hsk
    simp only [parseElems] at h
    split at h
    · rename_i v r1 heqV
      rw [hsk] at heqV
      exact parseVal_head_nb heqV
    · exact Option.noConfusion h

theorem parseMembers_head_quote {n : Nat} {l : List Char}
    {ms : List (String × JSValue)} {r : List Char}
    (h : parseMembers n l = some (ms, r)) :
    ∀ {c : Char} {x : List Char}, skipWsJ l = c :: x → c = '"' := by
  cases n with
  | zero => exact Option.noConfusion h
  | succ n =>
    intro c x hsk
    simp only [parseMembers] at h
    split at h
    · rename_i rest heqQ
      rw [heqQ] at hsk
      injection hsk with ha hb
      exact ha.symm
    · exact Option.noConfusion h

theorem skipR_cons {f : Char → Char} {p : List Char} (hp : GoodPat f p)
    {l : List Char} {c : Char} {x : List Char} (h : skipWsJ l = c :: x)
    (hc : c ≠ btick) :
    skipWsJ (removeAllL f p l) = c :: removeAllL f p x := by
  have hw : ∀ d ∈ l.takeWhile jsonWS, d ≠ btick :=
    wsOnly_ne_btick (takeWhile_wsOnly l)
  have h1 : removeAllL f p l =
      l.takeWhile jsonWS ++ removeAllL f p (skipWsJ l) := by
    conv_lhs => rw [skipWsJ_split l]
    exact removeAllL_append_nb hp _ _ hw
  rw [h1, skipWsJ_append_ws (fun d hd => List.mem_takeWhile_imp hd), h,
    removeAllL_cons_nb hp hc, skipWsJ_cons_not (skipWsJ_head h)]

theorem nbHead_of_skip {r1 : List Char} {d : Char} {r2 : List Char}
    (h : skipWsJ r1 = d :: r2) (hd : d ≠ btick) : nbHead r1 := by
  intro c hc
  cases r1 with
  | nil => exact absurd hc (by simp)
  | cons a x =>
    injection hc with hc1
    subst hc1
    cases hws : jsonWS a with
    | true => exact jsonWS_ne_btick hws
    | false =>
      rw [skipWsJ_cons_not hws x] at h
      injection h with h1 h2
      exact h1 ▸ hd

/-! ### Preservation of a successful parse under the removal pass -/

theorem presVEM {f : Char → Char} {p : List Char} (hp : GoodPat f p) : ∀ n : Nat,
    (∀ u v r, parseVal n u = some (v, r) → nbHead r →
      ∃ v2, parseVal n (removeAllL f p u) = some (v2, removeAllL f p r)) ∧
    (∀ l vs r, parseElems n l = some (vs, r) → nbHead r →
      ∃ vs2, parseElems n (removeAllL f p l) = some (vs2, removeAllL f p r)) ∧
    (∀ l ms r, parseMembers n l = some (ms, r) → nbHead r →
      ∃ ms2, parseMembers n (removeAllL f p l) = some (ms2, removeAllL f p r)) := by
  intro n
  induction n with
  | zero =>
    refine ⟨?_, ?_, ?_⟩ <;> (intro l x r h hnb; exact Option.noConfusion h)
  | succ n ih =>
    obtain ⟨ihV, ihE, ihM⟩ := ih
    refine ⟨?_, ?_, ?_⟩
    · intro u v r h hnb
      simp only [parseVal] at h
      split at h
      · rename_i rest
        rcases Option.map_eq_some'.mp h with ⟨⟨o, r1⟩, hs, hmk⟩
        simp only [Prod.mk.injEq] at hmk
        obtain ⟨o2, hs2⟩ := scanStr_pres hp rest.length rest (le_refl _)
          (show scanStr rest = some (o, r) by rw [hs, hmk.2])
        refine ⟨JSValue.str (String.mk o2), ?_⟩
        rw [removeAllL_cons_nb hp (by decide), parseVal_quote_eq, hs2]
        rfl
      · rename_i rest
        split at h
        · rename_i r2 heq
          simp only [Option.some.injEq, Prod.mk.injEq] at h
          obtain ⟨hv, hr⟩ := h
          subst hr
          refine ⟨JSValue.arr [], ?_⟩
          rw [removeAllL_cons_nb hp (by decide),
            parseVal_arr_close n (skipR_cons hp heq (by decide))]
        · rename_i hx hcon
          split at h
          · rename_i vs r2 heqE
            simp only [Option.some.injEq, Prod.mk.injEq] at h
            obtain ⟨hv, hr⟩ := h
            subst hr
            cases hsk : skipWsJ rest with
            | nil =>
              rw [hsk, parseElems_nil] at heqE
              exact Option.noConfusion heqE
            | cons c2 r1b =>
              have hc2 : ¬ c2 = ']' := by
                intro he
                subst he
                exact hcon r1b hsk
              rw [hsk] at heqE
              have hc2b : c2 ≠ btick :=
                parseElems_head_nb heqE
                  (skipWsJ_cons_not (skipWsJ_head hsk) r1b)
              obtain ⟨vs2, hE2⟩ := ihE _ _ _ heqE hnb
              rw [removeAllL_cons_nb hp hc2b] at hE2
              refine ⟨JSValue.arr vs2, ?_⟩
              rw [removeAllL_cons_nb hp (by decide),
                parseVal_arr_go_some n (skipR_cons hp hsk hc2b) hc2 hE2]
          · exact Option.noConfusion h
      · rename_i rest
        simp only [Option.some.injEq, Prod.mk.injEq] at h
        obtain ⟨hv, hr⟩ := h
        subst hr
        refine ⟨JSValue.bool true, ?_⟩
        rw [removeAllL_cons_nb hp (by decide), removeAllL_cons_nb hp (by decide),
          removeAllL_cons_nb hp (by decide), removeAllL_cons_nb hp (by decide),
          parseVal_true_eq]
      · rename_i rest
        simp only [Option.some.injEq, Prod.mk.injEq] at h
        obtain ⟨hv, hr⟩ := h
        subst hr
        refine ⟨JSValue.bool false, ?_⟩
        rw [removeAllL_cons_nb hp (by decide), removeAllL_cons_nb hp (by decide),
          removeAllL_cons_nb hp (by decide), removeAllL_cons_nb hp (by decide),
          removeAllL_cons_nb hp (by decide), parseVal_false_eq]
      · rename_i rest
        simp only [Option.some.injEq, Prod.mk.injEq] at h
        obtain ⟨hv, hr⟩ := h
        subst hr
        refine ⟨JSValue.null, ?_⟩
        rw [removeAllL_cons_nb hp (by decide), removeAllL_cons_nb hp (by decide),
          removeAllL_cons_nb hp (by decide), removeAllL_cons_nb hp (by decide),
          parseVal_null_eq]
      · rename_i c rest hq hb ht hf hn
        split at h
        · rename_i hlb
          subst hlb
          split at h
          · rename_i d r2 heq
            split at h
            · rename_i hdr
              simp only [Option.some.injEq, Prod.mk.injEq] at h
              obtain ⟨hv, hr⟩ := h
              subst hr
              refine ⟨JSValue.obj [], ?_⟩
              rw [removeAllL_cons_nb hp (by decide),
                parseVal_obj_empty n (skipR_cons hp heq (by rw [hdr]; decide)) hdr]
            · rename_i hdr
              split at h
              · rename_i ms r3 heqM
                simp only [Option.some.injEq, Prod.mk.injEq] at h
                obtain ⟨hv, hr⟩ := h
                subst hr
                rw [heq] at heqM
                have hdq : d = '"' :=
                  parseMembers_head_quote heqM
                    (skipWsJ_cons_not (skipWsJ_head heq) r2)
                obtain ⟨ms2, hM2⟩ := ihM _ _ _ heqM hnb
                rw [removeAllL_cons_nb hp (by rw [hdq]; decide)] at hM2
                refine ⟨JSValue.obj ms2, ?_⟩
                rw [removeAllL_cons_nb hp (by decide),
                  parseVal_obj_mem n (skipR_cons hp heq (by rw [hdq]; decide)) hdr hM2]
              · exact Option.noConfusion h
          · exact Option.noConfusion h
        · split at h
          · rename_i hnum
            rcases Option.map_eq_some'.mp h with ⟨⟨lex, r1⟩, hs, hmk⟩
            simp only [Prod.mk.injEq] at hmk
            have hs2 := scanNum_R hp
              (show scanNum (c :: rest) = some (lex, r) by rw [hs, hmk.2]) hnb
            rw [removeAllL_cons_nb hp (numHead_facts hnum).2.2.2.2.2.2.1] at hs2
            refine ⟨JSValue.num (String.mk lex), ?_⟩
            rw [removeAllL_cons_nb hp (numHead_facts hnum).2.2.2.2.2.2.1,
              parseVal_num_eq hnum n, hs2]
            rfl
          · exact Option.noConfusion h
      · exact Option.noConfusion h
    · intro l vs r h hnb
      simp only [parseElems] at h
      split at h
      · rename_i v0 r1 heqV
        cases hsk : skipWsJ l with
        | nil =>
          rw [hsk, parseVal_nil] at heqV
          exact Option.noConfusion heqV
        | cons c x =>
          rw [hsk] at heqV
          have hcb : c ≠ btick := parseVal_head_nb heqV
          split at h
          · rename_i r2 heqC
            split at h
            · rename_i vs2 r3 heqE
              simp only [Option.some.injEq, Prod.mk.injEq] at h
              obtain ⟨hv, hr⟩ := h
              subst hr
              have hnb1 : nbHead r1 := nbHead_of_skip heqC (by decide)
              obtain ⟨v2, hV2⟩ := ihV _ _ _ heqV hnb1
              rw [removeAllL_cons_nb hp hcb] at hV2
              obtain ⟨vs3, hE2⟩ := ihE _ _ _ heqE hnb
              refine ⟨v2 :: vs3, ?_⟩
              exact parseElems_some_comma n
                (by rw [skipR_cons hp hsk hcb]; exact hV2)
                (skipR_cons hp heqC (by decide)) hE2
            · exact Option.noConfusion h
          · rename_i r2 heqC
            simp only [Option.some.injEq, Prod.mk.injEq] at h
            obtain ⟨hv, hr⟩ := h
            subst hr
            have hnb1 : nbHead r1 := nbHead_of_skip heqC (by decide)
            obtain ⟨v2, hV2⟩ := ihV _ _ _ heqV hnb1
            rw [removeAllL_cons_nb hp hcb] at hV2
            refine ⟨[v2], ?_⟩
            exact parseElems_some_close n
              (by rw [skipR_cons hp hsk hcb]; exact hV2)
              (skipR_cons hp heqC (by decide))
          · exact Option.noConfusion h
      · exact Option.noConfusion h
    · intro l ms r h hnb
      simp only [parseMembers] at h
      split at h
      · rename_i rest heqQ
        split at h
        · rename_i k r1 heqS
          split at h
          · rename_i r2 heqC
            split at h
            · rename_i v r3 heqV
              split at h
              · rename_i r4 heqC2
                split at h
                · rename_i ms2 r5 heqM
                  simp only [Option.some.injEq, Prod.mk.injEq] at h
                  obtain ⟨hv, hr⟩ := h
                  subst hr
                  obtain ⟨o2, hS2⟩ := scanStr_pres hp rest.length rest (le_refl _) heqS
                  have hnb3 : nbHead r3 := nbHead_of_skip heqC2 (by decide)
                  cases hskv : skipWsJ r2 with
                  | nil =>
                    rw [hskv, parseVal_nil] at heqV
                    exact Option.noConfusion heqV
                  | cons cv xv =>
                    rw [hskv] at heqV
                    have hcvb : cv ≠ btick := parseVal_head_nb heqV
                    obtain ⟨v2, hV2⟩ := ihV _ _ _ heqV hnb3
                    rw [removeAllL_cons_nb hp hcvb] at hV2
                    obtain ⟨ms3, hM2⟩ := ihM _ _ _ heqM hnb
                    refine ⟨(String.mk o2, v2) :: ms3, ?_⟩
                    exact parseMembers_comma n (skipR_cons hp heqQ (by decide)) hS2
                      (skipR_cons hp heqC (by decide))
                      (by rw [skipR_cons hp hskv hcvb]; exact hV2)
                      (skipR_cons hp heqC2 (by decide)) hM2
                · exact Option.noConfusion h
              · rename_i d r4 hcon heqC2
                split at h
                · rename_i hdr
                  simp only [Option.some.injEq, Prod.mk.injEq] at h
                  obtain ⟨hv, hr⟩ := h
                  subst hr
                  obtain ⟨o2, hS2⟩ := scanStr_pres hp rest.length rest (le_refl _) heqS
                  have hnb3 : nbHead r3 := nbHead_of_skip heqC2 (by rw [hdr]; decide)
                  cases hskv : skipWsJ r2 with
                  | nil =>
                    rw [hskv, parseVal_nil] at heqV
                    exact Option.noConfusion heqV
                  | cons cv xv =>
                    rw [hskv] at heqV
                    have hcvb : cv ≠ btick := parseVal_head_nb heqV
                    obtain ⟨v2, hV2⟩ := ihV _ _ _ heqV hnb3
                    rw [removeAllL_cons_nb hp hcvb] at hV2
                    refine ⟨[(String.mk o2, v2)], ?_⟩
                    exact parseMembers_close n (skipR_cons hp heqQ (by decide)) hS2
                      (skipR_cons hp heqC (by decide))
                      (by rw [skipR_cons hp hskv hcvb]; exact hV2)
                      (skipR_cons hp heqC2 (by rw [hdr]; decide)) hdr
                · exact Option.noConfusion h
              · exact Option.noConfusion h
            · exact Option.noConfusion h
          · exact Option.noConfusion h
        · exact Option.noConfusion h
      · exact Option.noConfusion h

/-! ### Truncation: trailing whitespace-only residue can be dropped -/

theorem skipWsJ_wsOnly {y : List Char} (hy : wsOnly y) : skipWsJ y = [] :=
  List.dropWhile_eq_nil_iff.mpr hy

theorem skipWsJ_append_cases {y : List Char} (hy : wsOnly y) (a : List Char) :
    (skipWsJ a = [] ∧ skipWsJ (a ++ y) = []) ∨
    (∃ c x, skipWsJ a = c :: x ∧ skipWsJ (a ++ y) = c :: (x ++ y)) := by
  cases hs : skipWsJ a with
  | nil =>
    left
    refine ⟨rfl, ?_⟩
    simp only [skipWsJ] at hs ⊢
    rw [List.dropWhile_append, hs]
    simp only [List.isEmpty_nil, if_true]
    exact List.dropWhile_eq_nil_iff.mpr hy
  | cons c x =>
    right
    refine ⟨c, x, rfl, ?_⟩
    simp only [skipWsJ] at hs ⊢
    rw [List.dropWhile_append, hs]
    simp

theorem suffix_with_y {u y a r : List Char} (he : u ++ y = a ++ r)
    (hl : y.length ≤ r.length) : ∃ r0, r = r0 ++ y ∧ u = a ++ r0 := by
  have hlen : u.length + y.length = a.length + r.length := by
    have h9 := congrArg List.length he
    simpa using h9
  have hau : a.length ≤ u.length := by omega
  refine ⟨u.drop a.length, ?_, ?_⟩
  · rw [← List.drop_left a r, ← he, List.drop_append_of_le_length hau]
  · have h2 : a = u.take a.length := by
      have h3 := List.take_left a r
      rw [← he, List.take_append_of_le_length hau] at h3
      exact h3.symm
    conv_lhs => rw [← List.take_append_drop a.length u]
    rw [← h2]

theorem wsOnly_head_false {y : List Char} (hy : wsOnly y) {c : Char} {x : List Char}
    (h : y = c :: x) (hc : jsonWS c = false) : False := by
  have h2 := hy c (by rw [h]; exact List.mem_cons_self _ _)
  rw [hc] at h2
  exact Bool.noConfusion h2

theorem truncVEM {y : List Char} (hy : wsOnly y) : ∀ n : Nat,
    (∀ a v b, parseVal n (a ++ y) = some (v, b ++ y) → parseVal n a = some (v, b)) ∧
    (∀ a vs b, parseElems n (a ++ y) = some (vs, b ++ y) →
      parseElems n a = some (vs, b)) ∧
    (∀ a ms b, parseMembers n (a ++ y) = some (ms, b ++ y) →
      parseMembers n a = some (ms, b)) := by
  intro n
  induction n with
  | zero =>
    refine ⟨?_, ?_, ?_⟩ <;> (intro a x b h; exact Option.noConfusion h)
  | succ n ih =>
    obtain ⟨ihV, ihE, ihM⟩ := ih
    refine ⟨?_, ?_, ?_⟩
    · intro a v b h
      simp only [parseVal] at h
      split at h
      · rename_i rest heq
        cases a with
        | nil =>
          rw [List.nil_append] at heq
          exact (wsOnly_head_false hy heq (by decide)).elim
        | cons c1 a2 =>
          rw [List.cons_append] at heq
          injection heq with hc hrest
          subst hc
          rw [← hrest] at h
          rcases Option.map_eq_some'.mp h with ⟨⟨o, r1⟩, hs, hmk⟩
          simp only [Prod.mk.injEq] at hmk
          have hs2 : scanStr (a2 ++ y) = some (o, b ++ y) := by rw [hs, hmk.2]
          have hs3 := scanStr_trunc hy a2.length a2 (le_refl _) hs2
          rw [parseVal_quote_eq, hs3, Option.map_some']
          rw [hmk.1]
      · rename_i rest heq
        cases a with
        | nil =>
          rw [List.nil_append] at heq
          exact (wsOnly_head_false hy heq (by decide)).elim
        | cons c1 a2 =>
          rw [List.cons_append] at heq
          injection heq with hc hrest
          subst hc
          rw [← hrest] at h
          split at h
          · rename_i r2 heq2
            simp only [Option.some.injEq, Prod.mk.injEq] at h
            obtain ⟨hv, hr⟩ := h
            rcases skipWsJ_append_cases hy a2 with ⟨hs0, hsa⟩ | ⟨d, x, hs0, hsa⟩
            · rw [hsa] at heq2
              exact List.noConfusion heq2
            · rw [hsa] at heq2
              injection heq2 with hd hx
              subst hd
              have hxb : x = b := List.append_cancel_right (by rw [hx, hr])
              rw [← hv, ← hxb]
              exact parseVal_arr_close n hs0
          · rename_i hx0 hcon
            split at h
            · rename_i vs2 r2 heqE
              simp only [Option.some.injEq, Prod.mk.injEq] at h
              obtain ⟨hv, hr⟩ := h
              rcases skipWsJ_append_cases hy a2 with ⟨hs0, hsa⟩ | ⟨d, x, hs0, hsa⟩
              · rw [hsa, parseElems_nil] at heqE
                exact Option.noConfusion heqE
              · have hd : ¬ d = ']' := by
                  intro hd
                  subst hd
                  exact hcon (x ++ y) hsa
                rw [hsa] at heqE
                have heqE2 : parseElems n ((d :: x) ++ y) = some (vs2, b ++ y) := by
                  rw [List.cons_append, heqE, hr]
                have hE2 := ihE (d :: x) vs2 b heqE2
                rw [← hv]
                exact parseVal_arr_go_some n hs0 hd hE2
            · exact Option.noConfusion h
      · rename_i rest heq
        simp only [Option.some.injEq, Prod.mk.injEq] at h
        obtain ⟨hv, hr⟩ := h
        rcases a with _ | ⟨c1, _ | ⟨c2, _ | ⟨c3, _ | ⟨c4, a4⟩⟩⟩⟩
        · rw [List.nil_append] at heq
          exact (wsOnly_head_false hy heq (by decide)).elim
        · simp only [List.cons_append, List.nil_append, List.cons.injEq] at heq
          exact (wsOnly_head_false hy heq.2 (by decide)).elim
        · simp only [List.cons_append, List.nil_append, List.cons.injEq] at heq
          exact (wsOnly_head_false hy heq.2.2 (by decide)).elim
        · simp only [List.cons_append, List.nil_append, List.cons.injEq] at heq
          exact (wsOnly_head_false hy heq.2.2.2 (by decide)).elim
        · simp only [List.cons_append, List.cons.injEq] at heq
          obtain ⟨h1, h2, h3, h4, h5⟩ := heq
          subst h1
          subst h2
          subst h3
          subst h4
          have hab : a4 = b := List.append_cancel_right (by rw [h5, hr])
          rw [parseVal_true_eq, ← hv, hab]
      · rename_i rest heq
        simp only [Option.some.injEq, Prod.mk.injEq] at h
        obtain ⟨hv, hr⟩ := h
        rcases a with _ | ⟨c1, _ | ⟨c2, _ | ⟨c3, _ | ⟨c4, _ | ⟨c5, a5⟩⟩⟩⟩⟩
        · rw [List.nil_append] at heq
          exact (wsOnly_head_false hy heq (by decide)).elim
        · simp only [List.cons_append, List.nil_append, List.cons.injEq] at heq
          exact (wsOnly_head_false hy heq.2 (by decide)).elim
        · simp only [List.cons_append, List.nil_append, List.cons.injEq] at heq
          exact (wsOnly_head_false hy heq.2.2 (by decide)).elim
        · simp only [List.cons_append, List.nil_append, List.cons.injEq] at heq
          exact (wsOnly_head_false hy heq.2.2.2 (by decide)).elim
        · simp only [List.cons_append, List.nil_append, List.cons.injEq] at heq
          exact (wsOnly_head_false hy heq.2.2.2.2 (by decide)).elim
        · simp only [List.cons_append, List.cons.injEq] at heq
          obtain ⟨h1, h2, h3, h4, h5, h6⟩ := heq
          subst h1
          subst h2
          subst h3
          subst h4
          subst h5
          have hab : a5 = b := List.append_cancel_right (by rw [h6, hr])
          rw [parseVal_false_eq, ← hv, hab]
      · rename_i rest heq
        simp only [Option.some.injEq, Prod.mk.injEq] at h
        obtain ⟨hv, hr⟩ := h
        rcases a with _ | ⟨c1, _ | ⟨c2, _ | ⟨c3, _ | ⟨c4, a4⟩⟩⟩⟩
        · rw [List.nil_append] at heq
          exact (wsOnly_head_false hy heq (by decide)).elim
        · simp only [List.cons_append, List.nil_append, List.cons.injEq] at heq
          exact (wsOnly_head_false hy heq.2 (by decide)).elim
        · simp only [List.cons_append, List.nil_append, List.cons.injEq] at heq
          exact (wsOnly_head_false hy heq.2.2 (by decide)).elim
        · simp only [List.cons_append, List.nil_append, List.cons.injEq] at heq
          exact (wsOnly_head_false hy heq.2.2.2 (by decide)).elim
        · simp only [List.cons_append, List.cons.injEq] at heq
          obtain ⟨h1, h2, h3, h4, h5⟩ := heq
          subst h1
          subst h2
          subst h3
          subst h4
          have hab : a4 = b := List.append_cancel_right (by rw [h5, hr])
          rw [parseVal_null_eq, ← hv, hab]
      · rename_i c rest hq hb ht hf hn heq
        cases a with
        | nil =>
          rw [List.nil_append] at heq
          have hcw : jsonWS c = true := hy c (by rw [heq]; exact List.mem_cons_self _ _)
          by_cases hlb : c = lbraceC
          · subst hlb
            exact absurd hcw (by decide)
          · rw [if_neg hlb] at h
            by_cases hnum : c = '-' ∨ isDig c = true
            · rcases hnum with rfl | hdig
              · exact absurd hcw (by decide)
              · rw [(isDig_facts hdig).1] at hcw
                exact Bool.noConfusion hcw
            · rw [if_neg hnum] at h
              exact Option.noConfusion h
        | cons c1 a2 =>
          rw [List.cons_append] at heq
          injection heq with hc hrest
          subst hc
          subst hrest
          split at h
          · rename_i hlb
            subst hlb
            split at h
            · rename_i d r2 heq2
              split at h
              · rename_i hdr
                simp only [Option.some.injEq, Prod.mk.injEq] at h
                obtain ⟨hv, hr⟩ := h
                rcases skipWsJ_append_cases hy a2 with ⟨hs0, hsa⟩ | ⟨d2, x, hs0, hsa⟩
                · rw [hsa] at heq2
                  exact List.noConfusion heq2
                · rw [hsa] at heq2
                  injection heq2 with hd2 hx
                  subst hd2
                  have hxb : x = b := List.append_cancel_right (by rw [hx, hr])
                  rw [← hv, ← hxb]
                  exact parseVal_obj_empty n hs0 hdr
              · rename_i hdr
                split at h
                · rename_i ms2 r3 heqM
                  simp only [Option.some.injEq, Prod.mk.injEq] at h
                  obtain ⟨hv, hr⟩ := h
                  rcases skipWsJ_append_cases hy a2 with ⟨hs0, hsa⟩ | ⟨d2, x, hs0, hsa⟩
                  · rw [hsa] at heq2
                    exact List.noConfusion heq2
                  · rw [hsa] at heq2
                    injection heq2 with hd2 hx
                    subst hd2
                    rw [hsa] at heqM
                    have heqM2 : parseMembers n ((d2 :: x) ++ y) = some (ms2, b ++ y) := by
                      rw [List.cons_append, heqM, hr]
                    have hM2 := ihM (d2 :: x) ms2 b heqM2
                    rw [← hv]
                    exact parseVal_obj_mem n hs0 hdr hM2
                · exact Option.noConfusion h
            · exact Option.noConfusion h
          · split at h
            · rename_i hnum
              rcases Option.map_eq_some'.mp h with ⟨⟨lex, r1⟩, hs, hmk⟩
              simp only [Prod.mk.injEq] at hmk
              have hs2 : scanNum ((c1 :: a2) ++ y) = some (lex, b ++ y) := by
                rw [List.cons_append, hs, hmk.2]
              have hs3 := scanNum_trunc hs2
              rw [parseVal_num_eq hnum n, hs3, Option.map_some']
              rw [hmk.1]
            · exact Option.noConfusion h
      · exact Option.noConfusion h
    · intro a vs b h
      simp only [parseElems] at h
      split at h
      · rename_i v0 r1 heqV
        rcases skipWsJ_append_cases hy a with ⟨hs0, hsa⟩ | ⟨c, x, hs0, hsa⟩
        · rw [hsa, parseVal_nil] at heqV
          exact Option.noConfusion heqV
        · rw [hsa] at heqV
          split at h
          · rename_i r2 heqC
            split at h
            · rename_i vs2 r3 heqE
              simp only [Option.some.injEq, Prod.mk.injEq] at h
              obtain ⟨hv, hr⟩ := h
              have l3 : r3.length = b.length + y.length := len_of_append hr
              obtain ⟨aE, -, heE⟩ := parseElems_consume heqE
              have l2 : r2.length = aE.length + r3.length := len_of_append heE
              have l1a : r1.length =
                  (r1.takeWhile jsonWS).length + (skipWsJ r1).length :=
                len_of_append (skipWsJ_split r1)
              have l1b : (skipWsJ r1).length = r2.length + 1 := by
                rw [heqC]
                simp
              have hyl : y.length ≤ r1.length := by omega
              obtain ⟨aV, -, heV⟩ := parseVal_consume heqV
              obtain ⟨r1p, hr1, -⟩ :=
                suffix_with_y (show (c :: x) ++ y = aV ++ r1 from heV) hyl
              have heqV2 : parseVal n ((c :: x) ++ y) = some (v0, r1p ++ y) := by
                rw [← hr1]
                exact heqV
              have hV2 := ihV (c :: x) v0 r1p heqV2
              rw [hr1] at heqC
              rcases skipWsJ_append_cases hy r1p with ⟨hs02, hsa2⟩ | ⟨c2, x2, hs02, hsa2⟩
              · rw [hsa2] at heqC
                exact List.noConfusion heqC
              · rw [hsa2] at heqC
                injection heqC with hc2 hx2
                subst hc2
                have heqE2 : parseElems n (x2 ++ y) = some (vs2, b ++ y) := by
                  rw [hx2, heqE, hr]
                have hE2 := ihE x2 vs2 b heqE2
                rw [← hv]
                exact parseElems_some_comma n (by rw [hs0]; exact hV2) hs02 hE2
            · exact Option.noConfusion h
          · rename_i r2 heqC
            simp only [Option.some.injEq, Prod.mk.injEq] at h
            obtain ⟨hv, hr⟩ := h
            have l2 : r2.length = b.length + y.length := len_of_append hr
            have l1a : r1.length =
                (r1.takeWhile jsonWS).length + (skipWsJ r1).length :=
              len_of_append (skipWsJ_split r1)
            have l1b : (skipWsJ r1).length = r2.length + 1 := by
              rw [heqC]
              simp
            have hyl : y.length ≤ r1.length := by omega
            obtain ⟨aV, -, heV⟩ := parseVal_consume heqV
            obtain ⟨r1p, hr1, -⟩ :=
              suffix_with_y (show (c :: x) ++ y = aV ++ r1 from heV) hyl
            have heqV2 : parseVal n ((c :: x) ++ y) = some (v0, r1p ++ y) := by
              rw [← hr1]
              exact heqV
            have hV2 := ihV (c :: x) v0 r1p heqV2
            rw [hr1] at heqC
            rcases skipWsJ_append_cases hy r1p with ⟨hs02, hsa2⟩ | ⟨c2, x2, hs02, hsa2⟩
            · rw [hsa2] at heqC
              exact List.noConfusion heqC
            · rw [hsa2] at heqC
              injection heqC with hc2 hx2
              subst hc2
              have hxb : x2 = b := List.append_cancel_right (by rw [hx2, hr])
              rw [← hv]
              exact parseElems_some_close n (by rw [hs0]; exact hV2)
                (by rw [hs02, hxb])
          · exact Option.noConfusion h
      · exact Option.noConfusion h
    · intro a ms b h
      simp only [parseMembers] at h
      split at h
      · rename_i rest heqQ
        split at h
        · rename_i k r1 heqS
          split at h
          · rename_i r2 heqC
            split at h
            · rename_i v r3 heqV
              split at h
              · rename_i r4 heqC2
                split at h
                · rename_i ms2 r5 heqM
                  simp only [Option.some.injEq, Prod.mk.injEq] at h
                  obtain ⟨hv, hr⟩ := h
                  rcases skipWsJ_append_cases hy a with ⟨hs0, hsa⟩ | ⟨c, x, hs0, hsa⟩
                  · rw [hsa] at heqQ
                    exact List.noConfusion heqQ
                  · rw [hsa] at heqQ
                    injection heqQ with hcq hrest
                    subst hcq
                    rw [← hrest] at heqS
                    have l5 : r5.length = b.length + y.length := len_of_append hr
                    obtain ⟨aM, -, heM⟩ := parseMembers_consume heqM
                    have l4 : r4.length = aM.length + r5.length := len_of_append heM
                    have l3a : r3.length =
                        (r3.takeWhile jsonWS).length + (skipWsJ r3).length :=
                      len_of_append (skipWsJ_split r3)
                    have l3b : (skipWsJ r3).length = r4.length + 1 := by
                      rw [heqC2]
                      simp
                    obtain ⟨aV, -, heV⟩ := parseVal_consume heqV
                    have l2a : (skipWsJ r2).length = aV.length + r3.length :=
                      len_of_append heV
                    have l2b : (skipWsJ r2).length ≤ r2.length := skipWsJ_le r2
                    have l1a : r1.length =
                        (r1.takeWhile jsonWS).length + (skipWsJ r1).length :=
                      len_of_append (skipWsJ_split r1)
                    have l1b : (skipWsJ r1).length = r2.length + 1 := by
                      rw [heqC]
                      simp
                    have hyl1 : y.length ≤ r1.length := by omega
                    obtain ⟨aS, -, heS⟩ :=
                      scanStr_consume (x ++ y).length (x ++ y) (le_refl _) heqS
                    obtain ⟨r1p, hr1, -⟩ := suffix_with_y heS hyl1
                    have heqS2 : scanStr (x ++ y) = some (k, r1p ++ y) := by
                      rw [← hr1]
                      exact heqS
                    have hS2 := scanStr_trunc hy x.length x (le_refl _) heqS2
                    rw [hr1] at heqC
                    rcases skipWsJ_append_cases hy r1p with
                      ⟨hs02, hsa2⟩ | ⟨c2, x2, hs02, hsa2⟩
                    · rw [hsa2] at heqC
                      exact List.noConfusion heqC
                    · rw [hsa2] at heqC
                      injection heqC with hc2 hx2
                      subst hc2
                      rw [← hx2] at heqV
                      rcases skipWsJ_append_cases hy x2 with
                        ⟨hs03, hsa3⟩ | ⟨c3, x3, hs03, hsa3⟩
                      · rw [hsa3, parseVal_nil] at heqV
                        exact Option.noConfusion heqV
                      · rw [hsa3] at heqV
                        have hyl3 : y.length ≤ r3.length := by omega
                        obtain ⟨aV2, -, heV2⟩ := parseVal_consume heqV
                        obtain ⟨r3p, hr3, -⟩ :=
                          suffix_with_y (show (c3 :: x3) ++ y = aV2 ++ r3 from heV2) hyl3
                        have heqV3 : parseVal n ((c3 :: x3) ++ y) =
                            some (v, r3p ++ y) := by
                          rw [← hr3]
                          exact heqV
                        have hV2 := ihV (c3 :: x3) v r3p heqV3
                        rw [hr3] at heqC2
                        rcases skipWsJ_append_cases hy r3p with
                          ⟨hs04, hsa4⟩ | ⟨c4, x4, hs04, hsa4⟩
                        · rw [hsa4] at heqC2
                          exact List.noConfusion heqC2
                        · rw [hsa4] at heqC2
                          injection heqC2 with hc4 hx4
                          subst hc4
                          have heqM2 : parseMembers n (x4 ++ y) =
                              some (ms2, b ++ y) := by
                            rw [hx4, heqM, hr]
                          have hM2 := ihM x4 ms2 b heqM2
                          rw [← hv]
                          exact parseMembers_comma n hs0 hS2 hs02
                            (by rw [hs03]; exact hV2) hs04 hM2
                · exact Option.noConfusion h
              · rename_i d r4 hcon heqC2
                split at h
                · rename_i hdr
                  simp only [Option.some.injEq, Prod.mk.injEq] at h
                  obtain ⟨hv, hr⟩ := h
                  rcases skipWsJ_append_cases hy a with ⟨hs0, hsa⟩ | ⟨c, x, hs0, hsa⟩
                  · rw [hsa] at heqQ
                    exact List.noConfusion heqQ
                  · rw [hsa] at heqQ
                    injection heqQ with hcq hrest
                    subst hcq
                    rw [← hrest] at heqS
                    have l4 : r4.length = b.length + y.length := len_of_append hr
                    have l3a : r3.length =
                        (r3.takeWhile jsonWS).length + (skipWsJ r3).length :=
                      len_of_append (skipWsJ_split r3)
                    have l3b : (skipWsJ r3).length = r4.length + 1 := by
                      rw [heqC2]
                      simp
                    obtain ⟨aV, -, heV⟩ := parseVal_consume heqV
                    have l2a : (skipWsJ r2).length = aV.length + r3.length :=
                      len_of_append heV
                    have l2b : (skipWsJ r2).length ≤ r2.length := skipWsJ_le r2
                    have l1a : r1.length =
                        (r1.takeWhile jsonWS).length + (skipWsJ r1).length :=
                      len_of_append (skipWsJ_split r1)
                    have l1b : (skipWsJ r1).length = r2.length + 1 := by
                      rw [heqC]
                      simp
                    have hyl1 : y.length ≤ r1.length := by omega
                    obtain ⟨aS, -, heS⟩ :=
                      scanStr_consume (x ++ y).length (x ++ y) (le_refl _) heqS
                    obtain ⟨r1p, hr1, -⟩ := suffix_with_y heS hyl1
                    have heqS2 : scanStr (x ++ y) = some (k, r1p ++ y) := by
                      rw [← hr1]
                      exact heqS
                    have hS2 := scanStr_trunc hy x.length x (le_refl _) heqS2
                    rw [hr1] at heqC
                    rcases skipWsJ_append_cases hy r1p with
                      ⟨hs02, hsa2⟩ | ⟨c2, x2, hs02, hsa2⟩
                    · rw [hsa2] at heqC
                      exact List.noConfusion heqC
                    · rw [hsa2] at heqC
                      injection heqC with hc2 hx2
                      subst hc2
                      rw [← hx2] at heqV
                      rcases skipWsJ_append_cases hy x2 with
                        ⟨hs03, hsa3⟩ | ⟨c3, x3, hs03, hsa3⟩
                      · rw [hsa3, parseVal_nil] at heqV
                        exact Option.noConfusion heqV
                      · rw [hsa3] at heqV
                        have hyl3 : y.length ≤ r3.length := by omega
                        obtain ⟨aV2, -, heV2⟩ := parseVal_consume heqV
                        obtain ⟨r3p, hr3, -⟩ :=
                          suffix_with_y (show (c3 :: x3) ++ y = aV2 ++ r3 from heV2) hyl3
                        have heqV3 : parseVal n ((c3 :: x3) ++ y) =
                            some (v, r3p ++ y) := by
                          rw [← hr3]
                          exact heqV
                        have hV2 := ihV (c3 :: x3) v r3p heqV3
                        rw [hr3] at heqC2
                        rcases skipWsJ_append_cases hy r3p with
                          ⟨hs04, hsa4⟩ | ⟨c4, x4, hs04, hsa4⟩
                        · rw [hsa4] at heqC2
                          exact List.noConfusion heqC2
                        · rw [hsa4] at heqC2
                          injection heqC2 with hc4 hx4
                          subst hc4
                          have hxb : x4 = b := List.append_cancel_right (by rw [hx4, hr])
                          rw [← hv]
                          exact parseMembers_close n hs0 hS2 hs02
                            (by rw [hs03]; exact hV2)
                            (show skipWsJ r3p = c4 :: b by rw [hs04, hxb]) hdr
                · exact Option.noConfusion h
              · exact Option.noConfusion h
            · exact Option.noConfusion h
          · exact Option.noConfusion h
        · exact Option.noConfusion h
      · exact Option.noConfusion h

theorem parseVal_trunc {y : List Char} (hy : wsOnly y) {n : Nat} {a : List Char}
    {v : JSValue} {b : List Char} (h : parseVal n (a ++ y) = some (v, b ++ y)) :
    parseVal n a = some (v, b) :=
  (truncVEM hy n).1 a v b h

/-! ### Shape of parsed arrays and the final-stage assembly -/

theorem jsonWS_imp_jsWS {c : Char} (h : jsonWS c = true) : jsWS c = true := by
  have h4 : c = ' ' ∨ c = '\t' ∨ c = '\n' ∨ c = '\r' := by simpa [jsonWS] using h
  rcases h4 with rfl | rfl | rfl | rfl <;> decide

theorem dropWhile_jsWS_append {w : List Char} (hw : ∀ c ∈ w, jsWS c = true) :
    ∀ x : List Char, (w ++ x).dropWhile jsWS = x.dropWhile jsWS := by
  induction w with
  | nil => intro x; rfl
  | cons c w ih =>
    intro x
    simp only [List.cons_append, List.dropWhile_cons, hw c (List.mem_cons_self _ _),
      if_true]
    exact ih (fun d hd => hw d (List.mem_cons_of_mem _ hd)) x

theorem trimJS_sandwich {w r : List Char} (hw : ∀ c ∈ w, jsWS c = true)
    (hr : ∀ c ∈ r, jsWS c = true) {c0 cN : Char} (h0 : jsWS c0 = false)
    (hN : jsWS cN = false) (mid : List Char) :
    trimJS (w ++ ((c0 :: (mid ++ [cN])) ++ r)) = c0 :: (mid ++ [cN]) := by
  unfold trimJS
  rw [dropWhile_jsWS_append hw, List.cons_append,
    List.dropWhile_cons_of_neg (by simp [h0])]
  have e1 : (c0 :: ((mid ++ [cN]) ++ r)).reverse
      = r.reverse ++ (cN :: (mid.reverse ++ [c0])) := by
    simp
  rw [e1, dropWhile_jsWS_append (fun c hc => hr c (List.mem_reverse.mp hc)),
    List.dropWhile_cons_of_neg (by simp [hN])]
  simp

theorem shapeE : ∀ n : Nat, ∀ {l : List Char} {vs : List JSValue} {r : List Char},
    parseElems n l = some (vs, r) → ∃ body, l = body ++ ']' :: r := by
  intro n
  induction n with
  | zero => intro l vs r h; exact Option.noConfusion h
  | succ n ih =>
    intro l vs r h
    simp only [parseElems] at h
    split at h
    · rename_i v0 r1 heqV
      split at h
      · rename_i r2 heqC
        split at h
        · rename_i vs2 r3 heqE
          simp only [Option.some.injEq, Prod.mk.injEq] at h
          obtain ⟨hv, hr⟩ := h
          obtain ⟨body2, hbody⟩ := ih heqE
          obtain ⟨aV, -, heV⟩ := parseVal_consume heqV
          refine ⟨l.takeWhile jsonWS ++ (aV ++ (r1.takeWhile jsonWS ++
            (',' :: body2))), ?_⟩
          rw [← hr]
          conv_lhs => rw [skipWsJ_split l, heV, skipWsJ_split r1, heqC, hbody]
          simp [List.append_assoc]
        · exact Option.noConfusion h
      · rename_i r2 heqC
        simp only [Option.some.injEq, Prod.mk.injEq] at h
        obtain ⟨hv, hr⟩ := h
        obtain ⟨aV, -, heV⟩ := parseVal_consume heqV
        refine ⟨l.takeWhile jsonWS ++ (aV ++ r1.takeWhile jsonWS), ?_⟩
        rw [← hr]
        conv_lhs => rw [skipWsJ_split l, heV, skipWsJ_split r1, heqC]
        simp [List.append_assoc]
      · exact Option.noConfusion h
    · exact Option.noConfusion h

theorem parseVal_arr_shape {n : Nat} {rest : List Char} {v : JSValue}
    {r : List Char} (h : parseVal n ('[' :: rest) = some (v, r)) :
    ∃ vs, v = JSValue.arr vs := by
  cases n with
  | zero => exact Option.noConfusion h
  | succ n =>
    rw [parseVal.eq_def] at h
    simp only [] at h
    split at h
    · rename_i r2 heq
      simp only [Option.some.injEq, Prod.mk.injEq] at h
      exact ⟨[], h.1.symm⟩
    · split at h
      · rename_i vs2 r2 heqE
        simp only [Option.some.injEq, Prod.mk.injEq] at h
        exact ⟨vs2, h.1.symm⟩
      · exact Option.noConfusion h

theorem parseVal_arr_decomp {n : Nat} {u : List Char} {vs : List JSValue}
    {r : List Char} (h : parseVal n u = some (JSValue.arr vs, r)) :
    ∃ mid, u = '[' :: (mid ++ ']' :: r) := by
  cases n with
  | zero => exact Option.noConfusion h
  | succ n =>
    simp only [parseVal] at h
    split at h
    · rename_i rest
      rcases Option.map_eq_some'.mp h with ⟨⟨o, r1⟩, hs, hmk⟩
      simp only [Prod.mk.injEq] at hmk
      exact JSValue.noConfusion hmk.1
    · rename_i rest
      split at h
      · rename_i r2 heq
        simp only [Option.some.injEq, Prod.mk.injEq] at h
        refine ⟨rest.takeWhile jsonWS, ?_⟩
        rw [← h.2]
        conv_lhs => rw [skipWsJ_split rest, heq]
      · split at h
        · rename_i vs2 r2 heqE
          simp only [Option.some.injEq, Prod.mk.injEq] at h
          obtain ⟨body, hbody⟩ := shapeE n heqE
          refine ⟨rest.takeWhile jsonWS ++ body, ?_⟩
          rw [← h.2]
          conv_lhs => rw [skipWsJ_split rest, hbody]
          simp [List.append_assoc]
        · exact Option.noConfusion h
    · rename_i rest
      simp only [Option.some.injEq, Prod.mk.injEq] at h
      exact JSValue.noConfusion h.1
    · rename_i rest
      simp only [Option.some.injEq, Prod.mk.injEq] at h
      exact JSValue.noConfusion h.1
    · rename_i rest
      simp only [Option.some.injEq, Prod.mk.injEq] at h
      exact JSValue.noConfusion h.1
    · rename_i c rest hq hb ht hf hn
      split at h
      · rename_i hlb
        split at h
        · rename_i d r2 heq
          split at h
          · simp only [Option.some.injEq, Prod.mk.injEq] at h
            exact JSValue.noConfusion h.1
          · split at h
            · rename_i ms r3 heqM
              simp only [Option.some.injEq, Prod.mk.injEq] at h
              exact JSValue.noConfusion h.1
            · exact Option.noConfusion h
        · exact Option.noConfusion h
      · split at h
        · rename_i hnum
          rcases Option.map_eq_some'.mp h with ⟨⟨lex, r1⟩, hs, hmk⟩
          simp only [Prod.mk.injEq] at hmk
          exact JSValue.noConfusion hmk.1
        · exact Option.noConfusion h
    · exact Option.noConfusion h

theorem jsonStage_exact {mid : List Char} {vs : List JSValue}
    (h : parseJsonL ('[' :: (mid ++ [']'])) = some (JSValue.arr vs)) :
    jsonStage ('[' :: (mid ++ [']'])) = some vs := by
  have hf : firstIdxOf '[' ('[' :: (mid ++ [']'])) = some 0 := by
    simp [firstIdxOf, List.findIdx?_cons]
  have hl : lastIdxOf ']' ('[' :: (mid ++ [']'])) = some (mid.length + 1) := by
    unfold lastIdxOf
    rw [show ('[' :: (mid ++ [']'])).reverse = ']' :: (mid.reverse ++ ['[']) by simp]
    rw [List.findIdx?_cons]
    simp
  unfold jsonStage
  rw [hf, hl]
  simp only []
  rw [if_pos (by omega : 0 < mid.length + 1)]
  rw [List.drop_zero, List.take_of_length_le (by simp)]
  rw [h]

theorem cleanAndParseJSON_jsonStage {text : String} {vs : List JSValue}
    (h : jsonStage (cleanFences text.toList) = some vs) :
    cleanAndParseJSON text = vs := by
  unfold cleanAndParseJSON
  simp only []
  rw [h]

theorem jsonStage_of_parse {t : List Char} {v : List JSValue}
    (h : parseJsonL t = some (JSValue.arr v)) :
    ∃ vs, jsonStage (cleanFences t) = some vs := by
  simp only [parseJsonL] at h
  rcases hp : parseVal (2 * t.length + 2) (skipWsJ t) with _ | ⟨v0, rem⟩
  · rw [hp] at h
    simp only [] at h
    exact Option.noConfusion h
  · rw [hp] at h
    simp only [] at h
    by_cases hrem : skipWsJ rem = []
    · rw [if_pos hrem] at h
      injection h with hv0
      subst hv0
      have hwrem : wsOnly rem := skipWsJ_eq_nil hrem
      have hnbrem : nbHead rem := nbHead_of_wsOnly hwrem
      obtain ⟨mid0, hu⟩ := parseVal_arr_decomp hp
      obtain ⟨v1, hp3⟩ := (presVEM goodPat_json (2 * t.length + 2)).1 _ _ _ hp hnbrem
      rw [removeAllL_id_nb goodPat_json (wsOnly_ne_btick hwrem), hu,
        removeAllL_cons_nb goodPat_json (by decide)] at hp3
      obtain ⟨vs1, hv1⟩ := parseVal_arr_shape hp3
      subst hv1
      obtain ⟨v2, hp4⟩ :=
        (presVEM goodPat_ticks (2 * t.length + 2)).1 _ _ _ hp3 hnbrem
      rw [removeAllL_id_nb goodPat_ticks (wsOnly_ne_btick hwrem),
        removeAllL_cons_nb goodPat_ticks (by decide)] at hp4
      obtain ⟨vs2, hv2⟩ := parseVal_arr_shape hp4
      subst hv2
      obtain ⟨mid2, hdec2⟩ := parseVal_arr_decomp hp4
      injection hdec2 with hh hmid2
      have hp5 : parseVal (2 * t.length + 2) (('[' :: (mid2 ++ [']'])) ++ rem) =
          some (JSValue.arr vs2, [] ++ rem) := by
        rw [List.nil_append,
          show ('[' :: (mid2 ++ [']'])) ++ rem = '[' :: (mid2 ++ ']' :: rem) by simp,
          ← hmid2]
        exact hp4
      have hp6 := parseVal_trunc hwrem hp5
      have hp7 : parseVal (2 * ('[' :: (mid2 ++ [']'])).length + 2)
          ('[' :: (mid2 ++ [']'])) = some (JSValue.arr vs2, []) :=
        parseVal_suff hp6 (by omega)
      have hpj : parseJsonL ('[' :: (mid2 ++ [']'])) = some (JSValue.arr vs2) := by
        unfold parseJsonL
        rw [skipWsJ_cons_not (by decide) _, hp7]
        simp [skipWsJ]
      refine ⟨vs2, ?_⟩
      have hcf : cleanFences t = '[' :: (mid2 ++ [']']) := by
        unfold cleanFences
        conv_lhs => rw [skipWsJ_split t]
        rw [hu,
          removeAllL_append_nb goodPat_json _ _ (wsOnly_ne_btick (takeWhile_wsOnly t)),
          removeAllL_cons_nb goodPat_json (by decide),
          removeAllL_append_nb goodPat_ticks _ _ (wsOnly_ne_btick (takeWhile_wsOnly t)),
          removeAllL_cons_nb goodPat_ticks (by decide), hmid2,
          show '[' :: (mid2 ++ ']' :: rem) = ('[' :: (mid2 ++ [']'])) ++ rem by simp]
        exact trimJS_sandwich
          (fun c hc => jsonWS_imp_jsWS (takeWhile_wsOnly t c hc))
          (fun c hc => jsonWS_imp_jsWS (hwrem c hc)) (by decide) (by decide) mid2
      rw [hcf]
      exact jsonStage_exact hpj
    · rw [if_neg hrem] at h
      exact Option.noConfusion h


/-- Claim C7: for every string `s` that is a valid JSON array, the normalizer
applied to `s` wrapped in markdown code fences (` ```json ` before and
` ``` ` after) returns the same sequence as the normalizer applied to the
unwrapped `s`.  The fence cleanup turns both inputs into the same cleaned
text, and on a valid JSON array the bracket-extraction stage already succeeds
on that cleaned text, so the later stages (which read the original text)
are never consulted. -/
theorem c7_fence_wrap_invariance (s : String) (v : List JSValue)
    (h : parseJsonL s.toList = some (JSValue.arr v)) :
    cleanAndParseJSON (String.mk (patJson ++ s.toList ++ patTicks)) =
      cleanAndParseJSON s := by
  obtain ⟨vs, hjs⟩ := jsonStage_of_parse h
  have hjs2 : jsonStage
      (cleanFences (String.mk (patJson ++ s.toList ++ patTicks)).toList) =
      some vs := by
    rw [show (String.mk (patJson ++ s.toList ++ patTicks)).toList =
      patJson ++ (s.toList ++ patTicks) from rfl, cleanFences_wrap]
    exact hjs
  rw [cleanAndParseJSON_jsonStage hjs2, cleanAndParseJSON_jsonStage hjs]

/-- Concrete instance of the fence-wrapping claim: the JSON array
`["ab", "cd"]` parses, and wrapping it in code fences does not change the
normalizer's output. -/
theorem c7_fence_wrap_invariance_witness :
    parseJsonL "[\"ab\", \"cd\"]".toList =
      some (JSValue.arr [JSValue.str "ab", JSValue.str "cd"]) ∧
    cleanAndParseJSON
        (String.mk (patJson ++ "[\"ab\", \"cd\"]".toList ++ patTicks)) =
      cleanAndParseJSON "[\"ab\", \"cd\"]" :=
  ⟨by rfl, c7_fence_wrap_invariance "[\"ab\", \"cd\"]"
    [JSValue.str "ab", JSValue.str "cd"] (by rfl)⟩

end BasedLink

